import Mathlib

/-!
Shallow embedding of rectangular_lsap.cpp (nanolsap): the shortest
augmenting path solver for the rectangular linear sum assignment problem.

Machine doubles are modelled exactly by the inductive type `Dbl α`
(NaN, minus infinity, plus infinity, or a finite value drawn from a
linearly ordered additive group `α`); the operations used by the program
(addition, subtraction, negation, IEEE comparison) are exact on these
values, matching the C++ semantics on the value classes the program
manipulates, with the finite arithmetic performed without rounding.
List indices out of range read a default value; the theorems are stated
on runs where every access is in range, matching the UB-free executions
of the C++ code.
-/

set_option linter.unusedSectionVars false

namespace Nanolsap

variable {α : Type} [LinearOrderedAddCommGroup α]

/-- Exact model of the contents of an IEEE double: NaN, one of the two
infinities, or a finite value. -/
inductive Dbl (α : Type) where
  | nan : Dbl α
  | ninf : Dbl α
  | pinf : Dbl α
  | fin : α → Dbl α
deriving DecidableEq, Repr

/-- IEEE negation on `Dbl`. -/
def Dbl.neg : Dbl α → Dbl α
  | .nan => .nan
  | .ninf => .pinf
  | .pinf => .ninf
  | .fin q => .fin (-q)

/-- IEEE addition on `Dbl` (exact in the finite case). -/
def Dbl.add : Dbl α → Dbl α → Dbl α
  | .fin a, .fin b => .fin (a + b)
  | .fin _, .pinf => .pinf
  | .fin _, .ninf => .ninf
  | .pinf, .fin _ => .pinf
  | .pinf, .pinf => .pinf
  | .ninf, .fin _ => .ninf
  | .ninf, .ninf => .ninf
  | _, _ => .nan

/-- IEEE subtraction on `Dbl`. -/
def Dbl.sub (a b : Dbl α) : Dbl α := Dbl.add a (Dbl.neg b)

/-- IEEE strict less-than on `Dbl` (false whenever an operand is NaN). -/
def Dbl.blt : Dbl α → Dbl α → Bool
  | .fin a, .fin b => decide (a < b)
  | .fin _, .pinf => true
  | .ninf, .fin _ => true
  | .ninf, .pinf => true
  | _, _ => false

/-- IEEE equality test on `Dbl` (false whenever an operand is NaN,
in particular NaN is not equal to itself). -/
def Dbl.beq : Dbl α → Dbl α → Bool
  | .fin a, .fin b => decide (a = b)
  | .pinf, .pinf => true
  | .ninf, .ninf => true
  | _, _ => false

/-- IEEE inequality test on `Dbl`; `Dbl.bne c c` is the NaN test the
program uses. -/
def Dbl.bne (a b : Dbl α) : Bool := !(Dbl.beq a b)

/-- Modelled from the spec: the status codes declared in the header
rectangular_lsap.h, which is not part of the provided sources (success 0,
RECTANGULAR_LSAP_INVALID, RECTANGULAR_LSAP_INFEASIBLE,
RECTANGULAR_LSAP_SUBSCRIPT_INVALID, RECTANGULAR_LSAP_DTYPE_INVALID). -/
inductive Status where
  | ok : Status
  | invalid : Status
  | infeasible : Status
  | subscript_invalid : Status
  | dtype_invalid : Status
deriving DecidableEq, Repr

/-- The class matrix2d of rectangular_lsap.cpp: a view over the flat cost
array with transpose, negation and subscript flags. -/
structure Matrix2d (α : Type) where
  d : List (Dbl α)
  m_nr : Nat
  m_nc : Nat
  m_transpose : Bool
  m_negative : Bool
  m_subrows : Option (List Int)
  m_subcols : Option (List Int)
deriving DecidableEq, Repr

/-- matrix2d::get of rectangular_lsap.cpp: swap indices under transpose,
route them through the subscript selectors, read the flat array, negate if
requested. -/
def Matrix2d.get (m : Matrix2d α) (i j : Nat) : Dbl α :=
  let i2 := if m.m_transpose then j else i
  let j2 := if m.m_transpose then i else j
  let i3 := match m.m_subrows with
    | some sr => (sr.getD i2 0).toNat
    | none => i2
  let j3 := match m.m_subcols with
    | some sc => (sc.getD j2 0).toNat
    | none => j2
  let r := m.d.getD (i3 * m.m_nc + j3) Dbl.nan
  if m.m_negative then Dbl.neg r else r

/-- Result of the inner for-loop of augmenting_path (lines 133-150 of
rectangular_lsap.cpp): updated path and shortestPathCosts arrays, the
running minimum `lowest` and the position `index` of the selected entry of
`remaining`. -/
structure ScanRes (α : Type) where
  path : List (Option Nat)
  spc : List (Dbl α)
  lowest : Dbl α
  index : Option Nat
deriving DecidableEq, Repr

/-- The inner for-loop of augmenting_path: for each column `j` still in
`remaining` compute the reduced cost `r = minVal + cost(i,j) - u[i] - v[j]`,
relax `shortestPathCosts[j]` and `path[j]`, and track the minimum entry,
preferring (on IEEE-equal ties) a column with `row4col[j] = -1`. -/
def scanLoop (g : Nat → Nat → Dbl α) (u v : List (Dbl α)) (row4col : List (Option Nat))
    (i : Nat) (minVal : Dbl α) :
    List Nat → Nat → List (Option Nat) → List (Dbl α) → Dbl α → Option Nat → ScanRes α
  | [], _, path, spc, lowest, index => ⟨path, spc, lowest, index⟩
  | j :: rest, it, path, spc, lowest, index =>
    let r := Dbl.sub (Dbl.sub (Dbl.add minVal (g i j)) (u.getD i Dbl.nan)) (v.getD j Dbl.nan)
    let relax := Dbl.blt r (spc.getD j Dbl.nan)
    let path2 := if relax then path.set j (some i) else path
    let spc2 := if relax then spc.set j r else spc
    let sj := spc2.getD j Dbl.nan
    let pick := Dbl.blt sj lowest || (Dbl.beq sj lowest && (row4col.getD j none).isNone)
    let low2 := if pick then sj else lowest
    let idx2 := if pick then some it else index
    scanLoop g u v row4col i minVal rest (it + 1) path2 spc2 low2 idx2

/-- Successful result of augmenting_path: the sink column, the final
minVal, and the mutated scratch arrays consumed by the dual update. -/
structure AugResult (α : Type) where
  sink : Nat
  minVal : Dbl α
  path : List (Option Nat)
  spc : List (Dbl α)
  SR : List Bool
  SC : List Bool
deriving DecidableEq, Repr

/-- The while-loop of augmenting_path.  Returns `none` on the infeasible
exit (`lowest = INFINITY`, the C++ return value -1).  Matched sentinel -1
entries of path, row4col and col4row are modelled by `Option Nat`.  The
fuel argument only bounds the recursion; each pass removes one element of
`remaining`, so fuel `remaining.length + 1` is never exhausted. -/
def augLoop (g : Nat → Nat → Dbl α) (u v : List (Dbl α)) (row4col : List (Option Nat)) :
    Nat → Nat → Dbl α → List (Option Nat) → List (Dbl α) → List Bool → List Bool → List Nat →
    Option (AugResult α)
  | 0, _, _, _, _, _, _, _ => none
  | fuel + 1, i, minVal, path, spc, SR, SC, remaining =>
    let SR2 := SR.set i true
    let res := scanLoop g u v row4col i minVal remaining 0 path spc Dbl.pinf none
    if Dbl.beq res.lowest Dbl.pinf then
      none
    else
      match res.index with
      | none => none
      | some idx =>
        let j := remaining.getD idx 0
        let lastv := remaining.getD (remaining.length - 1) 0
        let remaining2 := (remaining.set idx lastv).dropLast
        let SC2 := SC.set j true
        match row4col.getD j none with
        | none => some ⟨j, res.lowest, res.path, res.spc, SR2, SC2⟩
        | some i2 => augLoop g u v row4col fuel i2 res.lowest res.path res.spc SR2 SC2 remaining2

/-- augmenting_path of rectangular_lsap.cpp: reset the scratch state
(SR, SC false, shortestPathCosts infinite, `remaining` filled in reverse
order) and run the search loop from row `i` with minVal 0. -/
def augmenting_path (g : Nat → Nat → Dbl α) (nr nc : Nat) (u v : List (Dbl α))
    (path : List (Option Nat)) (row4col : List (Option Nat)) (i : Nat) :
    Option (AugResult α) :=
  augLoop g u v row4col (nc + 1) i (Dbl.fin 0) path (List.replicate nc Dbl.pinf)
    (List.replicate nr false) (List.replicate nc false) ((List.range nc).reverse)

/-- The dual update of u in solve (lines 261-267): `u[curRow] += minVal`
and, for every other row `i` with `SR[i]`,
`u[i] += minVal - shortestPathCosts[col4row[i]]`. -/
def updateU (u : List (Dbl α)) (SR : List Bool) (col4row : List (Option Nat))
    (spc : List (Dbl α)) (minVal : Dbl α) (curRow : Nat) : List (Dbl α) :=
  (List.range u.length).map fun i =>
    if i = curRow then Dbl.add (u.getD i Dbl.nan) minVal
    else if SR.getD i false then
      Dbl.add (u.getD i Dbl.nan)
        (Dbl.sub minVal (spc.getD ((col4row.getD i none).getD 0) Dbl.nan))
    else u.getD i Dbl.nan

/-- The dual update of v in solve (lines 269-273): for every column `j`
with `SC[j]`, `v[j] -= minVal - shortestPathCosts[j]`. -/
def updateV (v : List (Dbl α)) (SC : List Bool) (spc : List (Dbl α)) (minVal : Dbl α) :
    List (Dbl α) :=
  (List.range v.length).map fun j =>
    if SC.getD j false then
      Dbl.sub (v.getD j Dbl.nan) (Dbl.sub minVal (spc.getD j Dbl.nan))
    else v.getD j Dbl.nan

/-- The augment loop of solve (lines 276-284): walk back from the sink
along `path`, rewiring row4col and col4row, until reaching curRow.
Returns the new (row4col, col4row).  Fuel bounds the walk; on runs
satisfying the search postcondition the walk reaches curRow first. -/
def augment : Nat → Nat → List (Option Nat) → List (Option Nat) → List (Option Nat) → Nat →
    (List (Option Nat)) × (List (Option Nat))
  | 0, _, _, row4col, col4row, _ => (row4col, col4row)
  | fuel + 1, curRow, path, row4col, col4row, j =>
    let i := (path.getD j none).getD 0
    let row4col2 := row4col.set j (some i)
    let oldj := col4row.getD i none
    let col4row2 := col4row.set i (some j)
    if i = curRow then (row4col2, col4row2)
    else augment fuel curRow path row4col2 col4row2 (oldj.getD 0)

/-- The per-solve mutable state threaded through the main loop of solve:
dual variables, predecessor array and the two matching arrays. -/
structure DriverState (α : Type) where
  u : List (Dbl α)
  v : List (Dbl α)
  path : List (Option Nat)
  col4row : List (Option Nat)
  row4col : List (Option Nat)
deriving DecidableEq, Repr

/-- One iteration of the main loop of solve (lines 251-284): run the
augmenting path search from curRow, update the duals, augment the
matching.  `none` models the INFEASIBLE early return. -/
def solveStep (g : Nat → Nat → Dbl α) (nc : Nat) (curRow : Nat) (st : DriverState α) :
    Option (DriverState α) :=
  match augmenting_path g st.u.length nc st.u st.v st.path st.row4col curRow with
  | none => none
  | some res =>
    let u2 := updateU st.u res.SR st.col4row res.spc res.minVal curRow
    let v2 := updateV st.v res.SC res.spc res.minVal
    let pr := augment (nc + 1) curRow res.path st.row4col st.col4row res.sink
    some ⟨u2, v2, res.path, pr.2, pr.1⟩

/-- The main loop of solve: iterate solveStep for curRow, curRow+1, ...
until rowsLeft iterations have been performed. -/
def mainLoop (g : Nat → Nat → Dbl α) (nc : Nat) :
    Nat → Nat → DriverState α → Option (DriverState α)
  | _, 0, st => some st
  | curRow, rowsLeft + 1, st =>
    match solveStep g nc curRow st with
    | none => none
    | some st2 => mainLoop g nc (curRow + 1) rowsLeft st2

/-- The initial driver state of solve: duals zero, path, col4row and
row4col filled with -1 (modelled `none`). -/
def initState (nr nc : Nat) : DriverState α :=
  ⟨List.replicate nr (Dbl.fin 0), List.replicate nc (Dbl.fin 0),
   List.replicate nc none, List.replicate nr none, List.replicate nc none⟩

/-- Bridge between the Option model of matched entries and the intptr_t
representation of the C++ code (-1 for unmatched). -/
def optToInt : Option Nat → Int
  | none => -1
  | some n => (n : Int)

/-- argsort_iter of rectangular_lsap.cpp: the list of indices of `v`
sorted by their values.  The C++ uses std::sort with the strict comparator
`v[i] < v[j]`, whose result on equal keys is unspecified; the model sorts
with the total comparator `v[i] <= v[j]`, which agrees with every
comparison sort whenever the keys are pairwise distinct (as they are on
every successful run, where col4row is injective). -/
def argsort_iter (v : List Int) : List Nat :=
  List.insertionSort (fun i j => v.getD i 0 ≤ v.getD j 0) (List.range v.length)

/-- Output of solve: the status and the two emitted index arrays (empty on
any failure status, where the C++ leaves the caller buffers unwritten). -/
structure SolveResult where
  status : Status
  a : List Int
  b : List Int
deriving DecidableEq, Repr

/-- The element test of the validation scan of solve (lines 183-187):
NaN, or minus infinity while minimizing, or plus infinity while
maximizing. -/
def badEntry (maximize : Bool) (c : Dbl α) : Bool :=
  Dbl.bne c c || (Dbl.beq c Dbl.ninf && !maximize) || (Dbl.beq c Dbl.pinf && maximize)

/-- The subscript bounds check of solve: every entry of the first `len`
entries of `sub` lies in `[0, bound)`. -/
def subInBounds (bound : Int) (len : Int) (sub : List Int) : Bool :=
  (List.range len.toNat).all fun i =>
    decide (0 ≤ sub.getD i 0) && decide (sub.getD i 0 < bound)

/-- The post-validation driver of solve: run the main loop on the fully
flagged cost view `g` and assemble the output in working coordinates
(lines 240-300).  `none` models the INFEASIBLE return. -/
def solveDriver (g : Nat → Nat → Dbl α) (nrW ncW : Nat) (transposeFlag : Bool) :
    Option (List Int × List Int) :=
  match mainLoop g ncW 0 nrW (initState nrW ncW) with
  | none => none
  | some st =>
    let cl : List Int := st.col4row.map optToInt
    if transposeFlag then
      let ord := argsort_iter cl
      some (ord.map (fun x => cl.getD x 0), ord.map (fun x => Int.ofNat x))
    else
      some ((List.range nrW).map (fun i => Int.ofNat i),
            (List.range nrW).map (fun i => cl.getD i 0))

/-- The final packaging step of solve: on INFEASIBLE emit that status,
otherwise remap the working-coordinate outputs through the installed
subscript selectors (lines 302-311) and return success. -/
def finishSolve (subrowsOpt subcolsOpt : Option (List Int))
    (o : Option (List Int × List Int)) : SolveResult :=
  match o with
  | none => ⟨Status.infeasible, [], []⟩
  | some (aw, bw) =>
    let a := match subrowsOpt with
      | some sr => aw.map fun x => sr.getD x.toNat 0
      | none => aw
    let b := match subcolsOpt with
      | some sc => bw.map fun x => sc.getD x.toNat 0
      | none => bw
    ⟨Status.ok, a, b⟩

/-- solve of rectangular_lsap.cpp (the floating-point instantiation):
trivial empty case, element validation, subscript validation, view flag
setup (subscript, transpose, negate), main loop, output assembly and
subscript remap. -/
def solve (nr nc : Nat) (cost : List (Dbl α)) (maximize : Bool)
    (subrows : List Int) (n_subrows : Int) (subcols : List Int) (n_subcols : Int) :
    SolveResult :=
  if nr = 0 ∨ nc = 0 then ⟨Status.ok, [], []⟩
  else if (List.range (nr * nc)).any (fun idx => badEntry maximize (cost.getD idx Dbl.nan)) then
    ⟨Status.invalid, [], []⟩
  else if n_subrows < 0 then ⟨Status.subscript_invalid, [], []⟩
  else if 0 < n_subrows ∧ subInBounds (nr : Int) n_subrows subrows = false then
    ⟨Status.subscript_invalid, [], []⟩
  else if n_subcols < 0 then ⟨Status.subscript_invalid, [], []⟩
  else if 0 < n_subcols ∧ subInBounds (nc : Int) n_subcols subcols = false then
    ⟨Status.subscript_invalid, [], []⟩
  else
    let subrowsOpt : Option (List Int) := if n_subrows = 0 then none else some subrows
    let subcolsOpt : Option (List Int) := if n_subcols = 0 then none else some subcols
    let subscript := subrowsOpt.isSome || subcolsOpt.isSome
    let nr1 : Nat := if subscript then n_subrows.toNat else nr
    let nc1 : Nat := if subscript then n_subcols.toNat else nc
    let transposeFlag := decide (nc1 < nr1)
    let nr2 := if transposeFlag then nc1 else nr1
    let nc2 := if transposeFlag then nr1 else nc1
    let costmat : Matrix2d α := ⟨cost, nr, nc, transposeFlag, maximize, subrowsOpt, subcolsOpt⟩
    finishSolve subrowsOpt subcolsOpt (solveDriver costmat.get nr2 nc2 transposeFlag)

/-- C++ negation of a bool operand, as performed by `r = -r` in
matrix2d::get when T = bool: the value promotes to int, is negated, and
converts back to bool (any nonzero value becomes true). -/
def cppNegBool (b : Bool) : Bool := decide (¬(-(if b then (1 : Int) else 0) = 0))

/-- Promotion of a bool cost entry to the working floating value
(false to 0.0, true to 1.0), exact in the integer carrier. -/
def boolToDbl (b : Bool) : Dbl Int := Dbl.fin (if b then 1 else 0)

/-- The T = bool instantiation of the matrix2d template. -/
structure Matrix2dBool where
  d : List Bool
  m_nr : Nat
  m_nc : Nat
  m_transpose : Bool
  m_negative : Bool
  m_subrows : Option (List Int)
  m_subcols : Option (List Int)
deriving DecidableEq, Repr

/-- matrix2d::get at T = bool: the stored element is fetched as bool and
the Negate flag applies C++ bool negation before the value is promoted at
the use site. -/
def Matrix2dBool.get (m : Matrix2dBool) (i j : Nat) : Bool :=
  let i2 := if m.m_transpose then j else i
  let j2 := if m.m_transpose then i else j
  let i3 := match m.m_subrows with
    | some sr => (sr.getD i2 0).toNat
    | none => i2
  let j3 := match m.m_subcols with
    | some sc => (sc.getD j2 0).toNat
    | none => j2
  let r := m.d.getD (i3 * m.m_nc + j3) false
  if m.m_negative then cppNegBool r else r

/-- The LSAP_BOOL branch of solve_rectangular_linear_sum_assignment_dtype
(line 335-336): solve instantiated at T = bool.  The validation
comparisons on a bool element promote it to a wider arithmetic type, so
they are value-equal to testing the promoted element; the algorithm reads
elements through the bool view, promoting each returned bool at the point
of use. -/
def solveBool (nr nc : Nat) (cost : List Bool) (maximize : Bool)
    (subrows : List Int) (n_subrows : Int) (subcols : List Int) (n_subcols : Int) :
    SolveResult :=
  if nr = 0 ∨ nc = 0 then ⟨Status.ok, [], []⟩
  else if (List.range (nr * nc)).any
      (fun idx => badEntry maximize (boolToDbl (cost.getD idx false))) then
    ⟨Status.invalid, [], []⟩
  else if n_subrows < 0 then ⟨Status.subscript_invalid, [], []⟩
  else if 0 < n_subrows ∧ subInBounds (nr : Int) n_subrows subrows = false then
    ⟨Status.subscript_invalid, [], []⟩
  else if n_subcols < 0 then ⟨Status.subscript_invalid, [], []⟩
  else if 0 < n_subcols ∧ subInBounds (nc : Int) n_subcols subcols = false then
    ⟨Status.subscript_invalid, [], []⟩
  else
    let subrowsOpt : Option (List Int) := if n_subrows = 0 then none else some subrows
    let subcolsOpt : Option (List Int) := if n_subcols = 0 then none else some subcols
    let subscript := subrowsOpt.isSome || subcolsOpt.isSome
    let nr1 : Nat := if subscript then n_subrows.toNat else nr
    let nc1 : Nat := if subscript then n_subcols.toNat else nc
    let transposeFlag := decide (nc1 < nr1)
    let nr2 := if transposeFlag then nc1 else nr1
    let nc2 := if transposeFlag then nr1 else nc1
    let costmatB : Matrix2dBool := ⟨cost, nr, nc, transposeFlag, maximize, subrowsOpt, subcolsOpt⟩
    finishSolve subrowsOpt subcolsOpt
      (solveDriver (fun i j => boolToDbl (costmatB.get i j)) nr2 nc2 transposeFlag)

/-- The relaxed distance of column `j` after row `i` scans it: the value
`min(shortestPathCosts[j], minVal + cost(i,j) - u[i] - v[j])` that lines
137-141 leave in shortestPathCosts[j]. -/
def relaxVal (g : Nat → Nat → Dbl α) (u v : List (Dbl α)) (i : Nat) (minVal : Dbl α)
    (spc : List (Dbl α)) (j : Nat) : Dbl α :=
  let r := Dbl.sub (Dbl.sub (Dbl.add minVal (g i j)) (u.getD i Dbl.nan)) (v.getD j Dbl.nan)
  if Dbl.blt r (spc.getD j Dbl.nan) then r else spc.getD j Dbl.nan

/-- The selection automaton of the scan loop in isolation: process a list
of (value, unmatched) entries starting at position `it`, maintaining
(lowest, index) exactly as lines 142-148 do. -/
def selectFold : List (Dbl α × Bool) → Nat → (Dbl α × Option Nat) → (Dbl α × Option Nat)
  | [], _, acc => acc
  | e :: rest, it, acc =>
    let pick := Dbl.blt e.1 acc.1 || (Dbl.beq e.1 acc.1 && e.2)
    selectFold rest (it + 1) (if pick then (e.1, some it) else acc)

/-- The value component of a scan entry. -/
def entryVal (L : List (Dbl α × Bool)) (p : Nat) : Dbl α := (L.getD p (Dbl.nan, false)).1

/-- The unmatched flag of a scan entry. -/
def entryUnm (L : List (Dbl α × Bool)) (p : Nat) : Bool := (L.getD p (Dbl.nan, false)).2

/-- Invariant of the selection automaton over the processed prefix
[0, it): the running minimum is minimal, the selected position (when
present) is tied with the minimum, a selected unmatched position has no
tied unmatched position after it, and a selected matched position means
no tied unmatched position exists at all and no tied position precedes
it. -/
def SelInv (L : List (Dbl α × Bool)) (it : Nat) (m : Dbl α) (idx : Option Nat) : Prop :=
  (∀ p, p < it → Dbl.blt (entryVal L p) m = false) ∧
  (∀ p, idx = some p → p < it ∧ Dbl.beq (entryVal L p) m = true) ∧
  (∀ p, idx = some p → entryUnm L p = true →
    ∀ q, p < q → q < it → ¬(Dbl.beq (entryVal L q) m = true ∧ entryUnm L q = true)) ∧
  (∀ p, idx = some p → entryUnm L p = false →
    (∀ q, q < it → ¬(Dbl.beq (entryVal L q) m = true ∧ entryUnm L q = true)) ∧
    (∀ q, q < p → Dbl.beq (entryVal L q) m = false))

/-- The materialised submatrix C[P][:, Q] of claim C4: entry (a, b) holds
C[P[a], Q[b]], stored row-major with Q.length columns. -/
def submatrix (cost : List (Dbl α)) (nc : Nat) (P Q : List Int) : List (Dbl α) :=
  (List.range (P.length * Q.length)).map fun idx =>
    cost.getD ((P.getD (idx / Q.length) 0).toNat * nc + (Q.getD (idx % Q.length) 0).toNat)
      Dbl.nan

/-- State invariant of the main loop on a constant cost matrix with
working value `kk`: after `t` completed iterations the first `t` rows and
columns are matched identically, `u` is `kk` on matched rows and 0
elsewhere, and `v` is identically 0. -/
def ConstInv (n t : Nat) (kk : α) (st : DriverState α) : Prop :=
  st.u.length = n ∧ st.v.length = n ∧ st.path.length = n ∧
  st.col4row.length = n ∧ st.row4col.length = n ∧
  (∀ i, i < n → st.u.getD i Dbl.nan = Dbl.fin (if i < t then kk else 0)) ∧
  (∀ j, j < n → st.v.getD j Dbl.nan = Dbl.fin 0) ∧
  (∀ i, i < n → st.col4row.getD i none = if i < t then some i else none) ∧
  (∀ j, j < n → st.row4col.getD j none = if j < t then some j else none)

/-- IEEE less-or-equal on `Dbl` (false whenever an operand is NaN). -/
def Dbl.ble : Dbl α → Dbl α → Bool
  | .fin a, .fin b => decide (a ≤ b)
  | .fin _, .pinf => true
  | .ninf, .fin _ => true
  | .ninf, .ninf => true
  | .ninf, .pinf => true
  | .pinf, .pinf => true
  | _, _ => false

/-- The reduced cost of edge (p, j) under duals u, v:
`cost(p,j) - u[p] - v[j]`. -/
def redcost (g : Nat → Nat → Dbl α) (u v : List (Dbl α)) (p j : Nat) : Dbl α :=
  Dbl.sub (Dbl.sub (g p j) (u.getD p Dbl.nan)) (v.getD j Dbl.nan)

/-- Column j's shortestPathCosts entry records a relaxation by a scanned
row p: the path entry points at p and the stored distance is p's own
distance base plus the reduced cost of (p, j).  The base is 0 for the
root row t and the frozen distance of p's matched column otherwise. -/
def WRT (g : Nat → Nat → Dbl α) (u v : List (Dbl α)) (row4col : List (Option Nat))
    (t nr nc : Nat) (path : List (Option Nat)) (spc : List (Dbl α)) (SR SC : List Bool)
    (j : Nat) : Prop :=
  ∃ p, p < nr ∧ SR.getD p false = true ∧ path.getD j none = some p ∧
    ((p = t ∧ spc.getD j Dbl.nan = Dbl.add (Dbl.fin 0) (redcost g u v p j)) ∨
     (∃ jp, jp < nc ∧ SC.getD jp false = true ∧ row4col.getD jp none = some p ∧
       spc.getD j Dbl.nan = Dbl.add (spc.getD jp Dbl.nan) (redcost g u v p j)))

/-- Every scanned row dominates the current distances: the distance of
any column is at most the scanned row's base plus the reduced cost of
reaching that column from it. -/
def ScanDom (g : Nat → Nat → Dbl α) (u v : List (Dbl α)) (row4col : List (Option Nat))
    (t nr nc : Nat) (spc : List (Dbl α)) (SR SC : List Bool) : Prop :=
  ∀ i2, i2 < nr → SR.getD i2 false = true → ∀ j, j < nc →
    (i2 = t → Dbl.ble (spc.getD j Dbl.nan)
      (Dbl.add (Dbl.fin 0) (redcost g u v i2 j)) = true) ∧
    (∀ jp, jp < nc → SC.getD jp false = true → row4col.getD jp none = some i2 →
      Dbl.ble (spc.getD j Dbl.nan)
        (Dbl.add (spc.getD jp Dbl.nan) (redcost g u v i2 j)) = true)

/-- Full invariant of the augmenting-path loop at the entry of each pass,
relative to the fixed search context (cost view g, duals u and v, current
matching row4col, root row t, working dimensions nr and nc) and the ghost
list sel of columns selected so far in order. -/
def SInv (g : Nat → Nat → Dbl α) (u v : List (Dbl α)) (row4col : List (Option Nat))
    (t nr nc : Nat) (sel : List Nat) (i : Nat) (minVal : Dbl α)
    (path : List (Option Nat)) (spc : List (Dbl α)) (SR SC : List Bool)
    (remaining : List Nat) : Prop :=
  spc.length = nc ∧ path.length = nc ∧ SR.length = nr ∧ SC.length = nc ∧
  remaining.Nodup ∧ (∀ j ∈ remaining, j < nc) ∧
  (∀ j, j < nc → (j ∈ remaining ↔ SC.getD j false = false)) ∧
  sel.Nodup ∧ (∀ j, j ∈ sel ↔ (j < nc ∧ SC.getD j false = true)) ∧
  (∃ m, minVal = Dbl.fin m) ∧
  i < nr ∧
  (i = t ∨ (∃ jm, jm < nc ∧ SC.getD jm false = true ∧ row4col.getD jm none = some i ∧
    spc.getD jm Dbl.nan = minVal)) ∧
  (i = t → minVal = Dbl.fin 0 ∧ (∀ j, j < nc → SC.getD j false = false) ∧
    (∀ j, j < nc → j ∈ remaining)) ∧
  (∀ i2, i2 < nr → ((SR.set i true).getD i2 false = true ↔
    (i2 = t ∨ ∃ j2, j2 < nc ∧ SC.getD j2 false = true ∧ row4col.getD j2 none = some i2))) ∧
  (∀ j, j < nc → spc.getD j Dbl.nan = Dbl.pinf ∨ ∃ d, spc.getD j Dbl.nan = Dbl.fin d) ∧
  (∀ j ∈ remaining, Dbl.ble minVal (spc.getD j Dbl.nan) = true) ∧
  (∀ j, j < nc → SC.getD j false = true →
    (Dbl.ble (spc.getD j Dbl.nan) minVal = true ∧ ∃ d, spc.getD j Dbl.nan = Dbl.fin d) ∧
    (∃ i2, i2 < nr ∧ row4col.getD j none = some i2) ∧
    WRT g u v row4col t nr nc path spc SR SC j) ∧
  (∀ j ∈ remaining, spc.getD j Dbl.nan = Dbl.pinf ∨
    WRT g u v row4col t nr nc path spc SR SC j) ∧
  ScanDom g u v row4col t nr nc spc SR SC ∧
  (∀ k, k < sel.length → ∀ p, path.getD (sel.getD k 0) none = some p → p ≠ t →
    ∃ m2, m2 < k ∧ row4col.getD (sel.getD m2 0) none = some p)

/-- Postcondition of a successful augmenting-path search from root row t
under the fixed context g, u, v, row4col. -/
def AugPost (g : Nat → Nat → Dbl α) (u v : List (Dbl α)) (row4col : List (Option Nat))
    (t nr nc : Nat) (res : AugResult α) : Prop :=
  res.spc.length = nc ∧ res.path.length = nc ∧ res.SR.length = nr ∧ res.SC.length = nc ∧
  res.sink < nc ∧ row4col.getD res.sink none = none ∧ res.SC.getD res.sink false = true ∧
  (∃ m, res.minVal = Dbl.fin m) ∧
  res.spc.getD res.sink Dbl.nan = res.minVal ∧
  (∀ j, j < nc → res.SC.getD j false = true →
    Dbl.ble (res.spc.getD j Dbl.nan) res.minVal = true ∧
    ∃ d, res.spc.getD j Dbl.nan = Dbl.fin d) ∧
  (∀ j, j < nc → res.SC.getD j false = false →
    Dbl.ble res.minVal (res.spc.getD j Dbl.nan) = true) ∧
  (∀ i2, i2 < nr → (res.SR.getD i2 false = true ↔
    (i2 = t ∨ ∃ j2, j2 < nc ∧ res.SC.getD j2 false = true ∧
      row4col.getD j2 none = some i2))) ∧
  (∀ j, j < nc → res.SC.getD j false = true → j ≠ res.sink →
    ∃ i2, i2 < nr ∧ row4col.getD j none = some i2) ∧
  ScanDom g u v row4col t nr nc res.spc res.SR res.SC ∧
  (∀ j, j < nc → res.SC.getD j false = true →
    WRT g u v row4col t nr nc res.path res.spc res.SR res.SC j) ∧
  (∃ selF : List Nat, selF.Nodup ∧
    (∀ j, j ∈ selF ↔ (j < nc ∧ res.SC.getD j false = true)) ∧
    (∀ k, k < selF.length → ∀ p, res.path.getD (selF.getD k 0) none = some p → p ≠ t →
      ∃ m2, m2 < k ∧ row4col.getD (selF.getD m2 0) none = some p))

/-- Bounds invariant of the driver state: row4col stores rows below nr,
col4row stores columns below nc, path stores rows below nr. -/
def BInv (nr nc : Nat) (st : DriverState α) : Prop :=
  (∀ j i2, st.row4col.getD j none = some i2 → i2 < nr) ∧
  (∀ i2 j, st.col4row.getD i2 none = some j → j < nc) ∧
  (∀ j p, st.path.getD j none = some p → p < nr)

/-- Main-loop invariant after t completed iterations: the matching is a
partial bijection covering exactly the rows below t, the duals are
finite and feasible on processed rows, matched edges are tight, and the
column potentials are nonpositive and vanish on unmatched columns. -/
def MInv (g : Nat → Nat → Dbl α) (nr nc t : Nat) (st : DriverState α) : Prop :=
  st.u.length = nr ∧ st.v.length = nc ∧ st.path.length = nc ∧
  st.col4row.length = nr ∧ st.row4col.length = nc ∧
  (∀ i, i < nr → ∃ q, st.u.getD i Dbl.nan = Dbl.fin q) ∧
  (∀ j, j < nc → ∃ q, st.v.getD j Dbl.nan = Dbl.fin q) ∧
  (∀ i j, st.col4row.getD i none = some j → j < nc ∧ st.row4col.getD j none = some i) ∧
  (∀ j i, st.row4col.getD j none = some i → i < nr ∧ st.col4row.getD i none = some j) ∧
  (∀ i, i < nr → ((st.col4row.getD i none).isSome = true ↔ i < t)) ∧
  (∀ i j, i < t → j < nc →
    Dbl.ble (Dbl.add (st.u.getD i Dbl.nan) (st.v.getD j Dbl.nan)) (g i j) = true) ∧
  (∀ i j, st.col4row.getD i none = some j →
    Dbl.add (st.u.getD i Dbl.nan) (st.v.getD j Dbl.nan) = g i j) ∧
  (∀ j, j < nc → Dbl.ble (st.v.getD j Dbl.nan) (Dbl.fin 0) = true) ∧
  (∀ j, j < nc → st.row4col.getD j none = none → st.v.getD j Dbl.nan = Dbl.fin 0) ∧
  (∀ j p, st.path.getD j none = some p → p < nr)

/-- IEEE summation of a list of working values, as the total cost of an
assignment is accumulated. -/
def dblSum (L : List (Dbl α)) : Dbl α := L.foldr Dbl.add (Dbl.fin 0)

/-- The finite component of a working value (0 for NaN and infinities). -/
def Dbl.finPart : Dbl α → α
  | .fin q => q
  | _ => 0

/-!
Basic facts about the `Dbl` operations.
-/

theorem Dbl.beq_eq {a b : Dbl α} (h : Dbl.beq a b = true) : a = b := by
  cases a <;> cases b <;> simp_all [Dbl.beq]

theorem Dbl.blt_irrefl (a : Dbl α) : Dbl.blt a a = false := by
  cases a <;> simp [Dbl.blt]

theorem Dbl.blt_trans {a b c : Dbl α} (h1 : Dbl.blt a b = true) (h2 : Dbl.blt b c = true) :
    Dbl.blt a c = true := by
  cases a <;> cases b <;> cases c <;> simp_all [Dbl.blt]
  exact lt_trans h1 h2

theorem Dbl.blt_ne_nan_left {a b : Dbl α} (h : Dbl.blt a b = true) : a ≠ Dbl.nan := by
  cases a <;> simp_all [Dbl.blt]

theorem Dbl.beq_refl {a : Dbl α} (h : a ≠ Dbl.nan) : Dbl.beq a a = true := by
  cases a <;> simp_all [Dbl.beq]

theorem Dbl.beq_ne_nan_left {a b : Dbl α} (h : Dbl.beq a b = true) : a ≠ Dbl.nan := by
  cases a <;> simp_all [Dbl.beq]

/-- The validation predicate translated to a propositional description. -/
theorem badEntry_iff (maximize : Bool) (c : Dbl α) :
    badEntry maximize c = true ↔
      (c = Dbl.nan ∨ (c = Dbl.ninf ∧ maximize = false) ∨ (c = Dbl.pinf ∧ maximize = true)) := by
  cases c <;> cases maximize <;> simp [badEntry, Dbl.bne, Dbl.beq]

/-!
Validation of the embedding on the concrete scenarios of the
specification (section 8).
-/

example : solve 3 3 ([4, 1, 3, 2, 0, 5, 3, 2, 2].map (fun n : Int => Dbl.fin n)) false [] 0 [] 0 =
    ⟨Status.ok, [0, 1, 2], [1, 0, 2]⟩ := by decide

example : solve 3 3 ([4, 1, 3, 2, 0, 5, 3, 2, 2].map (fun n : Int => Dbl.fin n)) true [] 0 [] 0 =
    ⟨Status.ok, [0, 1, 2], [0, 2, 1]⟩ := by decide

example : solve 3 3 ([1, 1, 1, 1, 1, 1, 1, 1, 1].map (fun n : Int => Dbl.fin n)) false [] 0 [] 0 =
    ⟨Status.ok, [0, 1, 2], [0, 1, 2]⟩ := by decide

example : solve 3 4 ([10, 19, 8, 15, 10, 18, 7, 17, 13, 16, 9, 14].map (fun n : Int => Dbl.fin n))
    false [] 0 [] 0 = ⟨Status.ok, [0, 1, 2], [0, 2, 3]⟩ := by decide

example : solve 3 2 ([1, 2, 3, 4, 5, 6].map (fun n : Int => Dbl.fin n)) false [] 0 [] 0 =
    ⟨Status.ok, [0, 1], [0, 1]⟩ := by decide

example : solve 3 3 ([4, 1, 3, 2, 0, 5, 3, 2, 2].map (fun n : Int => Dbl.fin n)) false
    [0, 2] 2 [1, 2] 2 = ⟨Status.ok, [0, 2], [1, 2]⟩ := by decide

/-!
Claim C3.  With only a column subscript supplied (n_subrows = 0,
n_subcols = 1 in bounds), the code nulls the row selector but then
executes `nr = n_subrows`, so the working row count becomes 0, the main
loop runs zero iterations, and solve returns status 0 with no pairs at
all, contrary to the specified behaviour (keep nr, return min(nr,
n_subcols) pairs).
-/

/-- C3: on the 1 x 2 matrix [[0, 1]] with subcols = [0] and no subrows,
solve returns success with an empty assignment instead of the single pair
(0, 0) required by the claim. -/
theorem C3_single_subscript_empty :
    solve 1 2 [Dbl.fin (0 : Int), Dbl.fin 1] false [] 0 [0] 1 = ⟨Status.ok, [], []⟩ := by
  decide

/-!
Claim C8.  The element validation scan runs first and is a complete
characterisation of the INVALID status.
-/

/-- The packaging step never produces the INVALID status. -/
theorem finishSolve_status_invalid (r c : Option (List Int)) (o : Option (List Int × List Int)) :
    ((finishSolve r c o).status = Status.invalid) ↔ False := by
  rcases o with _ | ⟨aw, bw⟩ <;> simp [finishSolve]

/-- C8: for nonempty matrices, solve returns INVALID exactly when some
element of the full flat nr * nc cost array is NaN, or is minus infinity
while minimizing, or is plus infinity while maximizing; the scan precedes
subscript validation, so this holds for arbitrary (even out-of-bounds)
subscript arguments. -/
theorem C8_invalid_iff (nr nc : Nat) (cost : List (Dbl α)) (maximize : Bool)
    (subrows : List Int) (nsr : Int) (subcols : List Int) (nsc : Int)
    (hnr : 0 < nr) (hnc : 0 < nc) :
    (solve nr nc cost maximize subrows nsr subcols nsc).status = Status.invalid ↔
      ∃ idx, idx < nr * nc ∧ (cost.getD idx Dbl.nan = Dbl.nan ∨
        (cost.getD idx Dbl.nan = Dbl.ninf ∧ maximize = false) ∨
        (cost.getD idx Dbl.nan = Dbl.pinf ∧ maximize = true)) := by
  have h0 : ¬(nr = 0 ∨ nc = 0) := by omega
  by_cases hA : (List.range (nr * nc)).any
      (fun idx => badEntry maximize (cost.getD idx Dbl.nan)) = true
  · rw [solve, if_neg h0, if_pos hA]
    constructor
    · intro _
      rcases List.any_eq_true.mp hA with ⟨idx, hmem, hb⟩
      exact ⟨idx, List.mem_range.mp hmem, (badEntry_iff maximize _).mp hb⟩
    · intro _; rfl
  · rw [solve, if_neg h0, if_neg hA]
    constructor
    · intro h
      exfalso
      repeat' split at h
      all_goals simp_all [Status, finishSolve_status_invalid]
    · rintro ⟨idx, hidx, hc⟩
      exact absurd (List.any_eq_true.mpr
        ⟨idx, List.mem_range.mpr hidx, (badEntry_iff maximize _).mpr hc⟩) hA

/-- Witness for C8 at a concrete input: the 1 x 1 matrix [NaN] is
rejected as INVALID. -/
theorem C8_invalid_iff_witness :
    (solve 1 1 [(Dbl.nan : Dbl Int)] false [] 0 [] 0).status = Status.invalid :=
  (C8_invalid_iff 1 1 [(Dbl.nan : Dbl Int)] false [] 0 [] 0 (by decide) (by decide)).mpr
    ⟨0, by decide, Or.inl rfl⟩

/-!
Claim C10.  On bool matrices the Negate flag is a no-op: negating a C++
bool yields the same bool back, so maximize = true and maximize = false
run identically.
-/

/-- C++ bool negation is the identity: -true converts back to true and
-false stays false. -/
theorem cppNegBool_id (b : Bool) : cppNegBool b = b := by cases b <;> decide

/-- The bool cost view does not depend on the Negate flag. -/
theorem Matrix2dBool.get_negate (d : List Bool) (nr nc : Nat) (t : Bool)
    (ro co : Option (List Int)) :
    Matrix2dBool.get ⟨d, nr, nc, t, true, ro, co⟩ =
      Matrix2dBool.get ⟨d, nr, nc, t, false, ro, co⟩ := by
  funext i j
  simp [Matrix2dBool.get, cppNegBool_id]

/-- C10: at dtype LSAP_BOOL, solving with maximize = true returns exactly
the same status and the same output pairs as maximize = false, for every
bool matrix and every subscript argument. -/
theorem C10_bool_maximize_noop (nr nc : Nat) (cost : List Bool)
    (subrows : List Int) (nsr : Int) (subcols : List Int) (nsc : Int) :
    solveBool nr nc cost true subrows nsr subcols nsc =
      solveBool nr nc cost false subrows nsr subcols nsc := by
  have hbad : ∀ b, badEntry true (boolToDbl b) = badEntry false (boolToDbl b) := by decide
  unfold solveBool
  simp only [hbad, Matrix2dBool.get_negate]

/-!
Claim C2.  Characterisation of the selection step of the scan loop.
-/

/-- The selection automaton preserves `SelInv` over any suffix of the
entry list. -/
theorem selectFold_inv (L : List (Dbl α × Bool)) :
    ∀ (rest : List (Dbl α × Bool)) (it : Nat) (m : Dbl α) (idx : Option Nat),
      rest = L.drop it → SelInv L it m idx →
      SelInv L (it + rest.length) (selectFold rest it (m, idx)).1
        (selectFold rest it (m, idx)).2 := by
  intro rest
  induction rest with
  | nil => intro it m idx _ hInv; simpa using hInv
  | cons e rest2 ih =>
    intro it m idx hdrop hInv
    obtain ⟨hI2, hI3, hI4, hI5⟩ := hInv
    have hlen : it < L.length := by
      by_contra hge
      rw [List.drop_eq_nil_of_le (by omega)] at hdrop
      exact List.cons_ne_nil e rest2 hdrop
    have hget : L[it]? = some e := by
      have h0 := List.getElem?_drop L it 0
      rw [← hdrop] at h0
      simpa using h0.symm
    have hval : entryVal L it = e.1 := by
      simp [entryVal, List.getD_eq_getElem?_getD, hget]
    have hunm : entryUnm L it = e.2 := by
      simp [entryUnm, List.getD_eq_getElem?_getD, hget]
    have hdrop2 : rest2 = L.drop (it + 1) := by
      have h1 := List.drop_drop 1 it L
      rw [← hdrop] at h1
      simpa using h1
    have hcount : it + (e :: rest2).length = (it + 1) + rest2.length := by
      simp [List.length_cons]; omega
    rw [hcount]
    show SelInv L ((it + 1) + rest2.length)
      (selectFold (e :: rest2) it (m, idx)).1 (selectFold (e :: rest2) it (m, idx)).2
    have hstep : selectFold (e :: rest2) it (m, idx) =
        selectFold rest2 (it + 1)
          (if Dbl.blt e.1 m || (Dbl.beq e.1 m && e.2) then (e.1, some it) else (m, idx)) := by
      simp [selectFold]
    rw [hstep]
    by_cases hpick : (Dbl.blt e.1 m || (Dbl.beq e.1 m && e.2)) = true
    · rw [if_pos hpick]
      by_cases hb : Dbl.blt e.1 m = true
      · -- a strictly smaller value: the selection moves to position it
        refine ih (it + 1) e.1 (some it) hdrop2 ⟨?_, ?_, ?_, ?_⟩
        · intro p hp
          rcases Nat.lt_succ_iff_lt_or_eq.mp hp with hp2 | hp2
          · by_contra hc
            rw [Bool.not_eq_false] at hc
            exact absurd (Dbl.blt_trans hc hb) (by simp [hI2 p hp2])
          · subst hp2; rw [hval]; exact Dbl.blt_irrefl e.1
        · intro p hp
          injection hp with hp; subst hp
          exact ⟨Nat.lt_succ_self it, by rw [hval]; exact Dbl.beq_refl (Dbl.blt_ne_nan_left hb)⟩
        · intro p hp _ q hpq hq
          injection hp with hp; subst hp; omega
        · intro p hp hpunm
          injection hp with hp; subst hp
          constructor
          · intro q hq hcon
            rcases Nat.lt_succ_iff_lt_or_eq.mp hq with hq2 | hq2
            · have hv : entryVal L q = e.1 := Dbl.beq_eq hcon.1
              have : Dbl.blt (entryVal L q) m = true := by rw [hv]; exact hb
              simp [hI2 q hq2] at this
            · subst hq2
              rw [hunm] at hcon
              rw [hunm] at hpunm
              simp [hpunm] at hcon
          · intro q hq
            by_contra hc
            rw [Bool.not_eq_false] at hc
            have hv : entryVal L q = e.1 := Dbl.beq_eq hc
            have : Dbl.blt (entryVal L q) m = true := by rw [hv]; exact hb
            simp [hI2 q hq] at this
      · -- an IEEE-equal value at an unmatched column: the selection moves
        have hbeq : Dbl.beq e.1 m = true ∧ e.2 = true := by
          rcases Bool.or_eq_true_iff.mp hpick with h | h
          · exact absurd h hb
          · exact Bool.and_eq_true_iff.mp h
        have he1 : e.1 = m := Dbl.beq_eq hbeq.1
        rw [he1]
        refine ih (it + 1) m (some it) hdrop2 ⟨?_, ?_, ?_, ?_⟩
        · intro p hp
          rcases Nat.lt_succ_iff_lt_or_eq.mp hp with hp2 | hp2
          · exact hI2 p hp2
          · subst hp2; rw [hval, he1]; exact Dbl.blt_irrefl m
        · intro p hp
          injection hp with hp; subst hp
          refine ⟨Nat.lt_succ_self it, ?_⟩
          rw [hval, he1]
          exact Dbl.beq_refl (by rw [← he1]; exact Dbl.beq_ne_nan_left hbeq.1)
        · intro p hp _ q hpq hq
          injection hp with hp; subst hp; omega
        · intro p hp hpunm
          injection hp with hp; subst hp
          rw [hunm] at hpunm
          simp [hbeq.2] at hpunm
    · rw [if_neg hpick]
      have hnp : Dbl.blt e.1 m = false ∧ ¬(Dbl.beq e.1 m = true ∧ e.2 = true) := by
        constructor
        · by_contra hc
          rw [Bool.not_eq_false] at hc
          exact hpick (by simp [hc])
        · intro hc
          exact hpick (by simp [hc.1, hc.2])
      refine ih (it + 1) m idx hdrop2 ⟨?_, ?_, ?_, ?_⟩
      · intro p hp
        rcases Nat.lt_succ_iff_lt_or_eq.mp hp with hp2 | hp2
        · exact hI2 p hp2
        · subst hp2; rw [hval]; exact hnp.1
      · intro p hp
        obtain ⟨h1, h2⟩ := hI3 p hp
        exact ⟨by omega, h2⟩
      · intro p hp hpunm q hpq hq
        rcases Nat.lt_succ_iff_lt_or_eq.mp hq with hq2 | hq2
        · exact hI4 p hp hpunm q hpq hq2
        · subst hq2
          rw [hval, hunm]
          exact hnp.2
      · intro p hp hpunm
        obtain ⟨hA, hB⟩ := hI5 p hp hpunm
        constructor
        · intro q hq
          rcases Nat.lt_succ_iff_lt_or_eq.mp hq with hq2 | hq2
          · exact hA q hq2
          · subst hq2
            rw [hval, hunm]
            exact hnp.2
        · exact hB

/-- A relaxed distance only depends on the previous shortestPathCosts
entry of its own column. -/
theorem relaxVal_congr (g : Nat → Nat → Dbl α) (u v : List (Dbl α)) (i : Nat)
    (minVal : Dbl α) (spc spc2 : List (Dbl α)) (j : Nat)
    (h : spc2.getD j Dbl.nan = spc.getD j Dbl.nan) :
    relaxVal g u v i minVal spc2 j = relaxVal g u v i minVal spc j := by
  simp only [relaxVal]
  rw [h]

/-- Pairing commutes with a common if-condition. -/
theorem ite_pair {β γ : Type} {c : Prop} [Decidable c] (a b : β) (x y : γ) :
    ((if c then a else b : β), (if c then x else y : γ)) =
      if c then (a, x) else (b, y) := by
  split <;> rfl

/-- The scan loop leaves the length of shortestPathCosts unchanged. -/
theorem scanLoop_spc_length (g : Nat → Nat → Dbl α) (u v : List (Dbl α))
    (row4col : List (Option Nat)) (i : Nat) (minVal : Dbl α) :
    ∀ (js : List Nat) (it : Nat) (path : List (Option Nat)) (spc : List (Dbl α))
      (lowest : Dbl α) (index : Option Nat),
      (scanLoop g u v row4col i minVal js it path spc lowest index).spc.length = spc.length := by
  intro js
  induction js with
  | nil => intro it path spc lowest index; simp [scanLoop]
  | cons j rest ih =>
    intro it path spc lowest index
    simp only [scanLoop]
    rw [ih]
    split <;> simp

/-- The scan loop does not touch the shortestPathCosts entry of a column
not in the scanned list. -/
theorem scanLoop_spc_not_mem (g : Nat → Nat → Dbl α) (u v : List (Dbl α))
    (row4col : List (Option Nat)) (i : Nat) (minVal : Dbl α) :
    ∀ (js : List Nat) (j : Nat) (it : Nat) (path : List (Option Nat)) (spc : List (Dbl α))
      (lowest : Dbl α) (index : Option Nat), j ∉ js →
      (scanLoop g u v row4col i minVal js it path spc lowest index).spc.getD j Dbl.nan =
        spc.getD j Dbl.nan := by
  intro js
  induction js with
  | nil => intro j it path spc lowest index _; simp [scanLoop]
  | cons j0 rest ih =>
    intro j it path spc lowest index hj
    have hjne : j0 ≠ j := fun h => hj (h ▸ List.mem_cons_self j0 rest)
    have hjr : j ∉ rest := fun h => hj (List.mem_cons_of_mem j0 h)
    simp only [scanLoop]
    rw [ih j _ _ _ _ _ hjr]
    split
    · rw [List.getD_eq_getElem?_getD, List.getElem?_set_ne hjne, ← List.getD_eq_getElem?_getD]
    · rfl

/-- After the scan, the shortestPathCosts entry of a scanned column holds
its relaxed distance. -/
theorem scanLoop_spc_mem (g : Nat → Nat → Dbl α) (u v : List (Dbl α))
    (row4col : List (Option Nat)) (i : Nat) (minVal : Dbl α) :
    ∀ (js : List Nat) (j : Nat) (it : Nat) (path : List (Option Nat)) (spc : List (Dbl α))
      (lowest : Dbl α) (index : Option Nat), js.Nodup → (∀ j2 ∈ js, j2 < spc.length) →
      j ∈ js →
      (scanLoop g u v row4col i minVal js it path spc lowest index).spc.getD j Dbl.nan =
        relaxVal g u v i minVal spc j := by
  intro js
  induction js with
  | nil => intro j it path spc lowest index _ _ h; simp at h
  | cons j0 rest ih =>
    intro j it path spc lowest index hnd hb hj
    obtain ⟨hj0mem, hnd2⟩ := List.nodup_cons.mp hnd
    have hj0len : j0 < spc.length := hb j0 (List.mem_cons_self j0 rest)
    simp only [scanLoop]
    rcases List.mem_cons.mp hj with hje | hjr
    · subst hje
      rw [scanLoop_spc_not_mem g u v row4col i minVal rest j _ _ _ _ _ hj0mem]
      rw [relaxVal]
      split
      · rw [List.getD_eq_getElem?_getD, List.getElem?_set_eq_of_lt _ hj0len]; rfl
      · rfl
    · have hjne : j0 ≠ j := fun h => hj0mem (h ▸ hjr)
      have hb2 : ∀ j2 ∈ rest, j2 <
          (if Dbl.blt (Dbl.sub (Dbl.sub (Dbl.add minVal (g i j0)) (u.getD i Dbl.nan))
              (v.getD j0 Dbl.nan)) (spc.getD j0 Dbl.nan)
            then spc.set j0 (Dbl.sub (Dbl.sub (Dbl.add minVal (g i j0)) (u.getD i Dbl.nan))
              (v.getD j0 Dbl.nan)) else spc).length := by
        intro j2 h2
        have := hb j2 (List.mem_cons_of_mem j0 h2)
        split <;> simpa
      rw [ih j _ _ _ _ _ hnd2 hb2 hjr]
      apply relaxVal_congr
      split
      · rw [List.getD_eq_getElem?_getD, List.getElem?_set_ne hjne, ← List.getD_eq_getElem?_getD]
      · rfl

/-- The scan loop computes its (lowest, index) result exactly as the
selection automaton run over the relaxed distances and unmatched flags of
the scanned columns. -/
theorem scanLoop_select (g : Nat → Nat → Dbl α) (u v : List (Dbl α))
    (row4col : List (Option Nat)) (i : Nat) (minVal : Dbl α) :
    ∀ (js : List Nat) (it : Nat) (path : List (Option Nat)) (spc : List (Dbl α))
      (lowest : Dbl α) (index : Option Nat), js.Nodup → (∀ j ∈ js, j < spc.length) →
      ((scanLoop g u v row4col i minVal js it path spc lowest index).lowest,
       (scanLoop g u v row4col i minVal js it path spc lowest index).index) =
        selectFold (js.map fun j => (relaxVal g u v i minVal spc j,
          (row4col.getD j none).isNone)) it (lowest, index) := by
  intro js
  induction js with
  | nil => intro it path spc lowest index _ _; simp [scanLoop, selectFold]
  | cons j rest ih =>
    intro it path spc lowest index hnd hb
    obtain ⟨hjmem, hnd2⟩ := List.nodup_cons.mp hnd
    have hjlen : j < spc.length := hb j (List.mem_cons_self j rest)
    have hsj : (if Dbl.blt (Dbl.sub (Dbl.sub (Dbl.add minVal (g i j)) (u.getD i Dbl.nan))
          (v.getD j Dbl.nan)) (spc.getD j Dbl.nan)
        then spc.set j (Dbl.sub (Dbl.sub (Dbl.add minVal (g i j)) (u.getD i Dbl.nan))
          (v.getD j Dbl.nan)) else spc).getD j Dbl.nan =
        relaxVal g u v i minVal spc j := by
      rw [relaxVal]
      split
      · rw [List.getD_eq_getElem?_getD, List.getElem?_set_eq_of_lt _ hjlen]; rfl
      · rfl
    have hb2 : ∀ j2 ∈ rest, j2 <
        (if Dbl.blt (Dbl.sub (Dbl.sub (Dbl.add minVal (g i j)) (u.getD i Dbl.nan))
            (v.getD j Dbl.nan)) (spc.getD j Dbl.nan)
          then spc.set j (Dbl.sub (Dbl.sub (Dbl.add minVal (g i j)) (u.getD i Dbl.nan))
            (v.getD j Dbl.nan)) else spc).length := by
      intro j2 h2
      have := hb j2 (List.mem_cons_of_mem j h2)
      split <;> simpa
    have hmapeq : ∀ (spc2 : List (Dbl α)), (∀ j2 ∈ rest, spc2.getD j2 Dbl.nan = spc.getD j2 Dbl.nan) →
        (rest.map fun j2 => (relaxVal g u v i minVal spc2 j2, (row4col.getD j2 none).isNone)) =
        (rest.map fun j2 => (relaxVal g u v i minVal spc j2, (row4col.getD j2 none).isNone)) := by
      intro spc2 hagree
      apply List.map_congr_left
      intro j2 h2
      rw [relaxVal_congr g u v i minVal spc spc2 j2 (hagree j2 h2)]
    simp only [scanLoop, List.map_cons, selectFold]
    rw [hsj, ih _ _ _ _ _ hnd2 hb2, hmapeq _ ?agree, ite_pair]
    case agree =>
      intro j2 h2
      have hjne : j ≠ j2 := fun h => hjmem (h ▸ h2)
      split
      · rw [List.getD_eq_getElem?_getD, List.getElem?_set_ne hjne, ← List.getD_eq_getElem?_getD]
      · rfl

/-- C2 (amended): in every selection step of the augmenting-path search
over distinct in-range columns, the selected position is tied for the
minimum of the final shortestPathCosts values; among tied positions an
unmatched column is preferred over matched ones (a matched column is
selected only when no tied unmatched position exists at all, and then the
first tied position wins); but when several tied columns are unmatched,
the selected one is the LAST such column encountered in the forward scan
of remaining, not the first. -/
theorem C2_tie_break_amended (g : Nat → Nat → Dbl α) (u v : List (Dbl α))
    (row4col : List (Option Nat)) (i : Nat) (minVal : Dbl α)
    (js : List Nat) (path : List (Option Nat)) (spc : List (Dbl α))
    (res : ScanRes α) (hnd : js.Nodup) (hb : ∀ j ∈ js, j < spc.length)
    (hres : scanLoop g u v row4col i minVal js 0 path spc Dbl.pinf none = res)
    (p : Nat) (hp : res.index = some p) :
    (p < js.length ∧
     (∀ q, q < js.length →
        Dbl.blt (res.spc.getD (js.getD q 0) Dbl.nan) res.lowest = false) ∧
     Dbl.beq (res.spc.getD (js.getD p 0) Dbl.nan) res.lowest = true) ∧
    ((row4col.getD (js.getD p 0) none).isNone = true →
      ∀ q, p < q → q < js.length →
        ¬(Dbl.beq (res.spc.getD (js.getD q 0) Dbl.nan) res.lowest = true ∧
          (row4col.getD (js.getD q 0) none).isNone = true)) ∧
    ((row4col.getD (js.getD p 0) none).isNone = false →
      (∀ q, q < js.length →
        ¬(Dbl.beq (res.spc.getD (js.getD q 0) Dbl.nan) res.lowest = true ∧
          (row4col.getD (js.getD q 0) none).isNone = true)) ∧
      (∀ q, q < p → Dbl.beq (res.spc.getD (js.getD q 0) Dbl.nan) res.lowest = false)) := by
  subst hres
  have hsel := scanLoop_select g u v row4col i minVal js 0 path spc Dbl.pinf none hnd hb
  have hinit : SelInv (js.map fun j => (relaxVal g u v i minVal spc j,
      (row4col.getD j none).isNone)) 0 Dbl.pinf none := by
    refine ⟨fun p hp2 => absurd hp2 (Nat.not_lt_zero p), ?_, ?_, ?_⟩
    · intro p hp2; cases hp2
    · intro p hp2; cases hp2
    · intro p hp2; cases hp2
  have hinv := selectFold_inv (js.map fun j => (relaxVal g u v i minVal spc j,
      (row4col.getD j none).isNone))
    (js.map fun j => (relaxVal g u v i minVal spc j, (row4col.getD j none).isNone))
    0 Dbl.pinf none (List.drop_zero _).symm hinit
  rw [← hsel] at hinv
  have hlenL : (js.map fun j => (relaxVal g u v i minVal spc j,
      (row4col.getD j none).isNone)).length = js.length := List.length_map _ _
  rw [Nat.zero_add, hlenL] at hinv
  dsimp only at hinv
  obtain ⟨I2, I3, I4, I5⟩ := hinv
  have hEV : ∀ q, q < js.length →
      entryVal (js.map fun j => (relaxVal g u v i minVal spc j,
        (row4col.getD j none).isNone)) q =
      (scanLoop g u v row4col i minVal js 0 path spc Dbl.pinf none).spc.getD
        (js.getD q 0) Dbl.nan := by
    intro q hq
    have hmem : js.getD q 0 ∈ js := by
      rw [List.getD_eq_getElem js 0 hq]
      exact List.getElem_mem hq
    rw [scanLoop_spc_mem g u v row4col i minVal js _ _ _ _ _ _ hnd hb hmem]
    rw [entryVal, List.getD_eq_getElem?_getD, List.getElem?_map,
      List.getElem?_eq_getElem hq]
    simp [List.getD_eq_getElem?_getD, List.getElem?_eq_getElem hq]
  have hEU : ∀ q, q < js.length →
      entryUnm (js.map fun j => (relaxVal g u v i minVal spc j,
        (row4col.getD j none).isNone)) q =
      (row4col.getD (js.getD q 0) none).isNone := by
    intro q hq
    rw [entryUnm, List.getD_eq_getElem?_getD, List.getElem?_map,
      List.getElem?_eq_getElem hq]
    simp [List.getD_eq_getElem?_getD, List.getElem?_eq_getElem hq]
  obtain ⟨hplt, hptied⟩ := I3 p hp
  refine ⟨⟨hplt, ?_, ?_⟩, ?_, ?_⟩
  · intro q hq
    have := I2 q hq
    rwa [hEV q hq] at this
  · rwa [hEV p hplt] at hptied
  · intro hunm q hpq hq
    have := I4 p hp (by rwa [hEU p hplt]) q hpq hq
    rwa [hEV q hq, hEU q hq] at this
  · intro hunm
    obtain ⟨hA, hB⟩ := I5 p hp (by rwa [hEU p hplt])
    constructor
    · intro q hq
      have := hA q hq
      rwa [hEV q hq, hEU q hq] at this
    · intro q hq
      have := hB q hq
      rwa [hEV q (lt_trans hq hplt)] at this

/-- C2 (counterexample to the claim as stated): a scan over two columns
that are both unmatched and tied for the minimum selects position 1, the
last tied unmatched position in the forward scan, not position 0, the
first one, which the claim predicts. -/
theorem C2_counterexample :
    let res := scanLoop (fun _ _ => Dbl.fin (1 : Int)) [Dbl.fin 0] [Dbl.fin 0, Dbl.fin 0]
      [none, none] 0 (Dbl.fin 0) [0, 1] 0 [none, none] [Dbl.pinf, Dbl.pinf] Dbl.pinf none
    Dbl.beq (res.spc.getD 0 Dbl.nan) res.lowest = true ∧
    Dbl.beq (res.spc.getD 1 Dbl.nan) res.lowest = true ∧
    ([none, none] : List (Option Nat)).getD 0 none = none ∧
    ([none, none] : List (Option Nat)).getD 1 none = none ∧
    res.index ≠ some 0 ∧ res.index = some 1 := by
  decide

/-- Witness for C2 at the concrete tied scan: the hypotheses hold and the
selected position 1 is tied for the minimum. -/
theorem C2_tie_break_amended_witness :
    ([0, 1] : List Nat).Nodup ∧
    Dbl.beq ((scanLoop (fun _ _ => Dbl.fin (1 : Int)) [Dbl.fin 0] [Dbl.fin 0, Dbl.fin 0]
        [none, none] 0 (Dbl.fin 0) [0, 1] 0 [none, none] [Dbl.pinf, Dbl.pinf]
        Dbl.pinf none).spc.getD 1 Dbl.nan)
      ((scanLoop (fun _ _ => Dbl.fin (1 : Int)) [Dbl.fin 0] [Dbl.fin 0, Dbl.fin 0]
        [none, none] 0 (Dbl.fin 0) [0, 1] 0 [none, none] [Dbl.pinf, Dbl.pinf]
        Dbl.pinf none).lowest) = true := by
  refine ⟨by decide, ?_⟩
  have h := C2_tie_break_amended (fun _ _ => Dbl.fin (1 : Int)) [Dbl.fin 0]
    [Dbl.fin 0, Dbl.fin 0] [none, none] 0 (Dbl.fin 0) [0, 1] [none, none]
    [Dbl.pinf, Dbl.pinf] _ (by decide) (by decide) rfl 1 (by decide)
  exact h.1.2.2

/-!
Generic list access helpers.
-/

theorem getD_set_self {β : Type} (l : List β) (i : Nat) (x d : β) (h : i < l.length) :
    (l.set i x).getD i d = x := by
  rw [List.getD_eq_getElem?_getD, List.getElem?_set_eq_of_lt x h]
  rfl

theorem getD_set_ne {β : Type} (l : List β) {i j : Nat} (x : β) (d : β) (h : i ≠ j) :
    (l.set i x).getD j d = l.getD j d := by
  rw [List.getD_eq_getElem?_getD, List.getElem?_set_ne h, ← List.getD_eq_getElem?_getD]

theorem getD_replicate {β : Type} {n i : Nat} (x d : β) (h : i < n) :
    (List.replicate n x).getD i d = x := by
  rw [List.getD_eq_getElem?_getD,
    List.getElem?_eq_getElem (by simpa using h : i < (List.replicate n x).length)]
  simp

theorem getD_map {β γ : Type} (f : β → γ) (l : List β) (i : Nat) (d : γ) (d2 : β)
    (h : i < l.length) : (l.map f).getD i d = f (l.getD i d2) := by
  rw [List.getD_eq_getElem?_getD, List.getElem?_map, List.getElem?_eq_getElem h]
  simp [List.getD_eq_getElem?_getD, List.getElem?_eq_getElem h]

theorem revRange_getD {n p : Nat} (h : p < n) :
    ((List.range n).reverse.getD p 0) = n - 1 - p := by
  rw [List.getD_eq_getElem?_getD,
    List.getElem?_eq_getElem (by simpa using h : p < (List.range n).reverse.length)]
  simp [List.getElem_reverse, List.getElem_range]

/-!
The path array after a scan: every scanned column whose reduced cost
dominated its previous shortestPathCosts entry points at the scanning
row; every other entry is untouched.
-/

theorem scanLoop_path_length (g : Nat → Nat → Dbl α) (u v : List (Dbl α))
    (row4col : List (Option Nat)) (i : Nat) (minVal : Dbl α) :
    ∀ (js : List Nat) (it : Nat) (path : List (Option Nat)) (spc : List (Dbl α))
      (lowest : Dbl α) (index : Option Nat),
      (scanLoop g u v row4col i minVal js it path spc lowest index).path.length =
        path.length := by
  intro js
  induction js with
  | nil => intro it path spc lowest index; simp [scanLoop]
  | cons j rest ih =>
    intro it path spc lowest index
    simp only [scanLoop]
    rw [ih]
    split <;> simp

theorem scanLoop_path_not_mem (g : Nat → Nat → Dbl α) (u v : List (Dbl α))
    (row4col : List (Option Nat)) (i : Nat) (minVal : Dbl α) :
    ∀ (js : List Nat) (j : Nat) (it : Nat) (path : List (Option Nat)) (spc : List (Dbl α))
      (lowest : Dbl α) (index : Option Nat), j ∉ js →
      (scanLoop g u v row4col i minVal js it path spc lowest index).path.getD j none =
        path.getD j none := by
  intro js
  induction js with
  | nil => intro j it path spc lowest index _; simp [scanLoop]
  | cons j0 rest ih =>
    intro j it path spc lowest index hj
    have hjne : j0 ≠ j := fun h => hj (h ▸ List.mem_cons_self j0 rest)
    have hjr : j ∉ rest := fun h => hj (List.mem_cons_of_mem j0 h)
    simp only [scanLoop]
    rw [ih j _ _ _ _ _ hjr]
    split
    · exact getD_set_ne path (some i) none hjne
    · rfl

theorem scanLoop_path_mem (g : Nat → Nat → Dbl α) (u v : List (Dbl α))
    (row4col : List (Option Nat)) (i : Nat) (minVal : Dbl α) :
    ∀ (js : List Nat) (j : Nat) (it : Nat) (path : List (Option Nat)) (spc : List (Dbl α))
      (lowest : Dbl α) (index : Option Nat), js.Nodup →
      (∀ j2 ∈ js, j2 < spc.length) → (∀ j2 ∈ js, j2 < path.length) → j ∈ js →
      (scanLoop g u v row4col i minVal js it path spc lowest index).path.getD j none =
        (if Dbl.blt (Dbl.sub (Dbl.sub (Dbl.add minVal (g i j)) (u.getD i Dbl.nan))
            (v.getD j Dbl.nan)) (spc.getD j Dbl.nan)
         then some i else path.getD j none) := by
  intro js
  induction js with
  | nil => intro j it path spc lowest index _ _ _ h; simp at h
  | cons j0 rest ih =>
    intro j it path spc lowest index hnd hbs hbp hj
    obtain ⟨hj0mem, hnd2⟩ := List.nodup_cons.mp hnd
    have hj0lens : j0 < spc.length := hbs j0 (List.mem_cons_self j0 rest)
    have hj0lenp : j0 < path.length := hbp j0 (List.mem_cons_self j0 rest)
    simp only [scanLoop]
    rcases List.mem_cons.mp hj with hje | hjr
    · subst hje
      rw [scanLoop_path_not_mem g u v row4col i minVal rest j _ _ _ _ _ hj0mem]
      split
      · exact getD_set_self path j (some i) none hj0lenp
      · rfl
    · have hjne : j0 ≠ j := fun h => hj0mem (h ▸ hjr)
      have hbs2 : ∀ j2 ∈ rest, j2 <
          (if Dbl.blt (Dbl.sub (Dbl.sub (Dbl.add minVal (g i j0)) (u.getD i Dbl.nan))
              (v.getD j0 Dbl.nan)) (spc.getD j0 Dbl.nan)
            then spc.set j0 (Dbl.sub (Dbl.sub (Dbl.add minVal (g i j0)) (u.getD i Dbl.nan))
              (v.getD j0 Dbl.nan)) else spc).length := by
        intro j2 h2
        have := hbs j2 (List.mem_cons_of_mem j0 h2)
        split <;> simpa
      have hbp2 : ∀ j2 ∈ rest, j2 <
          (if Dbl.blt (Dbl.sub (Dbl.sub (Dbl.add minVal (g i j0)) (u.getD i Dbl.nan))
              (v.getD j0 Dbl.nan)) (spc.getD j0 Dbl.nan)
            then path.set j0 (some i) else path).length := by
        intro j2 h2
        have := hbp j2 (List.mem_cons_of_mem j0 h2)
        split <;> simpa
      rw [ih j _ _ _ _ _ hnd2 hbs2 hbp2 hjr]
      have hspc : (if Dbl.blt (Dbl.sub (Dbl.sub (Dbl.add minVal (g i j0)) (u.getD i Dbl.nan))
            (v.getD j0 Dbl.nan)) (spc.getD j0 Dbl.nan)
          then spc.set j0 (Dbl.sub (Dbl.sub (Dbl.add minVal (g i j0)) (u.getD i Dbl.nan))
            (v.getD j0 Dbl.nan)) else spc).getD j Dbl.nan = spc.getD j Dbl.nan := by
        split
        · exact getD_set_ne spc _ Dbl.nan hjne
        · rfl
      have hpath : (if Dbl.blt (Dbl.sub (Dbl.sub (Dbl.add minVal (g i j0)) (u.getD i Dbl.nan))
            (v.getD j0 Dbl.nan)) (spc.getD j0 Dbl.nan)
          then path.set j0 (some i) else path).getD j none = path.getD j none := by
        split
        · exact getD_set_ne path _ none hjne
        · rfl
      rw [hspc, hpath]

/-!
Claim C7.  On a constant square matrix the solver returns the identity
assignment.
-/

/-- A finite entry always passes validation. -/
theorem badEntry_fin (maximize : Bool) (q : α) :
    badEntry maximize (Dbl.fin q) = false := by
  cases maximize <;> simp [badEntry, Dbl.bne, Dbl.beq]

/-- Entry value of a mapped scan list. -/
theorem entryVal_map (f : Nat → Dbl α) (h : Nat → Bool) (js : List Nat) (p : Nat)
    (hp : p < js.length) :
    entryVal (js.map fun j => (f j, h j)) p = f (js.getD p 0) := by
  rw [entryVal, List.getD_eq_getElem?_getD, List.getElem?_map, List.getElem?_eq_getElem hp]
  simp [List.getD_eq_getElem?_getD, List.getElem?_eq_getElem hp]

/-- Unmatched flag of a mapped scan list. -/
theorem entryUnm_map (f : Nat → Dbl α) (h : Nat → Bool) (js : List Nat) (p : Nat)
    (hp : p < js.length) :
    entryUnm (js.map fun j => (f j, h j)) p = h (js.getD p 0) := by
  rw [entryUnm, List.getD_eq_getElem?_getD, List.getElem?_map, List.getElem?_eq_getElem hp]
  simp [List.getD_eq_getElem?_getD, List.getElem?_eq_getElem hp]

/-- The selection automaton ends with a selected position whenever some
entry beats the initial accumulator or one was already selected. -/
theorem selectFold_isSome : ∀ (rest : List (Dbl α × Bool)) (it : Nat) (acc : Dbl α × Option Nat),
    ((∃ e ∈ rest, Dbl.blt e.1 acc.1 = true) ∨ acc.2.isSome = true) →
    (selectFold rest it acc).2.isSome = true := by
  intro rest
  induction rest with
  | nil =>
    intro it acc h
    rcases h with ⟨e, he, _⟩ | h
    · simp at he
    · simpa [selectFold] using h
  | cons e rest2 ih =>
    intro it acc h
    simp only [selectFold]
    by_cases hpick : (Dbl.blt e.1 acc.1 || (Dbl.beq e.1 acc.1 && e.2)) = true
    · rw [if_pos hpick]
      exact ih _ _ (Or.inr (by simp))
    · rw [if_neg hpick]
      apply ih
      rcases h with ⟨e2, he2, hblt⟩ | hsome
      · rcases List.mem_cons.mp he2 with he2e | he2r
        · subst he2e
          exact absurd (by simp [hblt]) hpick
        · exact Or.inl ⟨e2, he2r, hblt⟩
      · exact Or.inr hsome

/-- On a constant cost row the scan returns lowest = kk and selects the
position of column `t` (the last tied unmatched position of the
reverse-filled remaining array). -/
theorem const_scan (n t : Nat) (kk : α) (g : Nat → Nat → Dbl α)
    (u v : List (Dbl α)) (row4col : List (Option Nat)) (path : List (Option Nat))
    (ht : t < n)
    (hg : ∀ j, j < n → g t j = Dbl.fin kk)
    (hu : u.getD t Dbl.nan = Dbl.fin 0)
    (hv : ∀ j, j < n → v.getD j Dbl.nan = Dbl.fin 0)
    (hrc : ∀ j, j < n → row4col.getD j none = if j < t then some j else none)
    (hplen : path.length = n) :
    (scanLoop g u v row4col t (Dbl.fin 0) ((List.range n).reverse) 0 path
      (List.replicate n Dbl.pinf) Dbl.pinf none).lowest = Dbl.fin kk ∧
    (scanLoop g u v row4col t (Dbl.fin 0) ((List.range n).reverse) 0 path
      (List.replicate n Dbl.pinf) Dbl.pinf none).index = some (n - 1 - t) ∧
    (∀ j, j < n → (scanLoop g u v row4col t (Dbl.fin 0) ((List.range n).reverse) 0 path
      (List.replicate n Dbl.pinf) Dbl.pinf none).spc.getD j Dbl.nan = Dbl.fin kk) ∧
    (∀ j, j < n → (scanLoop g u v row4col t (Dbl.fin 0) ((List.range n).reverse) 0 path
      (List.replicate n Dbl.pinf) Dbl.pinf none).path.getD j none = some t) := by
  have hnd : ((List.range n).reverse).Nodup := List.nodup_reverse.mpr (List.nodup_range n)
  have hjmem : ∀ j ∈ (List.range n).reverse, j < n := by
    intro j hj
    exact List.mem_range.mp (List.mem_reverse.mp hj)
  have hb : ∀ j ∈ (List.range n).reverse, j < (List.replicate n (Dbl.pinf : Dbl α)).length := by
    intro j hj
    simpa using hjmem j hj
  have hlenjs : ((List.range n).reverse).length = n := by simp
  have hrelax : ∀ j ∈ (List.range n).reverse,
      relaxVal g u v t (Dbl.fin 0) (List.replicate n Dbl.pinf) j = Dbl.fin kk := by
    intro j hj
    have hjn := hjmem j hj
    rw [relaxVal]
    rw [hg j hjn, hu, hv j hjn, getD_replicate _ _ hjn]
    simp [Dbl.add, Dbl.sub, Dbl.neg, Dbl.blt]
  have hsel := scanLoop_select g u v row4col t (Dbl.fin 0) ((List.range n).reverse) 0
    path (List.replicate n Dbl.pinf) Dbl.pinf none hnd hb
  have hEV : ∀ p, p < n →
      entryVal ((List.range n).reverse.map fun j => (relaxVal g u v t (Dbl.fin 0)
        (List.replicate n Dbl.pinf) j, (row4col.getD j none).isNone)) p = Dbl.fin kk := by
    intro p hp
    rw [entryVal_map _ _ _ p (by rwa [hlenjs])]
    apply hrelax
    rw [List.getD_eq_getElem ((List.range n).reverse) 0 (by rwa [hlenjs])]
    exact List.getElem_mem (by rwa [hlenjs])
  have hEU : ∀ p, p < n →
      entryUnm ((List.range n).reverse.map fun j => (relaxVal g u v t (Dbl.fin 0)
        (List.replicate n Dbl.pinf) j, (row4col.getD j none).isNone)) p =
        (if n - 1 - p < t then false else true) := by
    intro p hp
    rw [entryUnm_map _ _ _ p (by rwa [hlenjs])]
    rw [revRange_getD hp, hrc (n - 1 - p) (by omega)]
    split <;> simp
  have hlenL : ((List.range n).reverse.map fun j => (relaxVal g u v t (Dbl.fin 0)
      (List.replicate n Dbl.pinf) j, (row4col.getD j none).isNone)).length = n := by
    simp
  have hsome : ((scanLoop g u v row4col t (Dbl.fin 0) ((List.range n).reverse) 0 path
      (List.replicate n Dbl.pinf) Dbl.pinf none).index).isSome = true := by
    have h0 := selectFold_isSome ((List.range n).reverse.map fun j =>
        (relaxVal g u v t (Dbl.fin 0) (List.replicate n Dbl.pinf) j,
          (row4col.getD j none).isNone)) 0 (Dbl.pinf, none) ?_
    · have := congrArg Prod.snd hsel
      dsimp only at this
      rw [this]
      exact h0
    · left
      refine ⟨((List.range n).reverse.map fun j => (relaxVal g u v t (Dbl.fin 0)
          (List.replicate n Dbl.pinf) j, (row4col.getD j none).isNone)).getD 0
          (Dbl.nan, false), ?_, ?_⟩
      · rw [List.getD_eq_getElem _ _ (by rw [hlenL]; omega)]
        exact List.getElem_mem (by rw [hlenL]; omega)
      · show Dbl.blt (entryVal _ 0) Dbl.pinf = true
        rw [hEV 0 (by omega)]
        simp [Dbl.blt]
  obtain ⟨p, hp⟩ := Option.isSome_iff_exists.mp hsome
  have hinit : SelInv ((List.range n).reverse.map fun j => (relaxVal g u v t (Dbl.fin 0)
      (List.replicate n Dbl.pinf) j, (row4col.getD j none).isNone)) 0 Dbl.pinf none := by
    refine ⟨fun p hp2 => absurd hp2 (Nat.not_lt_zero p), ?_, ?_, ?_⟩
    · intro p hp2; cases hp2
    · intro p hp2; cases hp2
    · intro p hp2; cases hp2
  have hinv := selectFold_inv ((List.range n).reverse.map fun j => (relaxVal g u v t
      (Dbl.fin 0) (List.replicate n Dbl.pinf) j, (row4col.getD j none).isNone))
    ((List.range n).reverse.map fun j => (relaxVal g u v t (Dbl.fin 0)
      (List.replicate n Dbl.pinf) j, (row4col.getD j none).isNone))
    0 Dbl.pinf none (List.drop_zero _).symm hinit
  rw [← hsel] at hinv
  rw [Nat.zero_add, hlenL] at hinv
  dsimp only at hinv
  obtain ⟨I2, I3, I4, I5⟩ := hinv
  obtain ⟨hplt, hptied⟩ := I3 p hp
  have hlow : (scanLoop g u v row4col t (Dbl.fin 0) ((List.range n).reverse) 0 path
      (List.replicate n Dbl.pinf) Dbl.pinf none).lowest = Dbl.fin kk := by
    rw [hEV p hplt] at hptied
    exact (Dbl.beq_eq hptied).symm
  have hmemj : ∀ j, j < n → j ∈ (List.range n).reverse := by
    intro j hj
    rw [List.mem_reverse, List.mem_range]
    exact hj
  have hspc : ∀ j, j < n → (scanLoop g u v row4col t (Dbl.fin 0) ((List.range n).reverse) 0 path
      (List.replicate n Dbl.pinf) Dbl.pinf none).spc.getD j Dbl.nan = Dbl.fin kk := by
    intro j hj
    rw [scanLoop_spc_mem g u v row4col t (Dbl.fin 0) ((List.range n).reverse) j _ _ _ _ _
      hnd hb (hmemj j hj)]
    exact hrelax j (hmemj j hj)
  have hpathc : ∀ j, j < n → (scanLoop g u v row4col t (Dbl.fin 0) ((List.range n).reverse) 0 path
      (List.replicate n Dbl.pinf) Dbl.pinf none).path.getD j none = some t := by
    intro j hj
    rw [scanLoop_path_mem g u v row4col t (Dbl.fin 0) ((List.range n).reverse) j _ _ _ _ _
      hnd hb (fun j2 h2 => by rw [hplen]; exact hjmem j2 h2) (hmemj j hj)]
    rw [if_pos]
    rw [hg j hj, hu, hv j hj, getD_replicate _ _ hj]
    simp [Dbl.add, Dbl.sub, Dbl.neg, Dbl.blt]
  refine ⟨hlow, ?_, hspc, hpathc⟩
  rw [hp]
  congr 1
  -- pin the selected position to n - 1 - t
  have htied_pt : Dbl.beq (entryVal ((List.range n).reverse.map fun j =>
      (relaxVal g u v t (Dbl.fin 0) (List.replicate n Dbl.pinf) j,
        (row4col.getD j none).isNone)) (n - 1 - t))
      (scanLoop g u v row4col t (Dbl.fin 0) ((List.range n).reverse) 0 path
        (List.replicate n Dbl.pinf) Dbl.pinf none).lowest = true := by
    rw [hEV (n - 1 - t) (by omega), hlow]
    simp [Dbl.beq]
  have hunm_pt : entryUnm ((List.range n).reverse.map fun j =>
      (relaxVal g u v t (Dbl.fin 0) (List.replicate n Dbl.pinf) j,
        (row4col.getD j none).isNone)) (n - 1 - t) = true := by
    rw [hEU (n - 1 - t) (by omega)]
    have : ¬(n - 1 - (n - 1 - t) < t) := by omega
    simp [this]
  by_cases hpunm : entryUnm ((List.range n).reverse.map fun j =>
      (relaxVal g u v t (Dbl.fin 0) (List.replicate n Dbl.pinf) j,
        (row4col.getD j none).isNone)) p = true
  · -- selected position is unmatched: nothing tied and unmatched after it
    have hI4 := I4 p hp hpunm
    have hple : p ≤ n - 1 - t := by
      have := hEU p hplt
      rw [hpunm] at this
      by_contra hgt
      have h1 : n - 1 - p < t := by
        rcases Nat.lt_or_ge (n - 1 - p) t with h | h
        · exact h
        · omega
      rw [if_pos h1] at this
      cases this
    rcases Nat.lt_or_ge p (n - 1 - t) with hlt | hge
    · exact absurd ⟨htied_pt, hunm_pt⟩ (hI4 (n - 1 - t) hlt (by omega))
    · omega
  · -- selected position matched: contradicts the tied unmatched position
    have hpunm2 : entryUnm ((List.range n).reverse.map fun j =>
        (relaxVal g u v t (Dbl.fin 0) (List.replicate n Dbl.pinf) j,
          (row4col.getD j none).isNone)) p = false := by
      simpa using hpunm
    obtain ⟨hA, _⟩ := I5 p hp hpunm2
    exact absurd ⟨htied_pt, hunm_pt⟩ (hA (n - 1 - t) (by omega))

theorem range_getD {n i : Nat} (h : i < n) : (List.range n).getD i 0 = i := by
  rw [List.getD_eq_getElem?_getD, List.getElem?_eq_getElem (by simpa using h)]
  simp

/-- Pointwise description of the u dual update. -/
theorem updateU_getD (u : List (Dbl α)) (SR : List Bool) (col4row : List (Option Nat))
    (spc : List (Dbl α)) (minVal : Dbl α) (curRow : Nat) (i : Nat) (h : i < u.length) :
    (updateU u SR col4row spc minVal curRow).getD i Dbl.nan =
      if i = curRow then Dbl.add (u.getD i Dbl.nan) minVal
      else if SR.getD i false then
        Dbl.add (u.getD i Dbl.nan)
          (Dbl.sub minVal (spc.getD ((col4row.getD i none).getD 0) Dbl.nan))
      else u.getD i Dbl.nan := by
  rw [updateU, List.getD_eq_getElem?_getD, List.getElem?_map,
    List.getElem?_eq_getElem (by simpa using h)]
  simp [range_getD h]

/-- Pointwise description of the v dual update. -/
theorem updateV_getD (v : List (Dbl α)) (SC : List Bool) (spc : List (Dbl α))
    (minVal : Dbl α) (j : Nat) (h : j < v.length) :
    (updateV v SC spc minVal).getD j Dbl.nan =
      if SC.getD j false then
        Dbl.sub (v.getD j Dbl.nan) (Dbl.sub minVal (spc.getD j Dbl.nan))
      else v.getD j Dbl.nan := by
  rw [updateV, List.getD_eq_getElem?_getD, List.getElem?_map,
    List.getElem?_eq_getElem (by simpa using h)]
  simp [range_getD h]

/-- One main-loop iteration on a constant working matrix succeeds and
matches row t to column t. -/
theorem constStep (n t : Nat) (kk : α) (g : Nat → Nat → Dbl α)
    (hg : ∀ i j, i < n → j < n → g i j = Dbl.fin kk)
    (st : DriverState α) (ht : t < n) (hinv : ConstInv n t kk st) :
    ∃ st2, solveStep g n t st = some st2 ∧ ConstInv n (t + 1) kk st2 := by
  obtain ⟨hul, hvl, hpl, hcl, hrl, hu, hv, hc4r, hr4c⟩ := hinv
  have hscan := const_scan n t kk g st.u st.v st.row4col st.path ht
    (fun j hj => hg t j ht hj)
    (by rw [hu t ht]; simp)
    hv hr4c hpl
  obtain ⟨hlow, hidx, hspc, hpath⟩ := hscan
  have hjt : ((List.range n).reverse).getD (n - 1 - t) 0 = t := by
    rw [revRange_getD (by omega)]
    omega
  have haug : augmenting_path g st.u.length n st.u st.v st.path st.row4col t =
      some ⟨t, Dbl.fin kk,
        (scanLoop g st.u st.v st.row4col t (Dbl.fin 0) ((List.range n).reverse) 0 st.path
          (List.replicate n Dbl.pinf) Dbl.pinf none).path,
        (scanLoop g st.u st.v st.row4col t (Dbl.fin 0) ((List.range n).reverse) 0 st.path
          (List.replicate n Dbl.pinf) Dbl.pinf none).spc,
        (List.replicate st.u.length false).set t true,
        (List.replicate n false).set t true⟩ := by
    rw [augmenting_path, augLoop]
    rw [hlow, hidx]
    have hbeqf : Dbl.beq (Dbl.fin kk) Dbl.pinf = false := by simp [Dbl.beq]
    rw [if_neg (by simp [hbeqf])]
    simp only [hjt]
    rw [hr4c t ht]
    simp
  have hstep : solveStep g n t st = some
      ⟨updateU st.u ((List.replicate st.u.length false).set t true) st.col4row
        (scanLoop g st.u st.v st.row4col t (Dbl.fin 0) ((List.range n).reverse) 0 st.path
          (List.replicate n Dbl.pinf) Dbl.pinf none).spc (Dbl.fin kk) t,
       updateV st.v ((List.replicate n false).set t true)
        (scanLoop g st.u st.v st.row4col t (Dbl.fin 0) ((List.range n).reverse) 0 st.path
          (List.replicate n Dbl.pinf) Dbl.pinf none).spc (Dbl.fin kk),
       (scanLoop g st.u st.v st.row4col t (Dbl.fin 0) ((List.range n).reverse) 0 st.path
          (List.replicate n Dbl.pinf) Dbl.pinf none).path,
       (augment (n + 1) t (scanLoop g st.u st.v st.row4col t (Dbl.fin 0)
          ((List.range n).reverse) 0 st.path (List.replicate n Dbl.pinf) Dbl.pinf none).path
          st.row4col st.col4row t).2,
       (augment (n + 1) t (scanLoop g st.u st.v st.row4col t (Dbl.fin 0)
          ((List.range n).reverse) 0 st.path (List.replicate n Dbl.pinf) Dbl.pinf none).path
          st.row4col st.col4row t).1⟩ := by
    rw [solveStep, haug]
  refine ⟨_, hstep, ?_, ?_, ?_, ?_, ?_, ?_, ?_, ?_, ?_⟩
  · -- u length
    simp [updateU, hul]
  · simp [updateV, hvl]
  · rw [scanLoop_path_length, hpl]
  · rw [augment]
    simp only [hpath t ht, Option.getD_some, eq_self_iff_true, if_true]
    simp [hcl]
  · rw [augment]
    simp only [hpath t ht, Option.getD_some, eq_self_iff_true, if_true]
    simp [hrl]
  · -- u entries
    intro i hi
    rw [updateU_getD _ _ _ _ _ _ i (by rwa [hul])]
    by_cases hit : i = t
    · subst hit
      rw [if_pos rfl, hu i (by omega)]
      have hni : ¬(i < i) := by omega
      rw [if_neg hni]
      rw [if_pos (by omega)]
      simp [Dbl.add]
    · rw [if_neg hit]
      have hSR : ((List.replicate st.u.length false).set t true).getD i false = false := by
        rw [getD_set_ne _ _ _ (fun h => hit h.symm), getD_replicate _ _ (by rwa [hul])]
      rw [hSR]
      simp only [Bool.false_eq_true, if_false]
      rw [hu i hi]
      by_cases h : i < t
      · rw [if_pos h, if_pos (by omega)]
      · rw [if_neg h, if_neg (by omega)]
  · -- v entries
    intro j hj
    rw [updateV_getD _ _ _ _ j (by rwa [hvl])]
    by_cases hjt2 : j = t
    · subst hjt2
      have hSC : ((List.replicate n false).set j true).getD j false = true :=
        getD_set_self _ _ _ _ (by simpa using hj)
      rw [hSC]
      simp only [if_true]
      rw [hv j hj, hspc j hj]
      simp [Dbl.sub, Dbl.add, Dbl.neg]
    · have hSC : ((List.replicate n false).set t true).getD j false = false := by
        rw [getD_set_ne _ _ _ (fun h => hjt2 h.symm), getD_replicate _ _ hj]
      rw [hSC]
      simp only [Bool.false_eq_true, if_false]
      exact hv j hj
  · -- col4row entries
    intro i hi
    rw [augment]
    simp only [hpath t ht, Option.getD_some, eq_self_iff_true, if_true]
    by_cases hit : i = t
    · subst hit
      rw [getD_set_self _ _ _ _ (by rwa [hcl])]
      simp [Nat.lt_succ_self]
    · rw [getD_set_ne _ _ _ (fun h => hit h.symm), hc4r i hi]
      by_cases h : i < t
      · rw [if_pos h, if_pos (by omega)]
      · rw [if_neg h, if_neg (by omega)]
  · -- row4col entries
    intro j hj
    rw [augment]
    simp only [hpath t ht, Option.getD_some, eq_self_iff_true, if_true]
    by_cases hjt2 : j = t
    · subst hjt2
      rw [getD_set_self _ _ _ _ (by rwa [hrl])]
      simp [Nat.lt_succ_self]
    · rw [getD_set_ne _ _ _ (fun h => hjt2 h.symm), hr4c j hj]
      by_cases h : j < t
      · rw [if_pos h, if_pos (by omega)]
      · rw [if_neg h, if_neg (by omega)]

/-- The whole main loop on a constant working matrix succeeds with the
identity matching. -/
theorem constLoop (n : Nat) (kk : α) (g : Nat → Nat → Dbl α)
    (hg : ∀ i j, i < n → j < n → g i j = Dbl.fin kk) :
    ∀ (rl t : Nat) (st : DriverState α), t + rl = n → ConstInv n t kk st →
      ∃ st2, mainLoop g n t rl st = some st2 ∧ ConstInv n n kk st2 := by
  intro rl
  induction rl with
  | zero =>
    intro t st hn hinv
    have ht : t = n := by omega
    subst ht
    exact ⟨st, by simp [mainLoop], hinv⟩
  | succ rl ih =>
    intro t st hn hinv
    obtain ⟨st2, hstep, hinv2⟩ := constStep n t kk g hg st (by omega) hinv
    obtain ⟨st3, hloop, hinv3⟩ := ih (t + 1) st2 (by omega) hinv2
    refine ⟨st3, ?_, hinv3⟩
    rw [mainLoop, hstep]
    exact hloop

/-- The initial state satisfies the constant invariant at t = 0. -/
theorem initState_constInv (n : Nat) (kk : α) : ConstInv n 0 kk (initState n n : DriverState α) := by
  refine ⟨by simp [initState], by simp [initState], by simp [initState],
    by simp [initState], by simp [initState], ?_, ?_, ?_, ?_⟩
  · intro i hi
    rw [initState]
    rw [getD_replicate _ _ hi]
    simp
  · intro j hj
    rw [initState]
    exact getD_replicate _ _ hj
  · intro i hi
    rw [initState]
    rw [getD_replicate _ _ hi]
    simp
  · intro j hj
    rw [initState]
    rw [getD_replicate _ _ hj]
    simp

/-- C7: on an n by n matrix all of whose entries are the same finite
constant, solve with no subscript returns status 0 and the identity
assignment in both output arrays, for either direction of optimisation. -/
theorem C7_constant_identity (n : Nat) (cost : List (Dbl α)) (k : α) (maximize : Bool)
    (hconst : ∀ idx, idx < n * n → cost.getD idx Dbl.nan = Dbl.fin k) :
    solve n n cost maximize [] 0 [] 0 =
      ⟨Status.ok, (List.range n).map (fun i => Int.ofNat i),
        (List.range n).map (fun i => Int.ofNat i)⟩ := by
  by_cases hn : n = 0
  · subst hn
    simp [solve]
  · have h0 : ¬(n = 0 ∨ n = 0) := by omega
    have hA : ((List.range (n * n)).any fun idx =>
        badEntry maximize (cost.getD idx Dbl.nan)) = false := by
      rw [List.any_eq_false]
      intro idx hidx
      have hc := hconst idx (List.mem_range.mp hidx)
      simp only [List.getD_eq_getElem?_getD] at hc
      simp [hc, badEntry_fin]
    have hg : ∀ i j, i < n → j < n →
        Matrix2d.get (⟨cost, n, n, false, maximize, none, none⟩ : Matrix2d α) i j =
          Dbl.fin (if maximize then -k else k) := by
      intro i j hi hj
      have hb : i * n + j < n * n := by
        have h1 : i * n + j < (i + 1) * n := by
          have hs : (i + 1) * n = i * n + n := by ring
          omega
        have h2 : (i + 1) * n ≤ n * n := Nat.mul_le_mul_right n (by omega)
        omega
      rw [Matrix2d.get]
      simp only [Bool.false_eq_true, if_false]
      rw [hconst (i * n + j) hb]
      cases maximize <;> simp [Dbl.neg]
    obtain ⟨st2, hloop, hinv⟩ := constLoop n (if maximize then -k else k) _ hg n 0
      (initState n n) (by omega) (initState_constInv n _)
    have hdrv : solveDriver
        (Matrix2d.get (⟨cost, n, n, false, maximize, none, none⟩ : Matrix2d α)) n n false =
        some ((List.range n).map (fun i => Int.ofNat i),
          (List.range n).map (fun i => Int.ofNat i)) := by
      rw [solveDriver, hloop]
      simp only [Bool.false_eq_true, if_false]
      obtain ⟨hul, hvl, hpl, hcl, hrl, hu, hv, hc4r, hr4c⟩ := hinv
      have hcld : ∀ i, i < n → (st2.col4row.map optToInt).getD i 0 = (i : Int) := by
        intro i hi
        rw [List.getD_eq_getElem?_getD, List.getElem?_map,
          List.getElem?_eq_getElem (by rwa [hcl])]
        have : st2.col4row[i] = some i := by
          have h1 := hc4r i hi
          rw [List.getD_eq_getElem?_getD, List.getElem?_eq_getElem (by rwa [hcl])] at h1
          simpa [hi] using h1
        simp [this, optToInt]
      have hB : (List.range n).map (fun i => (st2.col4row.map optToInt).getD i 0) =
          (List.range n).map (fun i => Int.ofNat i) := by
        apply List.map_congr_left
        intro i hi
        exact hcld i (List.mem_range.mp hi)
      rw [hB]
    rw [solve, if_neg h0, if_neg (by simp only [hA]; decide), if_neg (by decide),
      if_neg (by norm_num), if_neg (by decide), if_neg (by norm_num)]
    simp only [lt_self_iff_false, decide_False, Bool.false_eq_true, if_false, ite_self,
      Option.isSome_none, Bool.or_self, reduceIte]
    rw [hdrv]
    rfl

/-- Witness for C7 on the concrete 2 x 2 all-fives matrix. -/
theorem C7_constant_identity_witness :
    (∀ idx, idx < 2 * 2 →
      ([Dbl.fin 5, Dbl.fin 5, Dbl.fin 5, Dbl.fin 5] : List (Dbl Int)).getD idx Dbl.nan =
        Dbl.fin 5) ∧
    solve 2 2 ([Dbl.fin 5, Dbl.fin 5, Dbl.fin 5, Dbl.fin 5] : List (Dbl Int)) false [] 0 [] 0 =
      ⟨Status.ok, (List.range 2).map (fun i => Int.ofNat i),
        (List.range 2).map (fun i => Int.ofNat i)⟩ :=
  ⟨by decide, C7_constant_identity 2 _ 5 false (by decide)⟩

/-!
Claim C4.  The driver depends on the cost view only through its values on
the working window, so a subscripted view and the materialised submatrix
drive identical runs.
-/

/-- The scan loop is determined by the cost values of the scanned row on
the scanned columns. -/
theorem scanLoop_congr (g1 g2 : Nat → Nat → Dbl α) (u v : List (Dbl α))
    (row4col : List (Option Nat)) (nc : Nat) (minVal : Dbl α) (i : Nat)
    (hg : ∀ j, j < nc → g1 i j = g2 i j) :
    ∀ (js : List Nat) (it : Nat) (path : List (Option Nat)) (spc : List (Dbl α))
      (lowest : Dbl α) (index : Option Nat), (∀ j ∈ js, j < nc) →
      scanLoop g1 u v row4col i minVal js it path spc lowest index =
      scanLoop g2 u v row4col i minVal js it path spc lowest index := by
  intro js
  induction js with
  | nil => intro it path spc lowest index _; rfl
  | cons j rest ih =>
    intro it path spc lowest index hb
    have hj : j < nc := hb j (List.mem_cons_self j rest)
    simp only [scanLoop, hg j hj]
    exact ih _ _ _ _ _ (fun j2 h2 => hb j2 (List.mem_cons_of_mem j h2))

/-- Elements of the swap-with-last removal come from the original list. -/
theorem swapRemove_subset (l : List Nat) (idx : Nat) (x : Nat)
    (hx : x ∈ (l.set idx (l.getD (l.length - 1) 0)).dropLast) :
    x ∈ l ∨ l = [] := by
  by_cases hnil : l = []
  · exact Or.inr hnil
  · left
    have hx2 : x ∈ l.set idx (l.getD (l.length - 1) 0) := List.dropLast_sublist _ |>.mem hx
    rcases List.mem_or_eq_of_mem_set hx2 with h | h
    · exact h
    · subst h
      have hlen : 0 < l.length := List.length_pos.mpr hnil
      rw [List.getD_eq_getElem l 0 (by omega)]
      exact List.getElem_mem (by omega)

/-- The search loop is determined by the window values of the cost view:
rows below nr (the current row and every row reachable through row4col)
against the columns still in remaining. -/
theorem augLoop_congr (g1 g2 : Nat → Nat → Dbl α) (u v : List (Dbl α))
    (row4col : List (Option Nat)) (nr nc : Nat)
    (hg : ∀ i j, i < nr → j < nc → g1 i j = g2 i j)
    (hrc : ∀ j i2, row4col.getD j none = some i2 → i2 < nr) :
    ∀ (fuel : Nat) (i : Nat) (minVal : Dbl α) (path : List (Option Nat))
      (spc : List (Dbl α)) (SR SC : List Bool) (remaining : List Nat),
      i < nr → (∀ j ∈ remaining, j < nc) →
      augLoop g1 u v row4col fuel i minVal path spc SR SC remaining =
      augLoop g2 u v row4col fuel i minVal path spc SR SC remaining := by
  intro fuel
  induction fuel with
  | zero => intro i minVal path spc SR SC remaining _ _; rfl
  | succ fuel ih =>
    intro i minVal path spc SR SC remaining hi hb
    have hscan := scanLoop_congr g1 g2 u v row4col nc minVal i
      (fun j hj => hg i j hi hj) remaining 0 path spc Dbl.pinf none hb
    simp only [augLoop, hscan]
    split
    · rfl
    · split
      · rfl
      · rcases hcase : row4col.getD (remaining.getD _ 0) none with _ | i2
        · simp [hcase]
        · simp only [hcase]
          apply ih
          · exact hrc _ i2 hcase
          · intro j hj
            rcases swapRemove_subset remaining _ j hj with hmem | hnil
            · exact hb j hmem
            · subst hnil
              simp at hj

/-- A set either leaves an entry alone or stores the written value. -/
theorem getD_set_cases {β : Type} (l : List β) (a b : Nat) (x d : β) :
    (l.set a x).getD b d = x ∨ (l.set a x).getD b d = l.getD b d := by
  by_cases hab : a = b
  · subst hab
    by_cases hb : a < l.length
    · exact Or.inl (getD_set_self l a x d hb)
    · right
      rw [List.set_eq_of_length_le (by omega)]
  · exact Or.inr (getD_set_ne l x d hab)

/-- A default read of a member-bounded list is bounded when the bound is
positive. -/
theorem getD_lt_of_forall {l : List Nat} {nc : Nat} (hb : ∀ j ∈ l, j < nc)
    (hnc : 0 < nc) (idx : Nat) : l.getD idx 0 < nc := by
  by_cases h : idx < l.length
  · rw [List.getD_eq_getElem l 0 h]
    exact hb _ (List.getElem_mem h)
  · rw [List.getD_eq_getElem?_getD, List.getElem?_eq_none (by omega)]
    simpa

/-- The scan loop writes only the current row into path. -/
theorem scanLoop_path_entries (g : Nat → Nat → Dbl α) (u v : List (Dbl α))
    (row4col : List (Option Nat)) (i : Nat) (minVal : Dbl α) (nr : Nat) (hi : i < nr) :
    ∀ (js : List Nat) (it : Nat) (path : List (Option Nat)) (spc : List (Dbl α))
      (lowest : Dbl α) (index : Option Nat),
      (∀ j p, path.getD j none = some p → p < nr) →
      ∀ j p, (scanLoop g u v row4col i minVal js it path spc lowest index).path.getD j none =
        some p → p < nr := by
  intro js
  induction js with
  | nil => intro it path spc lowest index hp j p h; exact hp j p (by simpa [scanLoop] using h)
  | cons j0 rest ih =>
    intro it path spc lowest index hp j p h
    simp only [scanLoop] at h
    refine ih _ _ _ _ _ ?_ j p h
    intro j2 p2 h2
    split at h2
    · rcases getD_set_cases path j0 j2 (some i) none with hc | hc
      · rw [h2] at hc
        injection hc with hc
        omega
      · rw [hc] at h2
        exact hp j2 p2 h2
    · exact hp j2 p2 h2

/-- On success the search returns an in-range sink and path entries that
are in-range rows. -/
theorem augLoop_bounds (g : Nat → Nat → Dbl α) (u v : List (Dbl α))
    (row4col : List (Option Nat)) (nr nc : Nat)
    (hrc : ∀ j i2, row4col.getD j none = some i2 → i2 < nr) (hnc : 0 < nc) :
    ∀ (fuel : Nat) (i : Nat) (minVal : Dbl α) (path : List (Option Nat))
      (spc : List (Dbl α)) (SR SC : List Bool) (remaining : List Nat) (res : AugResult α),
      i < nr → (∀ j ∈ remaining, j < nc) →
      (∀ j p, path.getD j none = some p → p < nr) →
      augLoop g u v row4col fuel i minVal path spc SR SC remaining = some res →
      res.sink < nc ∧ (∀ j p, res.path.getD j none = some p → p < nr) := by
  intro fuel
  induction fuel with
  | zero => intro i minVal path spc SR SC remaining res _ _ _ h; cases h
  | succ fuel ih =>
    intro i minVal path spc SR SC remaining res hi hb hp h
    simp only [augLoop] at h
    split at h
    · cases h
    · split at h
      · cases h
      · have hpath2 := scanLoop_path_entries g u v row4col i minVal nr hi remaining 0
          path spc Dbl.pinf none hp
        rcases hcase : row4col.getD (remaining.getD _ 0) none with _ | i2
        · rw [hcase] at h
          simp only at h
          injection h with h
          subst h
          exact ⟨getD_lt_of_forall hb hnc _, hpath2⟩
        · rw [hcase] at h
          simp only at h
          refine ih _ _ _ _ _ _ _ _ (hrc _ i2 hcase) ?_ hpath2 h
          intro j hj
          rcases swapRemove_subset remaining _ j hj with hmem | hnil
          · exact hb j hmem
          · subst hnil
            simp at hj

/-- The augment walk keeps row4col and col4row entries in range. -/
theorem augment_entries (nr nc : Nat) (h0r : 0 < nr) (h0c : 0 < nc) :
    ∀ (fuel curRow : Nat) (path row4col col4row : List (Option Nat)) (j : Nat),
      (∀ j2 p, path.getD j2 none = some p → p < nr) →
      (∀ j2 i2, row4col.getD j2 none = some i2 → i2 < nr) →
      (∀ i2 j2, col4row.getD i2 none = some j2 → j2 < nc) →
      j < nc →
      (∀ j2 i2, (augment fuel curRow path row4col col4row j).1.getD j2 none = some i2 →
        i2 < nr) ∧
      (∀ i2 j2, (augment fuel curRow path row4col col4row j).2.getD i2 none = some j2 →
        j2 < nc) := by
  intro fuel
  induction fuel with
  | zero => intro curRow path row4col col4row j hp hr hc hj; exact ⟨hr, hc⟩
  | succ fuel ih =>
    intro curRow path row4col col4row j hp hr hc hj
    have hibound : (path.getD j none).getD 0 < nr := by
      rcases hcase : path.getD j none with _ | p
      · simpa using h0r
      · simpa using hp j p hcase
    have hr2 : ∀ j2 i2, (row4col.set j (some ((path.getD j none).getD 0))).getD j2 none =
        some i2 → i2 < nr := by
      intro j2 i2 h2
      rcases getD_set_cases row4col j j2 (some ((path.getD j none).getD 0)) none with hc2 | hc2
      · rw [h2] at hc2
        injection hc2 with hc2
        omega
      · rw [hc2] at h2
        exact hr j2 i2 h2
    have hc2 : ∀ i2 j2, (col4row.set ((path.getD j none).getD 0) (some j)).getD i2 none =
        some j2 → j2 < nc := by
      intro i2 j2 h2
      rcases getD_set_cases col4row ((path.getD j none).getD 0) i2 (some j) none with hc3 | hc3
      · rw [h2] at hc3
        injection hc3 with hc3
        omega
      · rw [hc3] at h2
        exact hc i2 j2 h2
    rw [augment]
    split
    · exact ⟨hr2, hc2⟩
    · refine ih curRow path _ _ _ hp hr2 hc2 ?_
      rcases hcase : col4row.getD ((path.getD j none).getD 0) none with _ | j2
      · simpa [hcase] using h0c
      · simpa [hcase] using hc _ j2 hcase

/-- One driver step preserves the bounds invariant. -/
theorem solveStep_BInv (g : Nat → Nat → Dbl α) (nr nc : Nat) (curRow : Nat)
    (st st2 : DriverState α) (h0r : 0 < nr) (h0c : 0 < nc) (hcur : curRow < nr)
    (hB : BInv nr nc st) (h : solveStep g nc curRow st = some st2) :
    BInv nr nc st2 := by
  obtain ⟨hr, hc, hp⟩ := hB
  rw [solveStep] at h
  rcases haug : augmenting_path g st.u.length nc st.u st.v st.path st.row4col curRow
    with _ | res
  · rw [haug] at h
    cases h
  · rw [haug] at h
    simp only at h
    rw [augmenting_path] at haug
    have hbounds := augLoop_bounds g st.u st.v st.row4col nr nc hr h0c (nc + 1) curRow
      (Dbl.fin 0) st.path (List.replicate nc Dbl.pinf) (List.replicate st.u.length false)
      (List.replicate nc false) ((List.range nc).reverse) res hcur
      (fun j hj => List.mem_range.mp (List.mem_reverse.mp hj)) hp haug
    have haugm := augment_entries nr nc h0r h0c (nc + 1) curRow res.path st.row4col
      st.col4row res.sink hbounds.2 hr hc hbounds.1
    injection h with h
    subst h
    exact ⟨haugm.1, haugm.2, hbounds.2⟩

/-- The main loop is determined by the window values of the cost view. -/
theorem mainLoop_congr (g1 g2 : Nat → Nat → Dbl α) (nr nc : Nat)
    (hg : ∀ i j, i < nr → j < nc → g1 i j = g2 i j) (h0r : 0 < nr) (h0c : 0 < nc) :
    ∀ (rl curRow : Nat) (st : DriverState α), curRow + rl ≤ nr → BInv nr nc st →
      mainLoop g1 nc curRow rl st = mainLoop g2 nc curRow rl st := by
  intro rl
  induction rl with
  | zero => intro curRow st _ _; rfl
  | succ rl ih =>
    intro curRow st hle hB
    have hstep : solveStep g1 nc curRow st = solveStep g2 nc curRow st := by
      rw [solveStep, solveStep]
      rw [augmenting_path, augmenting_path]
      rw [augLoop_congr g1 g2 st.u st.v st.row4col nr nc hg hB.1 (nc + 1) curRow
        (Dbl.fin 0) st.path (List.replicate nc Dbl.pinf)
        (List.replicate st.u.length false) (List.replicate nc false)
        ((List.range nc).reverse) (by omega)
        (fun j hj => List.mem_range.mp (List.mem_reverse.mp hj))]
    rw [mainLoop, mainLoop, hstep]
    rcases h2 : solveStep g2 nc curRow st with _ | st2
    · rfl
    · exact ih (curRow + 1) st2 (by omega)
        (solveStep_BInv g2 nr nc curRow st st2 h0r h0c (by omega) hB h2)

/-- Every default read of a replicated-none list is none. -/
theorem getD_replicate_none {β : Type} (m a : Nat) :
    (List.replicate m (none : Option β)).getD a none = none := by
  by_cases h : a < m
  · exact getD_replicate _ _ h
  · rw [List.getD_eq_getElem?_getD, List.getElem?_eq_none (by simpa using h)]
    rfl

/-- The initial driver state satisfies the bounds invariant. -/
theorem initState_BInv (nr nc nrW ncW : Nat) : BInv nr nc (initState nrW ncW : DriverState α) := by
  refine ⟨?_, ?_, ?_⟩ <;> intro a b h <;> rw [initState] at h <;>
    rw [getD_replicate_none] at h <;> cases h

/-- The driver output is determined by the window values of the cost
view. -/
theorem solveDriver_congr (g1 g2 : Nat → Nat → Dbl α) (nrW ncW : Nat) (tf : Bool)
    (hg : ∀ i j, i < nrW → j < ncW → g1 i j = g2 i j) (h0r : 0 < nrW) (h0c : 0 < ncW) :
    solveDriver g1 nrW ncW tf = solveDriver g2 nrW ncW tf := by
  rw [solveDriver, solveDriver,
    mainLoop_congr g1 g2 nrW ncW hg h0r h0c nrW 0 (initState nrW ncW) (by omega)
      (initState_BInv nrW ncW nrW ncW)]

/-- Row-major flattening stays inside the matrix. -/
theorem flat_lt {a b m q : Nat} (ha : a < m) (hb : b < q) : a * q + b < m * q := by
  have h1 : a * q + b < (a + 1) * q := by
    have hs : (a + 1) * q = a * q + q := by ring
    omega
  have h2 : (a + 1) * q ≤ m * q := Nat.mul_le_mul_right q (by omega)
  omega

theorem submatrix_length (cost : List (Dbl α)) (nc : Nat) (P Q : List Int) :
    (submatrix cost nc P Q).length = P.length * Q.length := by
  simp [submatrix]

/-- Entry (a, b) of the materialised submatrix is the corresponding
entry of the full matrix. -/
theorem submatrix_getD (cost : List (Dbl α)) (nc : Nat) (P Q : List Int) (a b : Nat)
    (ha : a < P.length) (hb : b < Q.length) :
    (submatrix cost nc P Q).getD (a * Q.length + b) Dbl.nan =
      cost.getD ((P.getD a 0).toNat * nc + (Q.getD b 0).toNat) Dbl.nan := by
  have hidx : a * Q.length + b < P.length * Q.length := flat_lt ha hb
  rw [submatrix, List.getD_eq_getElem?_getD, List.getElem?_map,
    List.getElem?_eq_getElem (by simpa using hidx)]
  have hdiv : (a * Q.length + b) / Q.length = a := by
    rw [Nat.mul_comm a, Nat.mul_add_div (by omega), Nat.div_eq_of_lt hb]
    omega
  have hmod : (a * Q.length + b) % Q.length = b := by
    rw [Nat.mul_comm a, Nat.mul_add_mod, Nat.mod_eq_of_lt hb]
  simp [List.getElem_range, hdiv, hmod]

/-- Each entry of the materialised submatrix is an entry of the full
flat matrix at an in-range index. -/
theorem submatrix_entry (cost : List (Dbl α)) (nr nc : Nat) (P Q : List Int) (idx : Nat)
    (hidx : idx < P.length * Q.length)
    (hPb : ∀ x ∈ P, 0 ≤ x ∧ x < (nr : Int)) (hQb : ∀ x ∈ Q, 0 ≤ x ∧ x < (nc : Int)) :
    ∃ idx2, idx2 < nr * nc ∧
      (submatrix cost nc P Q).getD idx Dbl.nan = cost.getD idx2 Dbl.nan := by
  have hdiv : idx / Q.length < P.length := by
    have hq : 0 < Q.length := by
      rcases Nat.eq_zero_or_pos Q.length with h | h
      · rw [h] at hidx
        omega
      · exact h
    exact Nat.div_lt_of_lt_mul (by rwa [Nat.mul_comm] at hidx)
  have hmod : idx % Q.length < Q.length := Nat.mod_lt _ (by
    rcases Nat.eq_zero_or_pos Q.length with h | h
    · rw [h] at hidx; omega
    · exact h)
  have hPmem : P.getD (idx / Q.length) 0 ∈ P := by
    rw [List.getD_eq_getElem P 0 hdiv]
    exact List.getElem_mem hdiv
  have hQmem : Q.getD (idx % Q.length) 0 ∈ Q := by
    rw [List.getD_eq_getElem Q 0 hmod]
    exact List.getElem_mem hmod
  refine ⟨(P.getD (idx / Q.length) 0).toNat * nc + (Q.getD (idx % Q.length) 0).toNat,
    ?_, ?_⟩
  · apply flat_lt
    · have := hPb _ hPmem
      omega
    · have := hQb _ hQmem
      omega
  · rw [submatrix, List.getD_eq_getElem?_getD, List.getElem?_map,
      List.getElem?_eq_getElem (by simpa using hidx)]
    simp [List.getElem_range]

/-- On the working window the subscripted view of the full matrix and the
plain view of the materialised submatrix agree. -/
theorem subget_agree (cost : List (Dbl α)) (nr nc : Nat) (P Q : List Int)
    (maximize tf : Bool) :
    ∀ i j, i < (if tf then Q.length else P.length) → j < (if tf then P.length else Q.length) →
      Matrix2d.get (⟨cost, nr, nc, tf, maximize, some P, some Q⟩ : Matrix2d α) i j =
      Matrix2d.get (⟨submatrix cost nc P Q, P.length, Q.length, tf, maximize,
        none, none⟩ : Matrix2d α) i j := by
  intro i j hi hj
  cases tf
  · simp only [if_false, Bool.false_eq_true] at hi hj
    rw [Matrix2d.get, Matrix2d.get]
    simp only [Bool.false_eq_true, if_false]
    rw [submatrix_getD cost nc P Q i j hi hj]
  · simp only [if_true] at hi hj
    rw [Matrix2d.get, Matrix2d.get]
    simp only [if_true]
    rw [submatrix_getD cost nc P Q j i hj hi]

/-- Reduction of solve without subscripts to the driver call. -/
theorem solve_nosub_reduce (nr nc : Nat) (cost : List (Dbl α)) (maximize : Bool)
    (hnr : 0 < nr) (hnc : 0 < nc)
    (hvalid : ((List.range (nr * nc)).any
      (fun idx => badEntry maximize (cost.getD idx Dbl.nan))) = false) :
    solve nr nc cost maximize [] 0 [] 0 =
      finishSolve none none
        (solveDriver (Matrix2d.get
          (⟨cost, nr, nc, decide (nc < nr), maximize, none, none⟩ : Matrix2d α))
          (if nc < nr then nc else nr) (if nc < nr then nr else nc) (decide (nc < nr))) := by
  have h0 : ¬(nr = 0 ∨ nc = 0) := by omega
  rw [solve, if_neg h0, if_neg (by simp only [hvalid]; decide), if_neg (by decide),
    if_neg (by norm_num), if_neg (by decide), if_neg (by norm_num)]
  simp only [show ((0 : Int) = 0) = True by simp, if_true, Option.isSome_none,
    Bool.or_self, Bool.false_eq_true, if_false, decide_eq_true_eq]

/-- Reduction of solve with both subscripts present, in bounds and of
true length to the driver call on the subscripted view. -/
theorem solve_subscript_reduce (nr nc : Nat) (cost : List (Dbl α)) (maximize : Bool)
    (P Q : List Int) (hnr : 0 < nr) (hnc : 0 < nc) (hP0 : P ≠ []) (hQ0 : Q ≠ [])
    (hPb : ∀ x ∈ P, 0 ≤ x ∧ x < (nr : Int)) (hQb : ∀ x ∈ Q, 0 ≤ x ∧ x < (nc : Int))
    (hvalid : ((List.range (nr * nc)).any
      (fun idx => badEntry maximize (cost.getD idx Dbl.nan))) = false) :
    solve nr nc cost maximize P (P.length : Int) Q (Q.length : Int) =
      finishSolve (some P) (some Q)
        (solveDriver (Matrix2d.get
          (⟨cost, nr, nc, decide (Q.length < P.length), maximize,
            some P, some Q⟩ : Matrix2d α))
          (if Q.length < P.length then Q.length else P.length)
          (if Q.length < P.length then P.length else Q.length)
          (decide (Q.length < P.length))) := by
  have h0 : ¬(nr = 0 ∨ nc = 0) := by omega
  have hPpos : 0 < P.length := List.length_pos.mpr hP0
  have hQpos : 0 < Q.length := List.length_pos.mpr hQ0
  have hsubP : subInBounds (nr : Int) (P.length : Int) P = true := by
    rw [subInBounds, List.all_eq_true]
    intro i hi
    rw [Int.toNat_natCast] at hi
    have hi2 := List.mem_range.mp hi
    have hmem : P.getD i 0 ∈ P := by
      rw [List.getD_eq_getElem P 0 hi2]
      exact List.getElem_mem hi2
    have hb := hPb _ hmem
    simp only [List.getD_eq_getElem?_getD] at hb ⊢
    simp [hb.1, hb.2]
  have hsubQ : subInBounds (nc : Int) (Q.length : Int) Q = true := by
    rw [subInBounds, List.all_eq_true]
    intro i hi
    rw [Int.toNat_natCast] at hi
    have hi2 := List.mem_range.mp hi
    have hmem : Q.getD i 0 ∈ Q := by
      rw [List.getD_eq_getElem Q 0 hi2]
      exact List.getElem_mem hi2
    have hb := hQb _ hmem
    simp only [List.getD_eq_getElem?_getD] at hb ⊢
    simp [hb.1, hb.2]
  have hPlen : ¬((P.length : Int) = 0) := by omega
  have hQlen : ¬((Q.length : Int) = 0) := by omega
  rw [solve, if_neg h0, if_neg (by simp only [hvalid]; decide), if_neg (by omega),
    if_neg (by rw [hsubP]; rintro ⟨_, h⟩; cases h), if_neg (by omega),
    if_neg (by rw [hsubQ]; rintro ⟨_, h⟩; cases h)]
  simp only [if_neg hPlen, if_neg hQlen, Option.isSome_some, Bool.or_self, if_true,
    Int.toNat_natCast, decide_eq_true_eq]

/-- C4 (amended): provided every element of the full matrix passes the
element validation, solving with in-bounds nonempty subscripts P, Q
returns the same status as solving the materialised submatrix C[P][:, Q]
without subscripts, and on success the output pairs are the submatrix
pairs remapped through P and Q.  (Without the validation proviso the
claim fails: the full solve scans every element of C, including elements
outside the subscript window.) -/
theorem C4_subscript_equiv_amended (nr nc : Nat) (cost : List (Dbl α)) (maximize : Bool)
    (P Q : List Int) (hnr : 0 < nr) (hnc : 0 < nc) (hP0 : P ≠ []) (hQ0 : Q ≠ [])
    (hPb : ∀ x ∈ P, 0 ≤ x ∧ x < (nr : Int)) (hQb : ∀ x ∈ Q, 0 ≤ x ∧ x < (nc : Int))
    (hvalid : ∀ idx, idx < nr * nc → badEntry maximize (cost.getD idx Dbl.nan) = false) :
    (solve nr nc cost maximize P (P.length : Int) Q (Q.length : Int)).status =
      (solve P.length Q.length (submatrix cost nc P Q) maximize [] 0 [] 0).status ∧
    (solve nr nc cost maximize P (P.length : Int) Q (Q.length : Int)).a =
      ((solve P.length Q.length (submatrix cost nc P Q) maximize [] 0 [] 0).a).map
        (fun x => P.getD x.toNat 0) ∧
    (solve nr nc cost maximize P (P.length : Int) Q (Q.length : Int)).b =
      ((solve P.length Q.length (submatrix cost nc P Q) maximize [] 0 [] 0).b).map
        (fun x => Q.getD x.toNat 0) := by
  have hPpos : 0 < P.length := List.length_pos.mpr hP0
  have hQpos : 0 < Q.length := List.length_pos.mpr hQ0
  have hvalidA : ((List.range (nr * nc)).any
      (fun idx => badEntry maximize (cost.getD idx Dbl.nan))) = false := by
    rw [List.any_eq_false]
    intro idx hidx
    rw [Bool.not_eq_true]
    exact hvalid idx (List.mem_range.mp hidx)
  have hvalidSub : ((List.range (P.length * Q.length)).any
      (fun idx => badEntry maximize ((submatrix cost nc P Q).getD idx Dbl.nan))) = false := by
    rw [List.any_eq_false]
    intro idx hidx
    rw [Bool.not_eq_true]
    obtain ⟨idx2, hlt, heq⟩ := submatrix_entry cost nr nc P Q idx
      (List.mem_range.mp hidx) hPb hQb
    rw [heq]
    exact hvalid idx2 hlt
  rw [solve_subscript_reduce nr nc cost maximize P Q hnr hnc hP0 hQ0 hPb hQb hvalidA,
    solve_nosub_reduce P.length Q.length (submatrix cost nc P Q) maximize hPpos hQpos
      hvalidSub]
  have hg : ∀ i j, i < (if Q.length < P.length then Q.length else P.length) →
      j < (if Q.length < P.length then P.length else Q.length) →
      Matrix2d.get (⟨cost, nr, nc, decide (Q.length < P.length), maximize,
        some P, some Q⟩ : Matrix2d α) i j =
      Matrix2d.get (⟨submatrix cost nc P Q, P.length, Q.length,
        decide (Q.length < P.length), maximize, none, none⟩ : Matrix2d α) i j := by
    intro i j hi hj
    apply subget_agree
    · simpa using hi
    · simpa using hj
  rw [solveDriver_congr _ _ _ _ _ hg (by split <;> omega) (by split <;> omega)]
  rcases ho : solveDriver (Matrix2d.get (⟨submatrix cost nc P Q, P.length, Q.length,
      decide (Q.length < P.length), maximize, none, none⟩ : Matrix2d α))
      (if Q.length < P.length then Q.length else P.length)
      (if Q.length < P.length then P.length else Q.length)
      (decide (Q.length < P.length)) with _ | pr
  · simp [finishSolve]
  · rcases pr with ⟨aw, bw⟩
    simp [finishSolve]

/-- C4 (counterexample to the claim as stated): a NaN outside the
subscript window makes the subscripted solve return INVALID while the
materialised submatrix solve succeeds. -/
theorem C4_counterexample :
    (solve 2 1 ([Dbl.fin 0, Dbl.nan] : List (Dbl Int)) false [0] 1 [0] 1).status =
      Status.invalid ∧
    (solve 1 1 (submatrix ([Dbl.fin 0, Dbl.nan] : List (Dbl Int)) 1 [0] [0])
      false [] 0 [] 0).status = Status.ok := by
  decide

/-- Witness for C4 at a concrete valid input. -/
theorem C4_subscript_equiv_amended_witness :
    (solve 2 2 ([Dbl.fin 3, Dbl.fin 1, Dbl.fin 2, Dbl.fin 0] : List (Dbl Int)) false
      [1] ((([1] : List Int).length : Nat) : Int) [0] ((([0] : List Int).length : Nat) : Int)).status =
      (solve ([1] : List Int).length ([0] : List Int).length
        (submatrix ([Dbl.fin 3, Dbl.fin 1, Dbl.fin 2, Dbl.fin 0] : List (Dbl Int)) 2 [1] [0])
        false [] 0 [] 0).status := by
  have h := C4_subscript_equiv_amended 2 2
    ([Dbl.fin 3, Dbl.fin 1, Dbl.fin 2, Dbl.fin 0] : List (Dbl Int)) false [1] [0]
    (by decide) (by decide) (by decide) (by decide) (by decide) (by decide) (by decide)
  exact h.1

/-!
Order toolkit for `Dbl` and the swap-with-last removal of `remaining`.
-/

theorem Dbl.ble_refl {a : Dbl α} (h : a ≠ Dbl.nan) : Dbl.ble a a = true := by
  cases a <;> simp_all [Dbl.ble]

theorem Dbl.ble_trans {a b c : Dbl α} (h1 : Dbl.ble a b = true) (h2 : Dbl.ble b c = true) :
    Dbl.ble a c = true := by
  cases a <;> cases b <;> cases c <;> simp_all [Dbl.ble]
  exact le_trans h1 h2

theorem Dbl.blt_ble {a b : Dbl α} (h : Dbl.blt a b = true) : Dbl.ble a b = true := by
  cases a <;> cases b <;> simp_all [Dbl.blt, Dbl.ble]
  exact le_of_lt h

theorem Dbl.not_blt_ble {a b : Dbl α} (ha : a ≠ Dbl.nan) (hb : b ≠ Dbl.nan)
    (h : Dbl.blt a b = false) : Dbl.ble b a = true := by
  cases a <;> cases b <;> simp_all [Dbl.blt, Dbl.ble]

theorem Dbl.ble_ne_nan_left {a b : Dbl α} (h : Dbl.ble a b = true) : a ≠ Dbl.nan := by
  cases a <;> simp_all [Dbl.ble]

theorem Dbl.ble_ne_nan_right {a b : Dbl α} (h : Dbl.ble a b = true) : b ≠ Dbl.nan := by
  cases a <;> cases b <;> simp_all [Dbl.ble]

theorem Dbl.ble_fin_iff {a b : α} : Dbl.ble (Dbl.fin a) (Dbl.fin b) = true ↔ a ≤ b := by
  simp [Dbl.ble]

theorem Dbl.add_fin (a b : α) : Dbl.add (Dbl.fin a) (Dbl.fin b) = Dbl.fin (a + b) := rfl

theorem Dbl.sub_fin (a b : α) : Dbl.sub (Dbl.fin a) (Dbl.fin b) = Dbl.fin (a - b) := by
  simp [Dbl.sub, Dbl.neg, Dbl.add, sub_eq_add_neg]

theorem Dbl.ble_fin_pinf (a : α) : Dbl.ble (Dbl.fin a) Dbl.pinf = true := rfl

/-- Pulling a finite minVal out of the scanned reduced cost:
`(minVal + g) - u - v = minVal + ((g - u) - v)` whenever u and v are
finite (the shape relating the scan's relaxation value to `redcost`). -/
theorem Dbl.scan_shift (m a b : α) (gv : Dbl α) :
    Dbl.sub (Dbl.sub (Dbl.add (Dbl.fin m) gv) (Dbl.fin a)) (Dbl.fin b)
      = Dbl.add (Dbl.fin m) (Dbl.sub (Dbl.sub gv (Dbl.fin a)) (Dbl.fin b)) := by
  cases gv <;> simp [Dbl.add, Dbl.sub, Dbl.neg] <;> abel

/-- A finite value plus a non-NaN value is not NaN. -/
theorem Dbl.add_fin_ne_nan (m : α) {gv : Dbl α} (h : gv ≠ Dbl.nan) :
    Dbl.add (Dbl.fin m) gv ≠ Dbl.nan := by
  cases gv <;> simp_all [Dbl.add]

/-- A finite value plus a {fin, pinf} value is again {fin, pinf}. -/
theorem Dbl.add_fin_cls (m : α) {gv : Dbl α} (h : gv = Dbl.pinf ∨ ∃ q, gv = Dbl.fin q) :
    Dbl.add (Dbl.fin m) gv = Dbl.pinf ∨ ∃ q, Dbl.add (Dbl.fin m) gv = Dbl.fin q := by
  rcases h with h | ⟨q, h⟩ <;> subst h
  · exact Or.inl rfl
  · exact Or.inr ⟨m + q, rfl⟩

/-- Monotonicity of addition by a finite value on the left. -/
theorem Dbl.ble_add_left (c : α) {a b : Dbl α} (h : Dbl.ble a b = true) :
    Dbl.ble (Dbl.add (Dbl.fin c) a) (Dbl.add (Dbl.fin c) b) = true := by
  cases a <;> cases b <;> simp_all [Dbl.ble, Dbl.add]

theorem getD_eq_getElem {β : Type} {l : List β} {p : Nat} (d : β) (h : p < l.length) :
    l.getD p d = l[p] := by
  rw [List.getD_eq_getElem?_getD, List.getElem?_eq_getElem h]; rfl

theorem getD_mem {β : Type} {l : List β} {p : Nat} (d : β) (h : p < l.length) :
    l.getD p d ∈ l := by
  rw [getD_eq_getElem d h]
  exact List.getElem_mem h

theorem swapRemove_length (l : List Nat) (idx : Nat) :
    ((l.set idx (l.getD (l.length - 1) 0)).dropLast).length = l.length - 1 := by
  simp

/-- Entry description of the swap-with-last removal. -/
theorem swapRemove_getD (l : List Nat) (idx : Nat) (p : Nat)
    (hp : p < l.length - 1) :
    ((l.set idx (l.getD (l.length - 1) 0)).dropLast).getD p 0 =
      if p = idx then l.getD (l.length - 1) 0 else l.getD p 0 := by
  have hp1 : p < ((l.set idx (l.getD (l.length - 1) 0)).dropLast).length := by
    simpa using hp
  have hp2 : p < (l.set idx (l.getD (l.length - 1) 0)).length := by
    simp only [List.length_set]; omega
  have hp3 : p < l.length := by omega
  rw [List.getD_eq_getElem?_getD, List.getElem?_eq_getElem hp1]
  rw [List.getElem_dropLast, List.getElem_set]
  by_cases h : idx = p
  · subst h
    simp [List.getD_eq_getElem?_getD, List.getElem?_eq_getElem hp3]
  · rw [if_neg h, if_neg (by omega)]
    simp [List.getD_eq_getElem?_getD, List.getElem?_eq_getElem hp3]

/-- Membership in the swap-with-last removal, for a Nodup pool: exactly
the old elements other than the selected one survive. -/
theorem swapRemove_mem_iff (l : List Nat) (idx : Nat) (hnd : l.Nodup)
    (hidx : idx < l.length) (x : Nat) :
    (x ∈ (l.set idx (l.getD (l.length - 1) 0)).dropLast ↔
      (x ∈ l ∧ x ≠ l.getD idx 0)) := by
  have hlen := swapRemove_length l idx
  constructor
  · intro hx
    rcases List.mem_iff_getElem.mp hx with ⟨p, hp, hpe⟩
    have hp2 : p < l.length - 1 := by omega
    have this1 := swapRemove_getD l idx p hp2
    rw [getD_eq_getElem 0 hp, hpe] at this1
    by_cases hpi : p = idx
    · rw [if_pos hpi] at this1
      have hl1 : l.length - 1 < l.length := by omega
      constructor
      · rw [this1]; exact getD_mem 0 hl1
      · intro hcon
        rw [this1, getD_eq_getElem 0 hl1, getD_eq_getElem 0 hidx] at hcon
        have := (List.Nodup.getElem_inj_iff hnd).mp hcon
        omega
    · rw [if_neg hpi] at this1
      have hp3 : p < l.length := by omega
      constructor
      · rw [this1]; exact getD_mem 0 hp3
      · intro hcon
        rw [this1, getD_eq_getElem 0 hp3, getD_eq_getElem 0 hidx] at hcon
        have := (List.Nodup.getElem_inj_iff hnd).mp hcon
        omega
  · rintro ⟨hx, hne⟩
    rcases List.mem_iff_getElem.mp hx with ⟨p, hp, hpe⟩
    have hpi : p ≠ idx := by
      intro hcon
      apply hne
      rw [← hpe, getD_eq_getElem 0 hidx]
      subst hcon
      rfl
    by_cases hlast : p = l.length - 1
    · subst hlast
      have hidx2 : idx < l.length - 1 := by omega
      have this1 := swapRemove_getD l idx idx hidx2
      rw [if_pos rfl] at this1
      have hb : idx < ((l.set idx (l.getD (l.length - 1) 0)).dropLast).length := by omega
      have hx2 : ((l.set idx (l.getD (l.length - 1) 0)).dropLast).getD idx 0 = x := by
        rw [this1, getD_eq_getElem 0 hp]
        exact hpe
      rw [← hx2]
      exact getD_mem 0 hb
    · have hp2 : p < l.length - 1 := by omega
      have this1 := swapRemove_getD l idx p hp2
      rw [if_neg hpi] at this1
      have hb : p < ((l.set idx (l.getD (l.length - 1) 0)).dropLast).length := by omega
      have hx2 : ((l.set idx (l.getD (l.length - 1) 0)).dropLast).getD p 0 = x := by
        rw [this1, getD_eq_getElem 0 hp]
        exact hpe
      rw [← hx2]
      exact getD_mem 0 hb

/-- The swap-with-last removal preserves Nodup. -/
theorem swapRemove_nodup (l : List Nat) (idx : Nat) (hnd : l.Nodup)
    (hidx : idx < l.length) :
    ((l.set idx (l.getD (l.length - 1) 0)).dropLast).Nodup := by
  have hlen := swapRemove_length l idx
  rw [List.nodup_iff_injective_get]
  rintro ⟨p, hp⟩ ⟨q, hq⟩ he
  simp only [List.get_eq_getElem] at he
  have hp2 : p < l.length - 1 := by omega
  have hq2 : q < l.length - 1 := by omega
  have ep := swapRemove_getD l idx p hp2
  have eq2 := swapRemove_getD l idx q hq2
  have hbp : p < ((l.set idx (l.getD (l.length - 1) 0)).dropLast).length := by omega
  have hbq : q < ((l.set idx (l.getD (l.length - 1) 0)).dropLast).length := by omega
  rw [List.getD_eq_getElem?_getD, List.getElem?_eq_getElem hbp, Option.getD_some] at ep
  rw [List.getD_eq_getElem?_getD, List.getElem?_eq_getElem hbq, Option.getD_some] at eq2
  have hl1 : l.length - 1 < l.length := by omega
  have elast : l.getD (l.length - 1) 0 = l[l.length - 1] := by
    rw [List.getD_eq_getElem?_getD, List.getElem?_eq_getElem hl1]; rfl
  have hgp : p < l.length := by omega
  have hgq : q < l.length := by omega
  have egp : l.getD p 0 = l[p] := by
    rw [List.getD_eq_getElem?_getD, List.getElem?_eq_getElem hgp]; rfl
  have egq : l.getD q 0 = l[q] := by
    rw [List.getD_eq_getElem?_getD, List.getElem?_eq_getElem hgq]; rfl
  rw [ep, eq2] at he
  by_cases h1 : p = idx <;> by_cases h2 : q = idx
  · simp [h1, h2]
  · exfalso
    rw [if_pos h1, if_neg h2, elast, egq] at he
    have := List.Nodup.getElem_inj_iff hnd |>.mp he
    omega
  · exfalso
    rw [if_neg h1, if_pos h2, elast, egp] at he
    have := List.Nodup.getElem_inj_iff hnd |>.mp he
    omega
  · rw [if_neg h1, if_neg h2, egp, egq] at he
    have := List.Nodup.getElem_inj_iff hnd |>.mp he
    exact Fin.ext this

/-!
Bridging facts between the scan loop, the reduced-cost form and the
invariant of the search loop.
-/

theorem cls_ne_nan {x : Dbl α} (h : x = Dbl.pinf ∨ ∃ q, x = Dbl.fin q) : x ≠ Dbl.nan := by
  rcases h with h | ⟨q, h⟩ <;> subst h <;> simp

theorem cls_ne_ninf {x : Dbl α} (h : x = Dbl.pinf ∨ ∃ q, x = Dbl.fin q) : x ≠ Dbl.ninf := by
  rcases h with h | ⟨q, h⟩ <;> subst h <;> simp

theorem relax_ble_old {r s : Dbl α} (hr : r ≠ Dbl.nan) (hs : s ≠ Dbl.nan) :
    Dbl.ble (if Dbl.blt r s then r else s) s = true := by
  by_cases h : Dbl.blt r s = true
  · rw [if_pos h]; exact Dbl.blt_ble h
  · rw [if_neg h]; exact Dbl.ble_refl hs

theorem relax_ble_r {r s : Dbl α} (hr : r ≠ Dbl.nan) (hs : s ≠ Dbl.nan) :
    Dbl.ble (if Dbl.blt r s then r else s) r = true := by
  by_cases h : Dbl.blt r s = true
  · rw [if_pos h]; exact Dbl.ble_refl hr
  · rw [if_neg h]
    exact Dbl.not_blt_ble hr hs (by simpa using h)

theorem relax_cls {r s : Dbl α} (hr : r = Dbl.pinf ∨ ∃ q, r = Dbl.fin q)
    (hs : s = Dbl.pinf ∨ ∃ q, s = Dbl.fin q) :
    (if Dbl.blt r s then r else s) = Dbl.pinf ∨
      ∃ q, (if Dbl.blt r s then r else s) = Dbl.fin q := by
  split
  · exact hr
  · exact hs

theorem Dbl.ble_self_add (m : α) {x : Dbl α} (h : Dbl.ble (Dbl.fin 0) x = true) :
    Dbl.ble (Dbl.fin m) (Dbl.add (Dbl.fin m) x) = true := by
  have h2 := Dbl.ble_add_left m h
  rwa [Dbl.add_fin, add_zero] at h2

/-- IEEE dual feasibility u + v <= g is equivalent to nonnegative reduced
cost for finite duals. -/
theorem Dbl.feas_iff (a b : α) (gv : Dbl α) :
    Dbl.ble (Dbl.add (Dbl.fin a) (Dbl.fin b)) gv =
      Dbl.ble (Dbl.fin 0) (Dbl.sub (Dbl.sub gv (Dbl.fin a)) (Dbl.fin b)) := by
  cases gv with
  | nan => rfl
  | ninf => rfl
  | pinf => rfl
  | fin q =>
    simp only [Dbl.add, Dbl.sub, Dbl.neg, Dbl.ble]
    rw [decide_eq_decide]
    have e : q + -a + -b = q - (a + b) := by abel
    rw [e, sub_nonneg]

theorem redcost_cls (g : Nat → Nat → Dbl α) (u v : List (Dbl α)) (p j : Nat)
    (hg1 : g p j ≠ Dbl.nan) (hg2 : g p j ≠ Dbl.ninf) (a b : α)
    (hu : u.getD p Dbl.nan = Dbl.fin a) (hv : v.getD j Dbl.nan = Dbl.fin b) :
    redcost g u v p j = Dbl.pinf ∨ ∃ q, redcost g u v p j = Dbl.fin q := by
  rw [redcost, hu, hv]
  rcases hgc : g p j with _ | _ | _ | q
  · exact absurd hgc hg1
  · exact absurd hgc hg2
  · exact Or.inl rfl
  · exact Or.inr ⟨q - a - b, by rw [Dbl.sub_fin, Dbl.sub_fin]⟩

/-- The scan's relaxation value is minVal plus the reduced cost when the
duals are finite. -/
theorem scan_r_eq (g : Nat → Nat → Dbl α) (u v : List (Dbl α)) (i j : Nat)
    (minVal : Dbl α) (m a b : α) (hm : minVal = Dbl.fin m)
    (hu : u.getD i Dbl.nan = Dbl.fin a) (hv : v.getD j Dbl.nan = Dbl.fin b) :
    Dbl.sub (Dbl.sub (Dbl.add minVal (g i j)) (u.getD i Dbl.nan)) (v.getD j Dbl.nan) =
      Dbl.add minVal (redcost g u v i j) := by
  rw [redcost, hm, hu, hv, Dbl.scan_shift]

theorem getD_set_mono {l : List Bool} {i p : Nat} (h : l.getD p false = true) :
    (l.set i true).getD p false = true := by
  rcases getD_set_cases l i p true false with hc | hc
  · exact hc
  · rw [hc]; exact h

theorem mem_iff_getD {l : List Nat} (x : Nat) :
    x ∈ l ↔ ∃ q, q < l.length ∧ l.getD q 0 = x := by
  rw [List.mem_iff_getElem]
  constructor
  · rintro ⟨q, hq, he⟩
    exact ⟨q, hq, by rw [getD_eq_getElem 0 hq]; exact he⟩
  · rintro ⟨q, hq, he⟩
    exact ⟨q, hq, by rw [← getD_eq_getElem 0 hq]; exact he⟩

theorem nodup_getD_inj {l : List Nat} (hnd : l.Nodup) {p q : Nat} (hp : p < l.length)
    (hq : q < l.length) (he : l.getD p 0 = l.getD q 0) : p = q := by
  rw [getD_eq_getElem 0 hp, getD_eq_getElem 0 hq] at he
  exact (List.Nodup.getElem_inj_iff hnd).mp he

theorem getD_append_left {β : Type} (l1 l2 : List β) (k : Nat) (d : β)
    (h : k < l1.length) : (l1 ++ l2).getD k d = l1.getD k d := by
  rw [getD_eq_getElem d (by rw [List.length_append]; omega), getD_eq_getElem d h]
  exact List.getElem_append_left h

theorem getD_append_self {β : Type} (l1 : List β) (x d : β) :
    (l1 ++ [x]).getD l1.length d = x := by
  rw [getD_eq_getElem d (by simp)]
  simp

/-- The minimality and tie facts of the selected scan position. -/
theorem scan_min_facts (g : Nat → Nat → Dbl α) (u v : List (Dbl α))
    (row4col : List (Option Nat)) (i : Nat) (minVal : Dbl α)
    (js : List Nat) (path : List (Option Nat)) (spc : List (Dbl α))
    (res : ScanRes α) (hnd : js.Nodup) (hb : ∀ j ∈ js, j < spc.length)
    (hres : scanLoop g u v row4col i minVal js 0 path spc Dbl.pinf none = res)
    (idx : Nat) (hidx : res.index = some idx) :
    idx < js.length ∧
    Dbl.beq (res.spc.getD (js.getD idx 0) Dbl.nan) res.lowest = true ∧
    (∀ q, q < js.length →
      Dbl.blt (res.spc.getD (js.getD q 0) Dbl.nan) res.lowest = false) := by
  subst hres
  have hsel := scanLoop_select g u v row4col i minVal js 0 path spc Dbl.pinf none hnd hb
  have hinit : SelInv (js.map fun j => (relaxVal g u v i minVal spc j,
      (row4col.getD j none).isNone)) 0 Dbl.pinf none := by
    refine ⟨fun p hp2 => absurd hp2 (Nat.not_lt_zero p), ?_, ?_, ?_⟩
    · intro p hp2; cases hp2
    · intro p hp2; cases hp2
    · intro p hp2; cases hp2
  have hinv := selectFold_inv (js.map fun j => (relaxVal g u v i minVal spc j,
      (row4col.getD j none).isNone))
    (js.map fun j => (relaxVal g u v i minVal spc j, (row4col.getD j none).isNone))
    0 Dbl.pinf none (List.drop_zero _).symm hinit
  rw [← hsel] at hinv
  have hlenL : (js.map fun j => (relaxVal g u v i minVal spc j,
      (row4col.getD j none).isNone)).length = js.length := List.length_map _ _
  rw [Nat.zero_add, hlenL] at hinv
  dsimp only at hinv
  obtain ⟨I2, I3, _, _⟩ := hinv
  have hEV : ∀ q, q < js.length →
      entryVal (js.map fun j => (relaxVal g u v i minVal spc j,
        (row4col.getD j none).isNone)) q =
      (scanLoop g u v row4col i minVal js 0 path spc Dbl.pinf none).spc.getD
        (js.getD q 0) Dbl.nan := by
    intro q hq
    have hmem : js.getD q 0 ∈ js := getD_mem 0 hq
    rw [scanLoop_spc_mem g u v row4col i minVal js _ _ _ _ _ _ hnd hb hmem]
    rw [entryVal, List.getD_eq_getElem?_getD, List.getElem?_map,
      List.getElem?_eq_getElem hq]
    simp [List.getD_eq_getElem?_getD, List.getElem?_eq_getElem hq]
  obtain ⟨hplt, hptied⟩ := I3 idx hidx
  refine ⟨hplt, ?_, ?_⟩
  · rwa [hEV idx hplt] at hptied
  · intro q hq
    have := I2 q hq
    rwa [hEV q hq] at this

/-- Transport of a written record to componentwise-compatible arrays. -/
theorem WRT_mono (g : Nat → Nat → Dbl α) (u v : List (Dbl α))
    (row4col : List (Option Nat)) (t nr nc : Nat)
    (path spc : List _) (SR SC : List Bool) (path2 : List (Option Nat))
    (spc2 : List (Dbl α)) (SR2 SC2 : List Bool) (j : Nat)
    (hW : WRT g u v row4col t nr nc path spc SR SC j)
    (hpath : path2.getD j none = path.getD j none)
    (hspcj : spc2.getD j Dbl.nan = spc.getD j Dbl.nan)
    (hSR : ∀ p, SR.getD p false = true → SR2.getD p false = true)
    (hSC : ∀ jp, jp < nc → SC.getD jp false = true → SC2.getD jp false = true)
    (hspcSC : ∀ jp, jp < nc → SC.getD jp false = true →
      spc2.getD jp Dbl.nan = spc.getD jp Dbl.nan) :
    WRT g u v row4col t nr nc path2 spc2 SR2 SC2 j := by
  obtain ⟨p, hp, hpSR, hppath, hrest⟩ := hW
  refine ⟨p, hp, hSR p hpSR, by rw [hpath]; exact hppath, ?_⟩
  rcases hrest with ⟨hpt, he⟩ | ⟨jp, hjp, hjpSC, hjprc, he⟩
  · exact Or.inl ⟨hpt, by rw [hspcj]; exact he⟩
  · exact Or.inr ⟨jp, hjp, hSC jp hjp hjpSC, hjprc,
      by rw [hspcj, hspcSC jp hjp hjpSC]; exact he⟩

theorem relaxVal_eq (g : Nat → Nat → Dbl α) (u v : List (Dbl α)) (i : Nat)
    (minVal : Dbl α) (spc : List (Dbl α)) (j : Nat) :
    relaxVal g u v i minVal spc j =
      if Dbl.blt (Dbl.sub (Dbl.sub (Dbl.add minVal (g i j)) (u.getD i Dbl.nan))
          (v.getD j Dbl.nan)) (spc.getD j Dbl.nan)
      then Dbl.sub (Dbl.sub (Dbl.add minVal (g i j)) (u.getD i Dbl.nan)) (v.getD j Dbl.nan)
      else spc.getD j Dbl.nan := rfl

theorem nodup_append_singleton {β : Type} {l : List β} {x : β} (h : l.Nodup)
    (hx : x ∉ l) : (l ++ [x]).Nodup := by
  rw [List.nodup_append]
  exact ⟨h, List.nodup_singleton x, by
    intro a ha hb
    rw [List.mem_singleton] at hb
    subst hb
    exact hx ha⟩

/-- One pass of the search loop: from a state satisfying the invariant,
a successful selection yields the postcondition on the unmatched exit and
reestablishes the invariant on the matched continuation. -/
theorem augStep_spec (g : Nat → Nat → Dbl α) (u v : List (Dbl α))
    (row4col : List (Option Nat)) (t nr nc : Nat) (ht : t < nr)
    (hu : ∀ i2, i2 < nr → ∃ q, u.getD i2 Dbl.nan = Dbl.fin q)
    (hv : ∀ j2, j2 < nc → ∃ q, v.getD j2 Dbl.nan = Dbl.fin q)
    (hgood : ∀ i2 j2, i2 < nr → j2 < nc → g i2 j2 ≠ Dbl.nan ∧ g i2 j2 ≠ Dbl.ninf)
    (hrc : ∀ j2 i2, row4col.getD j2 none = some i2 → i2 < nr)
    (hnt : ∀ j2 i2, row4col.getD j2 none = some i2 → i2 ≠ t)
    (hcons : ∀ j1 j2 i0, row4col.getD j1 none = some i0 →
      row4col.getD j2 none = some i0 → j1 = j2)
    (hfeas : ∀ i2 j2, i2 < nr → j2 < nc → (∃ jm, row4col.getD jm none = some i2) →
      Dbl.ble (Dbl.fin 0) (redcost g u v i2 j2) = true)
    (sel : List Nat) (i : Nat) (minVal : Dbl α) (path : List (Option Nat))
    (spc : List (Dbl α)) (SR SC : List Bool) (remaining : List Nat)
    (hInv : SInv g u v row4col t nr nc sel i minVal path spc SR SC remaining)
    (res : ScanRes α)
    (hres : scanLoop g u v row4col i minVal remaining 0 path spc Dbl.pinf none = res)
    (idx : Nat) (hidx : res.index = some idx)
    (hlow : ¬ res.lowest = Dbl.pinf) :
    (row4col.getD (remaining.getD idx 0) none = none →
      AugPost g u v row4col t nr nc
        ⟨remaining.getD idx 0, res.lowest, res.path, res.spc, SR.set i true,
          SC.set (remaining.getD idx 0) true⟩) ∧
    (∀ i2, row4col.getD (remaining.getD idx 0) none = some i2 →
      SInv g u v row4col t nr nc (sel ++ [remaining.getD idx 0]) i2 res.lowest res.path
        res.spc (SR.set i true) (SC.set (remaining.getD idx 0) true)
        ((remaining.set idx (remaining.getD (remaining.length - 1) 0)).dropLast)) := by
  obtain ⟨hspclen, hpathlen, hSRlen, hSClen, hndrem, hbrem, hcompl, hselnd, hselch,
    ⟨m, hm⟩, hilt, hC2, hTinit, hSRchar, hNOCLS, hS2, hS6, hS4, hSD, hS5⟩ := hInv
  set jsel := remaining.getD idx 0 with hjdef
  have hbs : ∀ j2 ∈ remaining, j2 < spc.length := fun j2 h2 => by
    rw [hspclen]; exact hbrem j2 h2
  have hbp : ∀ j2 ∈ remaining, j2 < path.length := fun j2 h2 => by
    rw [hpathlen]; exact hbrem j2 h2
  obtain ⟨hidxlt, htied, hmin⟩ := scan_min_facts g u v row4col i minVal remaining path spc
    res hndrem hbs hres idx hidx
  have hjmem : jsel ∈ remaining := getD_mem 0 hidxlt
  have hjnc : jsel < nc := hbrem _ hjmem
  have hjSC : SC.getD jsel false = false := (hcompl _ hjnc).mp hjmem
  have hres_spc_len : res.spc.length = nc := by
    rw [← hres, scanLoop_spc_length]; exact hspclen
  have hres_path_len : res.path.length = nc := by
    rw [← hres, scanLoop_path_length]; exact hpathlen
  have hmemspc : ∀ j2 ∈ remaining,
      res.spc.getD j2 Dbl.nan = relaxVal g u v i minVal spc j2 := fun j2 h2 => by
    rw [← hres]
    exact scanLoop_spc_mem g u v row4col i minVal remaining j2 0 path spc Dbl.pinf none
      hndrem hbs h2
  have hnotspc : ∀ j2, j2 ∉ remaining →
      res.spc.getD j2 Dbl.nan = spc.getD j2 Dbl.nan := fun j2 h2 => by
    rw [← hres]
    exact scanLoop_spc_not_mem g u v row4col i minVal remaining j2 0 path spc Dbl.pinf
      none h2
  have hmempath : ∀ j2 ∈ remaining, res.path.getD j2 none =
      (if Dbl.blt (Dbl.sub (Dbl.sub (Dbl.add minVal (g i j2)) (u.getD i Dbl.nan))
          (v.getD j2 Dbl.nan)) (spc.getD j2 Dbl.nan)
       then some i else path.getD j2 none) := fun j2 h2 => by
    rw [← hres]
    exact scanLoop_path_mem g u v row4col i minVal remaining j2 0 path spc Dbl.pinf none
      hndrem hbs hbp h2
  have hnotpath : ∀ j2, j2 ∉ remaining →
      res.path.getD j2 none = path.getD j2 none := fun j2 h2 => by
    rw [← hres]
    exact scanLoop_path_not_mem g u v row4col i minVal remaining j2 0 path spc Dbl.pinf
      none h2
  obtain ⟨ua, hua⟩ := hu i hilt
  have hrform : ∀ j2 ∈ remaining,
      Dbl.sub (Dbl.sub (Dbl.add minVal (g i j2)) (u.getD i Dbl.nan)) (v.getD j2 Dbl.nan)
        = Dbl.add minVal (redcost g u v i j2) := fun j2 h2 => by
    obtain ⟨b, hb2⟩ := hv j2 (hbrem j2 h2)
    exact scan_r_eq g u v i j2 minVal m ua b hm hua hb2
  have hrccls : ∀ i2 j2, i2 < nr → j2 < nc →
      redcost g u v i2 j2 = Dbl.pinf ∨ ∃ q, redcost g u v i2 j2 = Dbl.fin q := by
    intro i2 j2 h1 h2
    obtain ⟨a, ha⟩ := hu i2 h1
    obtain ⟨b, hb2⟩ := hv j2 h2
    exact redcost_cls g u v i2 j2 (hgood i2 j2 h1 h2).1 (hgood i2 j2 h1 h2).2 a b ha hb2
  have hrcls : ∀ j2 ∈ remaining,
      Dbl.sub (Dbl.sub (Dbl.add minVal (g i j2)) (u.getD i Dbl.nan)) (v.getD j2 Dbl.nan)
        = Dbl.pinf ∨
      ∃ q, Dbl.sub (Dbl.sub (Dbl.add minVal (g i j2)) (u.getD i Dbl.nan))
        (v.getD j2 Dbl.nan) = Dbl.fin q := fun j2 h2 => by
    rw [hrform j2 h2, hm]
    exact Dbl.add_fin_cls m (hrccls i j2 hilt (hbrem j2 h2))
  have hcls' : ∀ j2, j2 < nc → res.spc.getD j2 Dbl.nan = Dbl.pinf ∨
      ∃ d, res.spc.getD j2 Dbl.nan = Dbl.fin d := by
    intro j2 h2
    by_cases hmem2 : j2 ∈ remaining
    · rw [hmemspc j2 hmem2, relaxVal_eq]
      exact relax_cls (hrcls j2 hmem2) (hNOCLS j2 h2)
    · rw [hnotspc j2 hmem2]
      exact hNOCLS j2 h2
  have hlowtied : res.spc.getD jsel Dbl.nan = res.lowest := Dbl.beq_eq htied
  have hlowfin : ∃ q, res.lowest = Dbl.fin q := by
    rcases hlowtied ▸ hcls' jsel hjnc with h | h
    · exact absurd h hlow
    · exact h
  obtain ⟨m', hm'⟩ := hlowfin
  have hlne : res.lowest ≠ Dbl.nan := by rw [hm']; simp
  have hdec : ∀ j2, j2 < nc →
      Dbl.ble (res.spc.getD j2 Dbl.nan) (spc.getD j2 Dbl.nan) = true := by
    intro j2 h2
    by_cases hmem2 : j2 ∈ remaining
    · rw [hmemspc j2 hmem2, relaxVal_eq]
      exact relax_ble_old (cls_ne_nan (hrcls j2 hmem2)) (cls_ne_nan (hNOCLS j2 h2))
    · rw [hnotspc j2 hmem2]
      exact Dbl.ble_refl (cls_ne_nan (hNOCLS j2 h2))
  have hminmem : ∀ j2 ∈ remaining,
      Dbl.ble res.lowest (res.spc.getD j2 Dbl.nan) = true := by
    intro j2 h2
    obtain ⟨q, hq, hqe⟩ := (mem_iff_getD j2).mp h2
    have hq2 := hmin q hq
    rw [hqe] at hq2
    exact Dbl.not_blt_ble (cls_ne_nan (hcls' j2 (hbrem j2 h2))) hlne hq2
  have hler : ∀ j2 ∈ remaining, Dbl.ble (res.spc.getD j2 Dbl.nan)
      (Dbl.add minVal (redcost g u v i j2)) = true := by
    intro j2 h2
    rw [hmemspc j2 h2, relaxVal_eq, ← hrform j2 h2]
    exact relax_ble_r (cls_ne_nan (hrcls j2 h2)) (cls_ne_nan (hNOCLS j2 (hbrem j2 h2)))
  have hSCnotmem : ∀ jp, jp < nc → SC.getD jp false = true → jp ∉ remaining := by
    intro jp h1 h2 hmem2
    rw [(hcompl jp h1).mp hmem2] at h2
    cases h2
  have hSCold_spc : ∀ jp, jp < nc → SC.getD jp false = true →
      res.spc.getD jp Dbl.nan = spc.getD jp Dbl.nan := fun jp h1 h2 =>
    hnotspc jp (hSCnotmem jp h1 h2)
  have hSCold_path : ∀ jp, jp < nc → SC.getD jp false = true →
      res.path.getD jp none = path.getD jp none := fun jp h1 h2 =>
    hnotpath jp (hSCnotmem jp h1 h2)
  have hSCne : ∀ jp, SC.getD jp false = true → jsel ≠ jp := by
    intro jp h2 he
    rw [← he, hjSC] at h2
    cases h2
  have hSCmono : ∀ jp, jp < nc → SC.getD jp false = true →
      (SC.set jsel true).getD jp false = true := fun jp h1 h2 => by
    rw [getD_set_ne SC true false (hSCne jp h2)]
    exact h2
  have hSC2jsel : (SC.set jsel true).getD jsel false = true :=
    getD_set_self SC jsel true false (by rw [hSClen]; exact hjnc)
  have hSC2iff : ∀ j2, j2 < nc → ((SC.set jsel true).getD j2 false = true ↔
      (SC.getD j2 false = true ∨ j2 = jsel)) := by
    intro j2 h2
    by_cases he : j2 = jsel
    · subst he
      exact ⟨fun _ => Or.inr rfl, fun _ => hSC2jsel⟩
    · rw [getD_set_ne SC true false (fun h => he h.symm)]
      constructor
      · exact Or.inl
      · rintro (h | h)
        · exact h
        · exact absurd h he
  have hmlowOfMatched : (∃ jm, row4col.getD jm none = some i) →
      Dbl.ble minVal res.lowest = true := by
    rintro ⟨jm0, hjm0⟩
    rw [← hlowtied, hmemspc jsel hjmem, relaxVal_eq]
    split
    · rw [hrform jsel hjmem, hm]
      exact Dbl.ble_self_add m (hfeas i jsel hilt hjnc ⟨jm0, hjm0⟩)
    · exact hS2 jsel hjmem
  have hWRTwrite : ∀ j2 ∈ remaining,
      Dbl.blt (Dbl.sub (Dbl.sub (Dbl.add minVal (g i j2)) (u.getD i Dbl.nan))
        (v.getD j2 Dbl.nan)) (spc.getD j2 Dbl.nan) = true →
      WRT g u v row4col t nr nc res.path res.spc (SR.set i true)
        (SC.set jsel true) j2 := by
    intro j2 h2 hrel
    have hpath' : res.path.getD j2 none = some i := by
      rw [hmempath j2 h2, if_pos hrel]
    have hspc' : res.spc.getD j2 Dbl.nan = Dbl.add minVal (redcost g u v i j2) := by
      rw [hmemspc j2 h2, relaxVal_eq, if_pos hrel, hrform j2 h2]
    refine ⟨i, hilt, getD_set_self SR i true false (by rw [hSRlen]; exact hilt),
      hpath', ?_⟩
    rcases hC2 with hit | ⟨jm, hjmlt, hjmSC, hjmrc, hjmspc⟩
    · obtain ⟨hm0, _, _⟩ := hTinit hit
      exact Or.inl ⟨hit, by rw [hspc', hm0]⟩
    · refine Or.inr ⟨jm, hjmlt, hSCmono jm hjmlt hjmSC, hjmrc, ?_⟩
      rw [hspc', hSCold_spc jm hjmlt hjmSC, hjmspc]
  have hWRTkeep : ∀ j2 ∈ remaining,
      ¬ (Dbl.blt (Dbl.sub (Dbl.sub (Dbl.add minVal (g i j2)) (u.getD i Dbl.nan))
        (v.getD j2 Dbl.nan)) (spc.getD j2 Dbl.nan) = true) →
      (res.spc.getD j2 Dbl.nan = Dbl.pinf ∨
        WRT g u v row4col t nr nc res.path res.spc (SR.set i true)
          (SC.set jsel true) j2) := by
    intro j2 h2 hrel
    have hpath' : res.path.getD j2 none = path.getD j2 none := by
      rw [hmempath j2 h2, if_neg hrel]
    have hspc' : res.spc.getD j2 Dbl.nan = spc.getD j2 Dbl.nan := by
      rw [hmemspc j2 h2, relaxVal_eq, if_neg hrel]
    rcases hS4 j2 h2 with hpinf | hWRT0
    · exact Or.inl (by rw [hspc']; exact hpinf)
    · exact Or.inr (WRT_mono g u v row4col t nr nc path spc SR SC res.path res.spc
        (SR.set i true) (SC.set jsel true) j2 hWRT0 hpath' hspc'
        (fun p hp => getD_set_mono hp) hSCmono hSCold_spc)
  have hWRTjsel : WRT g u v row4col t nr nc res.path res.spc (SR.set i true)
      (SC.set jsel true) jsel := by
    by_cases hrel : Dbl.blt (Dbl.sub (Dbl.sub (Dbl.add minVal (g i jsel))
        (u.getD i Dbl.nan)) (v.getD jsel Dbl.nan)) (spc.getD jsel Dbl.nan) = true
    · exact hWRTwrite jsel hjmem hrel
    · rcases hWRTkeep jsel hjmem hrel with hpinf | hW
      · rw [hlowtied, hm'] at hpinf
        cases hpinf
      · exact hW
  have hWRTold : ∀ j2, j2 < nc → SC.getD j2 false = true →
      WRT g u v row4col t nr nc res.path res.spc (SR.set i true)
        (SC.set jsel true) j2 := fun j2 h2 hsc =>
    WRT_mono g u v row4col t nr nc path spc SR SC res.path res.spc
      (SR.set i true) (SC.set jsel true) j2 (hS6 j2 h2 hsc).2.2
      (hSCold_path j2 h2 hsc) (hSCold_spc j2 h2 hsc)
      (fun p hp => getD_set_mono hp) hSCmono hSCold_spc
  have hS6fin : ∀ j2, j2 < nc → (SC.set jsel true).getD j2 false = true →
      Dbl.ble (res.spc.getD j2 Dbl.nan) res.lowest = true ∧
      ∃ d, res.spc.getD j2 Dbl.nan = Dbl.fin d := by
    intro j2 h2 hsc2
    rcases (hSC2iff j2 h2).mp hsc2 with hold | he
    · rcases hC2 with hit2 | ⟨jm, hjmlt, hjmSC, hjmrc, hjmspc⟩
      · obtain ⟨_, hscf, _⟩ := hTinit hit2
        rw [hscf j2 h2] at hold
        cases hold
      · have hmlow := hmlowOfMatched ⟨jm, hjmrc⟩
        rw [hSCold_spc j2 h2 hold]
        obtain ⟨⟨hble, ⟨d, hd⟩⟩, _, _⟩ := hS6 j2 h2 hold
        exact ⟨Dbl.ble_trans hble hmlow, ⟨d, hd⟩⟩
    · subst he
      rw [hlowtied]
      exact ⟨Dbl.ble_refl hlne, ⟨m', hm'⟩⟩
  have hSD' : ScanDom g u v row4col t nr nc res.spc (SR.set i true)
      (SC.set jsel true) := by
    intro i3 hi3 hSR3 j2 hj2
    constructor
    · intro hi3t
      subst hi3t
      by_cases hti : i3 = i
      · obtain ⟨hm0, _, hremf⟩ := hTinit hti.symm
        have hj2mem : j2 ∈ remaining := hremf j2 hj2
        have h3 := hler j2 hj2mem
        rw [hm0, ← hti] at h3
        exact h3
      · have hSRt : SR.getD i3 false = true := by
          rw [getD_set_ne SR true false (fun h => hti h.symm)] at hSR3
          exact hSR3
        exact Dbl.ble_trans (hdec j2 hj2) ((hSD i3 hi3 hSRt j2 hj2).1 rfl)
    · intro jp hjp hscjp hrcjp
      rcases (hSC2iff jp hjp).mp hscjp with hjpold | hjpe
      · by_cases hi3i : i3 = i
        · subst hi3i
          rcases hC2 with hit2 | ⟨jm, hjmlt, hjmSC, hjmrc, hjmspc⟩
          · exact absurd hit2 (hnt jp i3 hrcjp)
          · have hje : jp = jm := hcons jp jm i3 hrcjp hjmrc
            rw [hSCold_spc jp hjp hjpold, hje, hjmspc]
            by_cases hj2mem : j2 ∈ remaining
            · exact hler j2 hj2mem
            · have hscj2 : SC.getD j2 false = true := by
                cases hb2 : SC.getD j2 false with
                | false => exact absurd ((hcompl j2 hj2).mpr hb2) hj2mem
                | true => rfl
              rw [hSCold_spc j2 hj2 hscj2]
              refine Dbl.ble_trans (hS6 j2 hj2 hscj2).1.1 ?_
              rw [hm]
              exact Dbl.ble_self_add m (hfeas i3 j2 hilt hj2 ⟨jp, hrcjp⟩)
        · have hSRi3 : SR.getD i3 false = true := by
            rw [getD_set_ne SR true false (fun h => hi3i h.symm)] at hSR3
            exact hSR3
          have h4 := (hSD i3 hi3 hSRi3 j2 hj2).2 jp hjp hjpold hrcjp
          rw [hSCold_spc jp hjp hjpold]
          exact Dbl.ble_trans (hdec j2 hj2) h4
      · subst hjpe
        rcases (hSRchar i3 hi3).mp hSR3 with hteq | ⟨j2', hj2'lt, hj2'SC, hj2'rc⟩
        · exact absurd hteq (hnt jsel i3 hrcjp)
        · have hje := hcons jsel j2' i3 hrcjp hj2'rc
          rw [hje, hj2'SC] at hjSC
          cases hjSC
  have hrem2iff := swapRemove_mem_iff remaining idx hndrem hidxlt
  have hS5' : ∀ k, k < (sel ++ [jsel]).length → ∀ p,
      res.path.getD ((sel ++ [jsel]).getD k 0) none = some p → p ≠ t →
      ∃ m2, m2 < k ∧ row4col.getD ((sel ++ [jsel]).getD m2 0) none = some p := by
    intro k hk p hpath2 hpt
    rw [List.length_append, List.length_singleton] at hk
    by_cases hkl : k < sel.length
    · rw [getD_append_left sel [jsel] k 0 hkl] at hpath2
      have hselk_mem : sel.getD k 0 ∈ sel := getD_mem 0 hkl
      have hselkSC := ((hselch _).mp hselk_mem).2
      have hselknc := ((hselch _).mp hselk_mem).1
      rw [hSCold_path _ hselknc hselkSC] at hpath2
      obtain ⟨m2, hm2, hrc2⟩ := hS5 k hkl p hpath2 hpt
      exact ⟨m2, hm2, by
        rw [getD_append_left sel [jsel] m2 0 (by omega)]; exact hrc2⟩
    · have hke : k = sel.length := by omega
      subst hke
      rw [getD_append_self sel jsel 0] at hpath2
      by_cases hrel : Dbl.blt (Dbl.sub (Dbl.sub (Dbl.add minVal (g i jsel))
          (u.getD i Dbl.nan)) (v.getD jsel Dbl.nan)) (spc.getD jsel Dbl.nan) = true
      · rw [hmempath jsel hjmem, if_pos hrel] at hpath2
        injection hpath2 with hpe
        rcases hC2 with hit2 | ⟨jm, hjmlt, hjmSC, hjmrc, hjmspc⟩
        · exact absurd (hpe ▸ hit2) hpt
        · obtain ⟨m2, hm2lt, hm2e⟩ := (mem_iff_getD jm).mp
            ((hselch jm).mpr ⟨hjmlt, hjmSC⟩)
          refine ⟨m2, hm2lt, ?_⟩
          rw [getD_append_left sel [jsel] m2 0 hm2lt, hm2e]
          exact hpe ▸ hjmrc
      · rw [hmempath jsel hjmem, if_neg hrel] at hpath2
        have hspcu : res.spc.getD jsel Dbl.nan = spc.getD jsel Dbl.nan := by
          rw [hmemspc jsel hjmem, relaxVal_eq, if_neg hrel]
        have hospcfin : spc.getD jsel Dbl.nan = Dbl.fin m' := by
          rw [← hspcu, hlowtied, hm']
        rcases hS4 jsel hjmem with hpinf | hWRT0
        · rw [hospcfin] at hpinf
          cases hpinf
        · obtain ⟨p0, hp0, _, hp0path, hrest⟩ := hWRT0
          have hpe : p0 = p := by
            rw [hpath2] at hp0path
            injection hp0path with h5
            exact h5.symm
          subst hpe
          rcases hrest with ⟨hpt0, _⟩ | ⟨jp, hjplt, hjpSC, hjprc, _⟩
          · exact absurd hpt0 hpt
          · obtain ⟨m2, hm2lt, hm2e⟩ := (mem_iff_getD jp).mp
              ((hselch jp).mpr ⟨hjplt, hjpSC⟩)
            refine ⟨m2, hm2lt, ?_⟩
            rw [getD_append_left sel [jsel] m2 0 hm2lt, hm2e]
            exact hjprc
  have hjnotsel : jsel ∉ sel := fun hmem2 => by
    rw [((hselch jsel).mp hmem2).2] at hjSC
    cases hjSC
  have hselnd' : (sel ++ [jsel]).Nodup := nodup_append_singleton hselnd hjnotsel
  have hselch' : ∀ j2, j2 ∈ sel ++ [jsel] ↔
      (j2 < nc ∧ (SC.set jsel true).getD j2 false = true) := by
    intro j2
    rw [List.mem_append, List.mem_singleton]
    constructor
    · rintro (hmem2 | he)
      · obtain ⟨h1, h2⟩ := (hselch j2).mp hmem2
        exact ⟨h1, hSCmono j2 h1 h2⟩
      · subst he
        exact ⟨hjnc, hSC2jsel⟩
    · rintro ⟨h1, h2⟩
      rcases (hSC2iff j2 h1).mp h2 with hold | he
      · exact Or.inl ((hselch j2).mpr ⟨h1, hold⟩)
      · exact Or.inr he
  constructor
  · -- unmatched exit: the postcondition
    intro hnone
    refine ⟨hres_spc_len, hres_path_len, by rw [List.length_set]; exact hSRlen,
      by rw [List.length_set]; exact hSClen, hjnc, hnone, hSC2jsel, ⟨m', hm'⟩,
      hlowtied, hS6fin, ?_, ?_, ?_, hSD', ?_, ⟨sel ++ [jsel], hselnd', hselch', hS5'⟩⟩
    · intro j2 h2 hsc2
      have hne : j2 ≠ jsel := fun he => by
        subst he
        rw [hSC2jsel] at hsc2
        cases hsc2
      have hold : SC.getD j2 false = false := by
        rw [getD_set_ne SC true false (fun h => hne h.symm)] at hsc2
        exact hsc2
      exact hminmem j2 ((hcompl j2 h2).mpr hold)
    · intro i3 hi3
      rw [hSRchar i3 hi3]
      constructor
      · rintro (h | ⟨j2, h1, h2, h3⟩)
        · exact Or.inl h
        · exact Or.inr ⟨j2, h1, hSCmono j2 h1 h2, h3⟩
      · rintro (h | ⟨j2, h1, h2, h3⟩)
        · exact Or.inl h
        · rcases (hSC2iff j2 h1).mp h2 with hold | he
          · exact Or.inr ⟨j2, h1, hold, h3⟩
          · subst he
            rw [hnone] at h3
            cases h3
    · intro j2 h2 hsc2 hne
      rcases (hSC2iff j2 h2).mp hsc2 with hold | he
      · exact (hS6 j2 h2 hold).2.1
      · exact absurd he hne
    · intro j2 h2 hsc2
      rcases (hSC2iff j2 h2).mp hsc2 with hold | he
      · exact hWRTold j2 h2 hold
      · exact he ▸ hWRTjsel
  · -- matched continuation: the invariant is reestablished
    intro i2 hsome
    have hi2lt : i2 < nr := hrc jsel i2 hsome
    have hi2nt : i2 ≠ t := hnt jsel i2 hsome
    refine ⟨hres_spc_len, hres_path_len, by rw [List.length_set]; exact hSRlen,
      by rw [List.length_set]; exact hSClen,
      swapRemove_nodup remaining idx hndrem hidxlt,
      fun j2 h2 => hbrem j2 ((hrem2iff j2).mp h2).1, ?_, hselnd', hselch',
      ⟨m', hm'⟩, hi2lt, Or.inr ⟨jsel, hjnc, hSC2jsel, hsome, hlowtied⟩,
      fun h => absurd h hi2nt, ?_, hcls', fun j2 h2 => hminmem j2 ((hrem2iff j2).mp h2).1,
      ?_, ?_, hSD', hS5'⟩
    · -- complement of the new selected set
      intro j2 h2
      rw [hrem2iff j2]
      constructor
      · rintro ⟨hmem2, hne⟩
        rw [getD_set_ne SC true false (fun h => hne h.symm)]
        exact (hcompl j2 h2).mp hmem2
      · intro hsc2
        have hne : j2 ≠ jsel := fun he => by
          subst he
          rw [hSC2jsel] at hsc2
          cases hsc2
        rw [getD_set_ne SC true false (fun h => hne h.symm)] at hsc2
        exact ⟨(hcompl j2 h2).mpr hsc2, hne⟩
    · -- the scanned-rows characterisation with the continuation row added
      intro i3 hi3
      by_cases hi32 : i3 = i2
      · subst hi32
        constructor
        · intro _
          exact Or.inr ⟨jsel, hjnc, hSC2jsel, hsome⟩
        · intro _
          exact getD_set_self (SR.set i true) i3 true false
            (by rw [List.length_set, hSRlen]; exact hi2lt)
      · rw [getD_set_ne (SR.set i true) true false (fun h => hi32 h.symm)]
        rw [hSRchar i3 hi3]
        constructor
        · rintro (h | ⟨j2, h1, h2, h3⟩)
          · exact Or.inl h
          · exact Or.inr ⟨j2, h1, hSCmono j2 h1 h2, h3⟩
        · rintro (h | ⟨j2, h1, h2, h3⟩)
          · exact Or.inl h
          · rcases (hSC2iff j2 h1).mp h2 with hold | he
            · exact Or.inr ⟨j2, h1, hold, h3⟩
            · subst he
              have : i3 = i2 := by
                rw [hsome] at h3
                injection h3 with h4
                exact h4.symm
              exact absurd this hi32
    · -- distances and records of the selected columns
      intro j2 h2 hsc2
      rcases hcase : (hSC2iff j2 h2).mp hsc2 with hold | he
      · exact ⟨hS6fin j2 h2 hsc2, (hS6 j2 h2 hold).2.1, hWRTold j2 h2 hold⟩
      · exact ⟨hS6fin j2 h2 hsc2, ⟨i2, hi2lt, he.symm ▸ hsome⟩, he.symm ▸ hWRTjsel⟩
    · -- surviving remaining columns: infinite or recorded
      intro j2 h2
      obtain ⟨hmem2, _⟩ := (hrem2iff j2).mp h2
      by_cases hrel : Dbl.blt (Dbl.sub (Dbl.sub (Dbl.add minVal (g i j2))
          (u.getD i Dbl.nan)) (v.getD j2 Dbl.nan)) (spc.getD j2 Dbl.nan) = true
      · exact Or.inr (hWRTwrite j2 hmem2 hrel)
      · exact hWRTkeep j2 hmem2 hrel

/-- The search loop started in a state satisfying the invariant produces,
on success, a result satisfying the search postcondition. -/
theorem augLoop_spec (g : Nat → Nat → Dbl α) (u v : List (Dbl α))
    (row4col : List (Option Nat)) (t nr nc : Nat) (ht : t < nr)
    (hu : ∀ i2, i2 < nr → ∃ q, u.getD i2 Dbl.nan = Dbl.fin q)
    (hv : ∀ j2, j2 < nc → ∃ q, v.getD j2 Dbl.nan = Dbl.fin q)
    (hgood : ∀ i2 j2, i2 < nr → j2 < nc → g i2 j2 ≠ Dbl.nan ∧ g i2 j2 ≠ Dbl.ninf)
    (hrc : ∀ j2 i2, row4col.getD j2 none = some i2 → i2 < nr)
    (hnt : ∀ j2 i2, row4col.getD j2 none = some i2 → i2 ≠ t)
    (hcons : ∀ j1 j2 i0, row4col.getD j1 none = some i0 →
      row4col.getD j2 none = some i0 → j1 = j2)
    (hfeas : ∀ i2 j2, i2 < nr → j2 < nc → (∃ jm, row4col.getD jm none = some i2) →
      Dbl.ble (Dbl.fin 0) (redcost g u v i2 j2) = true) :
    ∀ (fuel : Nat) (sel : List Nat) (i : Nat) (minVal : Dbl α)
      (path : List (Option Nat)) (spc : List (Dbl α)) (SR SC : List Bool)
      (remaining : List Nat) (res : AugResult α),
      SInv g u v row4col t nr nc sel i minVal path spc SR SC remaining →
      augLoop g u v row4col fuel i minVal path spc SR SC remaining = some res →
      AugPost g u v row4col t nr nc res := by
  intro fuel
  induction fuel with
  | zero => intro sel i minVal path spc SR SC remaining res _ h; cases h
  | succ fuel ih =>
    intro sel i minVal path spc SR SC remaining res hInv h
    simp only [augLoop] at h
    by_cases hbeq : Dbl.beq (scanLoop g u v row4col i minVal remaining 0 path spc
        Dbl.pinf none).lowest Dbl.pinf = true
    · rw [if_pos hbeq] at h
      cases h
    · rw [if_neg hbeq] at h
      have hlow : ¬ (scanLoop g u v row4col i minVal remaining 0 path spc
          Dbl.pinf none).lowest = Dbl.pinf := by
        intro he
        rw [he] at hbeq
        exact hbeq rfl
      rcases hidx : (scanLoop g u v row4col i minVal remaining 0 path spc
          Dbl.pinf none).index with _ | idx
      · rw [hidx] at h
        cases h
      · rw [hidx] at h
        simp only [] at h
        have hstep := augStep_spec g u v row4col t nr nc ht hu hv hgood hrc hnt hcons
          hfeas sel i minVal path spc SR SC remaining hInv _ rfl idx hidx hlow
        rcases hcase : row4col.getD (remaining.getD idx 0) none with _ | i2
        · rw [hcase] at h
          injection h with h2
          rw [← h2]
          exact hstep.1 hcase
        · rw [hcase] at h
          exact ih _ _ _ _ _ _ _ _ _ (hstep.2 i2 hcase) h

/-- augmenting_path satisfies the search postcondition on success. -/
theorem augmenting_path_spec (g : Nat → Nat → Dbl α) (u v : List (Dbl α))
    (row4col : List (Option Nat)) (t nr nc : Nat) (ht : t < nr)
    (hu : ∀ i2, i2 < nr → ∃ q, u.getD i2 Dbl.nan = Dbl.fin q)
    (hv : ∀ j2, j2 < nc → ∃ q, v.getD j2 Dbl.nan = Dbl.fin q)
    (hgood : ∀ i2 j2, i2 < nr → j2 < nc → g i2 j2 ≠ Dbl.nan ∧ g i2 j2 ≠ Dbl.ninf)
    (hrc : ∀ j2 i2, row4col.getD j2 none = some i2 → i2 < nr)
    (hnt : ∀ j2 i2, row4col.getD j2 none = some i2 → i2 ≠ t)
    (hcons : ∀ j1 j2 i0, row4col.getD j1 none = some i0 →
      row4col.getD j2 none = some i0 → j1 = j2)
    (hfeas : ∀ i2 j2, i2 < nr → j2 < nc → (∃ jm, row4col.getD jm none = some i2) →
      Dbl.ble (Dbl.fin 0) (redcost g u v i2 j2) = true)
    (path : List (Option Nat)) (hpathlen : path.length = nc) (res : AugResult α)
    (h : augmenting_path g nr nc u v path row4col t = some res) :
    AugPost g u v row4col t nr nc res := by
  apply augLoop_spec g u v row4col t nr nc ht hu hv hgood hrc hnt hcons hfeas
    (nc + 1) [] t (Dbl.fin 0) path (List.replicate nc Dbl.pinf)
    (List.replicate nr false) (List.replicate nc false) ((List.range nc).reverse)
    res ?_ h
  have hspcrep : ∀ j2, j2 < nc →
      (List.replicate nc (Dbl.pinf : Dbl α)).getD j2 Dbl.nan = Dbl.pinf :=
    fun j2 h2 => getD_replicate Dbl.pinf Dbl.nan h2
  have hSCrep : ∀ j2, j2 < nc →
      (List.replicate nc false).getD j2 false = false := by
    intro j2 h2
    rw [getD_replicate false false h2]
  have hmemrev : ∀ j2 : Nat, j2 ∈ (List.range nc).reverse ↔ j2 < nc := by
    intro j2
    rw [List.mem_reverse, List.mem_range]
  refine ⟨by simp, hpathlen, by simp, by simp, ?_, ?_, ?_, List.nodup_nil, ?_,
    ⟨0, rfl⟩, ht, Or.inl rfl, ?_, ?_, ?_, ?_, ?_, ?_, ?_, ?_⟩
  · exact List.nodup_reverse.mpr (List.nodup_range nc)
  · intro j2 h2
    exact (hmemrev j2).mp h2
  · intro j2 h2
    rw [hSCrep j2 h2]
    exact ⟨fun _ => rfl, fun _ => (hmemrev j2).mpr h2⟩
  · intro j2
    constructor
    · intro h2
      cases h2
    · rintro ⟨h1, h2⟩
      rw [hSCrep j2 h1] at h2
      cases h2
  · intro _
    exact ⟨rfl, hSCrep, fun j2 h2 => (hmemrev j2).mpr h2⟩
  · intro i3 hi3
    constructor
    · intro h2
      by_cases hti : i3 = t
      · exact Or.inl hti
      · rw [getD_set_ne (List.replicate nr false) true false (fun h3 => hti h3.symm)] at h2
        rw [getD_replicate false false hi3] at h2
        cases h2
    · rintro (h2 | ⟨j2, hj2, hsc, _⟩)
      · subst h2
        exact getD_set_self (List.replicate nr false) i3 true false (by simpa using hi3)
      · rw [hSCrep j2 hj2] at hsc
        cases hsc
  · intro j2 h2
    exact Or.inl (hspcrep j2 h2)
  · intro j2 h2
    rw [hspcrep j2 ((hmemrev j2).mp h2)]
    exact Dbl.ble_fin_pinf 0
  · intro j2 h2 hsc
    rw [hSCrep j2 h2] at hsc
    cases hsc
  · intro j2 h2
    exact Or.inl (hspcrep j2 ((hmemrev j2).mp h2))
  · intro i3 hi3 hSR3
    rw [getD_replicate false false hi3] at hSR3
    cases hSR3
  · intro k hk
    cases hk

/-- Correctness of the augmenting walk: started at the selected column of
ghost position kcur in a mid-walk state satisfying the walk clauses, it
terminates at the root row and produces a consistent matching whose new
pairs are exactly tree edges of selected columns. -/
theorem augment_walk (t nr nc : Nat) (r4c0 c4r0 : List (Option Nat)) (selF : List Nat)
    (pathf : List (Option Nat)) (SCf : List Bool)
    (hselnd : selF.Nodup)
    (hselch : ∀ j2, j2 ∈ selF ↔ (j2 < nc ∧ SCf.getD j2 false = true))
    (hchain : ∀ k, k < selF.length → ∀ p, pathf.getD (selF.getD k 0) none = some p →
      p ≠ t → ∃ m2, m2 < k ∧ r4c0.getD (selF.getD m2 0) none = some p)
    (hpath_some : ∀ j2, j2 < nc → SCf.getD j2 false = true →
      ∃ p, pathf.getD j2 none = some p ∧ p < nr)
    (hcons0 : ∀ j2 i0, r4c0.getD j2 none = some i0 → c4r0.getD i0 none = some j2)
    (hcons0b : ∀ i0 j2, c4r0.getD i0 none = some j2 → r4c0.getD j2 none = some i0)
    (htu : c4r0.getD t none = none) :
    ∀ (fuel kcur : Nat) (r4c c4r : List (Option Nat)),
      kcur < fuel → kcur < selF.length → r4c.length = nc → c4r.length = nr →
      (∀ j2 i0, j2 ≠ selF.getD kcur 0 → r4c.getD j2 none = some i0 →
        c4r.getD i0 none = some j2) →
      (∀ i0 j2, c4r.getD i0 none = some j2 → r4c.getD j2 none = some i0) →
      (∀ j2 i0, r4c.getD j2 none = some i0 → (r4c0.getD j2 none = some i0 ∨
        (j2 < nc ∧ SCf.getD j2 false = true ∧ pathf.getD j2 none = some i0))) →
      (∀ i0 j2, c4r.getD i0 none = some j2 → (c4r0.getD i0 none = some j2 ∨
        (j2 < nc ∧ SCf.getD j2 false = true ∧ pathf.getD j2 none = some i0))) →
      (∀ i0, c4r.getD i0 none ≠ some (selF.getD kcur 0)) →
      (∀ i0, c4r.getD i0 none = c4r0.getD i0 none ∨
        c4r0.getD i0 none = some (selF.getD kcur 0) ∨
        (∃ jx, c4r0.getD i0 none = some jx ∧ r4c.getD jx none ≠ r4c0.getD jx none)) →
      (∀ j2, r4c.getD j2 none = r4c0.getD j2 none ∨
        (∃ mv, mv < selF.length ∧ kcur < mv ∧ j2 = selF.getD mv 0)) →
      (∀ i0, c4r.getD i0 none ≠ c4r0.getD i0 none →
        (∃ mv, mv < selF.length ∧ kcur < mv ∧
          c4r.getD i0 none = some (selF.getD mv 0))) →
      (∀ j2 i0, (augment fuel t pathf r4c c4r (selF.getD kcur 0)).1.getD j2 none =
          some i0 →
        (augment fuel t pathf r4c c4r (selF.getD kcur 0)).2.getD i0 none = some j2) ∧
      (∀ i0 j2, (augment fuel t pathf r4c c4r (selF.getD kcur 0)).2.getD i0 none =
          some j2 →
        (augment fuel t pathf r4c c4r (selF.getD kcur 0)).1.getD j2 none = some i0) ∧
      (∀ j2 i0, (augment fuel t pathf r4c c4r (selF.getD kcur 0)).1.getD j2 none =
          some i0 →
        (r4c0.getD j2 none = some i0 ∨
          (j2 < nc ∧ SCf.getD j2 false = true ∧ pathf.getD j2 none = some i0))) ∧
      (∀ i0 j2, (augment fuel t pathf r4c c4r (selF.getD kcur 0)).2.getD i0 none =
          some j2 →
        (c4r0.getD i0 none = some j2 ∨
          (j2 < nc ∧ SCf.getD j2 false = true ∧ pathf.getD j2 none = some i0))) ∧
      ((augment fuel t pathf r4c c4r (selF.getD kcur 0)).2.getD t none).isSome
        = true ∧
      (∀ i0, (c4r.getD i0 none).isSome = true →
        ((augment fuel t pathf r4c c4r (selF.getD kcur 0)).2.getD i0 none).isSome
          = true) ∧
      (∀ j2, (r4c.getD j2 none).isSome = true →
        ((augment fuel t pathf r4c c4r (selF.getD kcur 0)).1.getD j2 none).isSome
          = true) ∧
      (augment fuel t pathf r4c c4r (selF.getD kcur 0)).1.getD (selF.getD kcur 0)
          none = pathf.getD (selF.getD kcur 0) none ∧
      (augment fuel t pathf r4c c4r (selF.getD kcur 0)).1.length = nc ∧
      (augment fuel t pathf r4c c4r (selF.getD kcur 0)).2.length = nr ∧
      (∀ j2, (augment fuel t pathf r4c c4r (selF.getD kcur 0)).1.getD j2 none =
          r4c.getD j2 none ∨
        (∃ mv, mv ≤ kcur ∧ mv < selF.length ∧ j2 = selF.getD mv 0)) := by
  intro fuel
  induction fuel with
  | zero => intro kcur r4c c4r hfuel; omega
  | succ fuel ih =>
    intro kcur r4c c4r hfuel hklt hlen1 hlen2 hW1 hW2 hW3 hW4 hW6 hW7 hW8 hW10
    set jcur := selF.getD kcur 0 with hjdef
    have hjmem : jcur ∈ selF := getD_mem 0 hklt
    obtain ⟨hjnc, hjSC⟩ := (hselch jcur).mp hjmem
    obtain ⟨p, hp, hplt⟩ := hpath_some jcur hjnc hjSC
    have hjlen1 : jcur < r4c.length := by rw [hlen1]; exact hjnc
    have hplen2 : p < c4r.length := by rw [hlen2]; exact hplt
    have hctnone : c4r.getD t none = none := by
      rcases hW7 t with h1 | h2 | ⟨jx, hx1, _⟩
      · rw [h1]; exact htu
      · rw [htu] at h2; cases h2
      · rw [htu] at hx1; cases hx1
    have hunfold : augment (fuel + 1) t pathf r4c c4r jcur =
        (if p = t then (r4c.set jcur (some p), c4r.set p (some jcur))
         else augment fuel t pathf (r4c.set jcur (some p)) (c4r.set p (some jcur))
           ((c4r.getD p none).getD 0)) := by
      simp only [augment, hp, Option.getD_some]
    by_cases hpt : p = t
    · -- the walk stops here: the root row is reached
      rw [hunfold, if_pos hpt]
      have hK1 : ∀ j2 i0, (r4c.set jcur (some p)).getD j2 none = some i0 →
          (c4r.set p (some jcur)).getD i0 none = some j2 := by
        intro j2 i0 hr
        by_cases hj2 : j2 = jcur
        · subst hj2
          rw [getD_set_self r4c jcur (some p) none hjlen1] at hr
          injection hr with hr2
          subst hr2
          exact getD_set_self c4r p (some jcur) none hplen2
        · rw [getD_set_ne r4c (some p) none (fun h => hj2 h.symm)] at hr
          have hc := hW1 j2 i0 hj2 hr
          by_cases hip : i0 = p
          · subst i0
            rw [hpt, hctnone] at hc
            cases hc
          · rw [getD_set_ne c4r (some jcur) none (fun h => hip h.symm)]
            exact hc
      refine ⟨hK1, ?_, ?_, ?_, ?_, ?_, ?_, ?_, by simp [hlen1], by simp [hlen2], ?_⟩
      · intro i0 j2 hc
        by_cases hip : i0 = p
        · subst i0
          rw [getD_set_self c4r p (some jcur) none hplen2] at hc
          injection hc with hc2
          subst hc2
          exact getD_set_self r4c jcur (some p) none hjlen1
        · rw [getD_set_ne c4r (some jcur) none (fun h => hip h.symm)] at hc
          have hne : j2 ≠ jcur := fun he => hW6 i0 (he ▸ hc)
          rw [getD_set_ne r4c (some p) none (fun h => hne h.symm)]
          exact hW2 i0 j2 hc
      · intro j2 i0 hr
        by_cases hj2 : j2 = jcur
        · subst hj2
          rw [getD_set_self r4c jcur (some p) none hjlen1] at hr
          injection hr with hr2
          subst hr2
          exact Or.inr ⟨hjnc, hjSC, hp⟩
        · rw [getD_set_ne r4c (some p) none (fun h => hj2 h.symm)] at hr
          exact hW3 j2 i0 hr
      · intro i0 j2 hc
        by_cases hip : i0 = p
        · subst i0
          rw [getD_set_self c4r p (some jcur) none hplen2] at hc
          injection hc with hc2
          subst hc2
          exact Or.inr ⟨hjnc, hjSC, hp⟩
        · rw [getD_set_ne c4r (some jcur) none (fun h => hip h.symm)] at hc
          exact hW4 i0 j2 hc
      · rw [← hpt, getD_set_self c4r p (some jcur) none hplen2]
        rfl
      · intro i0 _
        by_cases hip : i0 = p
        · subst i0
          rw [getD_set_self c4r p (some jcur) none hplen2]
          rfl
        · rw [getD_set_ne c4r (some jcur) none (fun h => hip h.symm)]
          assumption
      · intro j2 _
        by_cases hj2 : j2 = jcur
        · subst hj2
          rw [getD_set_self r4c jcur (some p) none hjlen1]
          rfl
        · rw [getD_set_ne r4c (some p) none (fun h => hj2 h.symm)]
          assumption
      · rw [getD_set_self r4c jcur (some p) none hjlen1, hp]
      · intro j2
        by_cases hj2 : j2 = jcur
        · exact Or.inr ⟨kcur, le_refl kcur, hklt, hj2⟩
        · exact Or.inl (getD_set_ne r4c (some p) none (fun h => hj2 h.symm))
    · -- the walk continues at the matched column of the writer row
      obtain ⟨m2, hm2k, hm2rc⟩ := hchain kcur hklt p hp hpt
      have hm2len : m2 < selF.length := by omega
      have hc0p : c4r0.getD p none = some (selF.getD m2 0) := hcons0 _ p hm2rc
      have hjne : selF.getD m2 0 ≠ jcur := by
        intro he
        have := nodup_getD_inj hselnd hm2len hklt he
        omega
      have hfresh : c4r.getD p none = c4r0.getD p none := by
        rcases hW7 p with h1 | h2 | ⟨jx, hx1, hx2⟩
        · exact h1
        · exfalso
          rw [hc0p] at h2
          injection h2 with h3
          exact hjne h3
        · exfalso
          have hxe : jx = selF.getD m2 0 := by
            rw [hc0p] at hx1
            injection hx1 with h3
            exact h3.symm
          rcases hW8 jx with h4 | ⟨mv, hmv1, hmv2, hmv3⟩
          · exact hx2 h4
          · rw [hxe] at hmv3
            have := nodup_getD_inj hselnd hm2len hmv1 hmv3
            omega
      have hnexteq : (c4r.getD p none).getD 0 = selF.getD m2 0 := by
        rw [hfresh, hc0p]
        rfl
      have hr4c0jcur : r4c0.getD jcur none ≠ some p := by
        intro he
        have := hcons0 jcur p he
        rw [hc0p] at this
        injection this with h3
        exact hjne h3
      -- the walk clauses for the successor state
      have nW1 : ∀ j2 i0, j2 ≠ selF.getD m2 0 →
          (r4c.set jcur (some p)).getD j2 none = some i0 →
          (c4r.set p (some jcur)).getD i0 none = some j2 := by
        intro j2 i0 hne2 hr
        by_cases hj2 : j2 = jcur
        · subst hj2
          rw [getD_set_self r4c jcur (some p) none hjlen1] at hr
          injection hr with hr2
          subst hr2
          exact getD_set_self c4r p (some jcur) none hplen2
        · rw [getD_set_ne r4c (some p) none (fun h => hj2 h.symm)] at hr
          have hc := hW1 j2 i0 hj2 hr
          by_cases hip : i0 = p
          · exfalso
            subst i0
            rw [hfresh, hc0p] at hc
            injection hc with h3
            exact hne2 h3.symm
          · rw [getD_set_ne c4r (some jcur) none (fun h => hip h.symm)]
            exact hc
      have nW2 : ∀ i0 j2, (c4r.set p (some jcur)).getD i0 none = some j2 →
          (r4c.set jcur (some p)).getD j2 none = some i0 := by
        intro i0 j2 hc
        by_cases hip : i0 = p
        · subst i0
          rw [getD_set_self c4r p (some jcur) none hplen2] at hc
          injection hc with hc2
          subst hc2
          exact getD_set_self r4c jcur (some p) none hjlen1
        · rw [getD_set_ne c4r (some jcur) none (fun h => hip h.symm)] at hc
          have hne : j2 ≠ jcur := fun he => hW6 i0 (he ▸ hc)
          rw [getD_set_ne r4c (some p) none (fun h => hne h.symm)]
          exact hW2 i0 j2 hc
      have nW3 : ∀ j2 i0, (r4c.set jcur (some p)).getD j2 none = some i0 →
          (r4c0.getD j2 none = some i0 ∨
            (j2 < nc ∧ SCf.getD j2 false = true ∧ pathf.getD j2 none = some i0)) := by
        intro j2 i0 hr
        by_cases hj2 : j2 = jcur
        · subst hj2
          rw [getD_set_self r4c jcur (some p) none hjlen1] at hr
          injection hr with hr2
          subst hr2
          exact Or.inr ⟨hjnc, hjSC, hp⟩
        · rw [getD_set_ne r4c (some p) none (fun h => hj2 h.symm)] at hr
          exact hW3 j2 i0 hr
      have nW4 : ∀ i0 j2, (c4r.set p (some jcur)).getD i0 none = some j2 →
          (c4r0.getD i0 none = some j2 ∨
            (j2 < nc ∧ SCf.getD j2 false = true ∧ pathf.getD j2 none = some i0)) := by
        intro i0 j2 hc
        by_cases hip : i0 = p
        · subst i0
          rw [getD_set_self c4r p (some jcur) none hplen2] at hc
          injection hc with hc2
          subst hc2
          exact Or.inr ⟨hjnc, hjSC, hp⟩
        · rw [getD_set_ne c4r (some jcur) none (fun h => hip h.symm)] at hc
          exact hW4 i0 j2 hc
      have nW6 : ∀ i0, (c4r.set p (some jcur)).getD i0 none ≠
          some (selF.getD m2 0) := by
        intro i0 hcon
        by_cases hip : i0 = p
        · subst i0
          rw [getD_set_self c4r p (some jcur) none hplen2] at hcon
          injection hcon with h3
          exact hjne h3.symm
        · rw [getD_set_ne c4r (some jcur) none (fun h => hip h.symm)] at hcon
          by_cases horig : c4r.getD i0 none = c4r0.getD i0 none
          · rw [horig] at hcon
            have := hcons0b i0 _ hcon
            rw [hm2rc] at this
            injection this with h3
            exact hip h3.symm
          · obtain ⟨mv, hmv1, hmv2, hmv3⟩ := hW10 i0 horig
            rw [hcon] at hmv3
            injection hmv3 with h3
            have := nodup_getD_inj hselnd hm2len hmv1 h3
            omega
      have nW7 : ∀ i0, (c4r.set p (some jcur)).getD i0 none = c4r0.getD i0 none ∨
          c4r0.getD i0 none = some (selF.getD m2 0) ∨
          (∃ jx, c4r0.getD i0 none = some jx ∧
            (r4c.set jcur (some p)).getD jx none ≠ r4c0.getD jx none) := by
        intro i0
        by_cases hip : i0 = p
        · subst i0
          exact Or.inr (Or.inl hc0p)
        · rw [getD_set_ne c4r (some jcur) none (fun h => hip h.symm)]
          rcases hW7 i0 with h1 | h2 | ⟨jx, hx1, hx2⟩
          · exact Or.inl h1
          · refine Or.inr (Or.inr ⟨jcur, h2, ?_⟩)
            rw [getD_set_self r4c jcur (some p) none hjlen1]
            exact fun he => hr4c0jcur he.symm
          · by_cases hjx : jx = jcur
            · refine Or.inr (Or.inr ⟨jx, hx1, ?_⟩)
              rw [hjx, getD_set_self r4c jcur (some p) none hjlen1]
              exact fun he => hr4c0jcur he.symm
            · refine Or.inr (Or.inr ⟨jx, hx1, ?_⟩)
              rw [getD_set_ne r4c (some p) none (fun h => hjx h.symm)]
              exact hx2
      have nW8 : ∀ j2, (r4c.set jcur (some p)).getD j2 none = r4c0.getD j2 none ∨
          (∃ mv, mv < selF.length ∧ m2 < mv ∧ j2 = selF.getD mv 0) := by
        intro j2
        by_cases hj2 : j2 = jcur
        · exact Or.inr ⟨kcur, hklt, hm2k, hj2⟩
        · rw [getD_set_ne r4c (some p) none (fun h => hj2 h.symm)]
          rcases hW8 j2 with h1 | ⟨mv, hmv1, hmv2, hmv3⟩
          · exact Or.inl h1
          · exact Or.inr ⟨mv, hmv1, by omega, hmv3⟩
      have nW10 : ∀ i0, (c4r.set p (some jcur)).getD i0 none ≠ c4r0.getD i0 none →
          (∃ mv, mv < selF.length ∧ m2 < mv ∧
            (c4r.set p (some jcur)).getD i0 none = some (selF.getD mv 0)) := by
        intro i0 hne2
        by_cases hip : i0 = p
        · subst i0
          exact ⟨kcur, hklt, hm2k,
            getD_set_self c4r p (some jcur) none hplen2⟩
        · rw [getD_set_ne c4r (some jcur) none (fun h => hip h.symm)] at hne2 ⊢
          obtain ⟨mv, hmv1, hmv2, hmv3⟩ := hW10 i0 hne2
          exact ⟨mv, hmv1, by omega, hmv3⟩
      have hrec := ih m2 (r4c.set jcur (some p)) (c4r.set p (some jcur))
        (by omega) hm2len (by rw [List.length_set]; exact hlen1)
        (by rw [List.length_set]; exact hlen2) nW1 nW2 nW3 nW4 nW6 nW7 nW8 nW10
      obtain ⟨hc1, hc2, hc3, hc4, hc5, hc6, hc7, hc8, hc9a, hc9b, hc10⟩ := hrec
      rw [hunfold, if_neg hpt, hnexteq]
      refine ⟨hc1, hc2, hc3, hc4, hc5, ?_, ?_, ?_, hc9a, hc9b, ?_⟩
      · intro i0 hs
        apply hc6
        by_cases hip : i0 = p
        · subst i0
          rw [getD_set_self c4r p (some jcur) none hplen2]
          rfl
        · rw [getD_set_ne c4r (some jcur) none (fun h => hip h.symm)]
          exact hs
      · intro j2 hs
        apply hc7
        by_cases hj2 : j2 = jcur
        · subst hj2
          rw [getD_set_self r4c jcur (some p) none hjlen1]
          rfl
        · rw [getD_set_ne r4c (some p) none (fun h => hj2 h.symm)]
          exact hs
      · rcases hc10 jcur with h1 | ⟨mv, hmv1, hmv2, hmv3⟩
        · rw [h1, getD_set_self r4c jcur (some p) none hjlen1, hp]
        · exfalso
          have := nodup_getD_inj hselnd hmv2 hklt hmv3.symm
          omega
      · intro j2
        rcases hc10 j2 with h1 | ⟨mv, hmv1, hmv2, hmv3⟩
        · by_cases hj2 : j2 = jcur
          · exact Or.inr ⟨kcur, le_refl kcur, hklt, hj2⟩
          · rw [h1, getD_set_ne r4c (some p) none (fun h => hj2 h.symm)]
            exact Or.inl rfl
        · exact Or.inr ⟨mv, by omega, hmv2, hmv3⟩

theorem le_of_sub_eq {x y u w : α} (h : x ≤ y) (he : w - u = y - x) : u ≤ w := by
  rw [← sub_nonneg] at h ⊢
  rwa [he]

/-- One main-loop iteration preserves the driver invariant: the duals
stay finite and feasible, matched pairs stay tight, and exactly the new
row becomes matched. -/
theorem solveStep_MInv (g : Nat → Nat → Dbl α) (nr nc t : Nat)
    (hgood : ∀ i2 j2, i2 < nr → j2 < nc → g i2 j2 ≠ Dbl.nan ∧ g i2 j2 ≠ Dbl.ninf)
    (st st2 : DriverState α) (hM : MInv g nr nc t st) (ht : t < nr)
    (hstep : solveStep g nc t st = some st2) :
    MInv g nr nc (t + 1) st2 := by
  obtain ⟨hul, hvl, hpl, hcl, hrl, huf, hvf, hc2r, hr2c, hmr, hfe, hti, hvn, hv0, hpb⟩ := hM
  simp only [solveStep] at hstep
  rcases haug : augmenting_path g st.u.length nc st.u st.v st.path st.row4col t
    with _ | res
  · rw [haug] at hstep
    cases hstep
  · rw [haug] at hstep
    simp only [] at hstep
    injection hstep with hstep2
    subst hstep2
    rw [hul] at haug
    have hrc0 : ∀ j2 i2, st.row4col.getD j2 none = some i2 → i2 < nr :=
      fun j2 i2 h => (hr2c j2 i2 h).1
    have htu2 : st.col4row.getD t none = none := by
      cases hcase : st.col4row.getD t none with
      | none => rfl
      | some j0 =>
        have := (hmr t ht).mp (by rw [hcase]; rfl)
        omega
    have hntF : ∀ j2 i2, st.row4col.getD j2 none = some i2 → i2 ≠ t := by
      intro j2 i2 h he
      subst he
      rw [(hr2c j2 i2 h).2] at htu2
      cases htu2
    have hconsF : ∀ j1 j2 i0, st.row4col.getD j1 none = some i0 →
        st.row4col.getD j2 none = some i0 → j1 = j2 := by
      intro j1 j2 i0 h1 h2
      have e1 := (hr2c j1 i0 h1).2
      have e2 := (hr2c j2 i0 h2).2
      rw [e1] at e2
      exact Option.some.inj e2
    have hfeasF : ∀ i2 j2, i2 < nr → j2 < nc →
        (∃ jm, st.row4col.getD jm none = some i2) →
        Dbl.ble (Dbl.fin 0) (redcost g st.u st.v i2 j2) = true := by
      rintro i2 j2 hi2 hj2 ⟨jm, hjm⟩
      have hlt : i2 < t := (hmr i2 hi2).mp (by rw [(hr2c jm i2 hjm).2]; rfl)
      obtain ⟨a, ha⟩ := huf i2 hi2
      obtain ⟨b, hb⟩ := hvf j2 hj2
      have h3 := hfe i2 j2 hlt hj2
      rw [ha, hb, Dbl.feas_iff] at h3
      rw [redcost, ha, hb]
      exact h3
    have hPost := augmenting_path_spec g st.u st.v st.row4col t nr nc ht huf hvf
      hgood hrc0 hntF hconsF hfeasF st.path hpl res haug
    obtain ⟨hPspc, hPpath, hPSR, hPSC, hsinklt, hsinkunm, hsinkSC, ⟨mv, hmv⟩,
      hsinkeq, hS6f, hA4, hSRcharf, hSCM, hSDf, hWRTf,
      ⟨selF, hselndF, hselchF, hchainF⟩⟩ := hPost
    have hpathSomeF : ∀ j2, j2 < nc → res.SC.getD j2 false = true →
        ∃ p, res.path.getD j2 none = some p ∧ p < nr := by
      intro j2 h2 hsc
      obtain ⟨p0, hp0lt, _, hp0path, _⟩ := hWRTf j2 h2 hsc
      exact ⟨p0, hp0path, hp0lt⟩
    have hselFsub : selF.length ≤ nc := by
      have h1 : selF ⊆ List.range nc :=
        fun x hx => List.mem_range.mpr ((hselchF x).mp hx).1
      have h2 := (List.Nodup.subperm hselndF h1).length_le
      simpa using h2
    obtain ⟨ks, hks, hkse⟩ := (mem_iff_getD res.sink).mp
      ((hselchF res.sink).mpr ⟨hsinklt, hsinkSC⟩)
    have hwalk := augment_walk t nr nc st.row4col st.col4row selF res.path res.SC
      hselndF hselchF hchainF hpathSomeF (fun j2 i0 h => (hr2c j2 i0 h).2)
      (fun i0 j2 h => (hc2r i0 j2 h).2) htu2 (nc + 1) ks st.row4col st.col4row
      (by omega) hks hrl hcl
      (fun j2 i0 _ h => (hr2c j2 i0 h).2)
      (fun i0 j2 h => (hc2r i0 j2 h).2)
      (fun j2 i0 h => Or.inl h)
      (fun i0 j2 h => Or.inl h)
      (by
        intro i0 hcon
        rw [hkse] at hcon
        rw [(hc2r i0 _ hcon).2] at hsinkunm
        cases hsinkunm)
      (fun i0 => Or.inl rfl)
      (fun j2 => Or.inl rfl)
      (fun i0 h => absurd rfl h)
    rw [hkse] at hwalk
    obtain ⟨wC1, wC2, wC3, wC4, wC5, wC6, wC7, wC8, wC9a, wC9b, wC10⟩ := hwalk
    have hSRt : res.SR.getD t false = true := (hSRcharf t ht).mpr (Or.inl rfl)
    have hSRstatus : ∀ i, i < nr → res.SR.getD i false = true → i ≠ t →
        ∃ jm, jm < nc ∧ res.SC.getD jm false = true ∧
          st.row4col.getD jm none = some i ∧ st.col4row.getD i none = some jm := by
      intro i hi hSRi hit
      rcases (hSRcharf i hi).mp hSRi with h | ⟨jm, h1, h2, h3⟩
      · exact absurd h hit
      · exact ⟨jm, h1, h2, h3, (hr2c jm i h3).2⟩
    have hnewbound : ∀ j2 i0, res.path.getD j2 none = some i0 → j2 < nc →
        res.SC.getD j2 false = true → i0 < nr := by
      intro j2 i0 hpath2 h2 hsc
      obtain ⟨p0, hp0lt, _, hp0path, _⟩ := hWRTf j2 h2 hsc
      rw [hpath2] at hp0path
      injection hp0path with h3
      omega
    -- path entries of the result are in-range rows
    have hpb2 : ∀ j2 p, res.path.getD j2 none = some p → p < nr := by
      have hb := augLoop_bounds g st.u st.v st.row4col nr nc hrc0 (by omega)
        (nc + 1) t (Dbl.fin 0) st.path (List.replicate nc Dbl.pinf)
        (List.replicate nr false) (List.replicate nc false)
        ((List.range nc).reverse) res ht
        (fun j2 h2 => by rw [List.mem_reverse, List.mem_range] at h2; exact h2)
        hpb haug
      exact hb.2
    refine ⟨?_, ?_, hPpath, wC9b, wC9a, ?_, ?_, ?_, ?_, ?_, ?_, ?_, ?_, ?_, hpb2⟩
    · show (updateU st.u res.SR st.col4row res.spc res.minVal t).length = nr
      simp [updateU, hul]
    · show (updateV st.v res.SC res.spc res.minVal).length = nc
      simp [updateV, hvl]
    · -- u stays finite
      intro i hi
      have hul2 : i < st.u.length := by rw [hul]; exact hi
      show ∃ q, (updateU st.u res.SR st.col4row res.spc res.minVal t).getD i Dbl.nan
        = Dbl.fin q
      rw [updateU_getD st.u res.SR st.col4row res.spc res.minVal t i hul2]
      obtain ⟨a, ha⟩ := huf i hi
      by_cases hit : i = t
      · rw [if_pos hit, ha, hmv, Dbl.add_fin]
        exact ⟨a + mv, rfl⟩
      · rw [if_neg hit]
        cases hSRv : res.SR.getD i false with
        | true =>
          rw [if_pos rfl]
          obtain ⟨jm, hjmlt, hjmSC, hjmrc, hjmc4r⟩ := hSRstatus i hi hSRv hit
          obtain ⟨djm, hdjm⟩ := (hS6f jm hjmlt hjmSC).2
          rw [hjmc4r]
          simp only [Option.getD_some]
          rw [ha, hmv, hdjm, Dbl.sub_fin, Dbl.add_fin]
          exact ⟨a + (mv - djm), rfl⟩
        | false =>
          rw [if_neg (by simp)]
          exact ⟨a, ha⟩
    · -- v stays finite
      intro j hj
      have hvl2 : j < st.v.length := by rw [hvl]; exact hj
      show ∃ q, (updateV st.v res.SC res.spc res.minVal).getD j Dbl.nan = Dbl.fin q
      rw [updateV_getD st.v res.SC res.spc res.minVal j hvl2]
      obtain ⟨b, hb⟩ := hvf j hj
      by_cases hscj : res.SC.getD j false = true
      · rw [if_pos hscj]
        obtain ⟨dj, hdj⟩ := (hS6f j hj hscj).2
        rw [hb, hmv, hdj, Dbl.sub_fin, Dbl.sub_fin]
        exact ⟨b - (mv - dj), rfl⟩
      · rw [if_neg hscj]
        exact ⟨b, hb⟩
    · -- col4row to row4col consistency
      intro i j hc
      refine ⟨?_, wC2 i j hc⟩
      rcases wC4 i j hc with horig | ⟨hjlt, _, _⟩
      · exact (hc2r i j horig).1
      · exact hjlt
    · -- row4col to col4row consistency
      intro j i hr
      refine ⟨?_, wC1 j i hr⟩
      rcases wC3 j i hr with horig | ⟨hjlt, hsc, hpath2⟩
      · exact (hr2c j i horig).1
      · exact hnewbound j i hpath2 hjlt hsc
    · -- matched rows are exactly those below t + 1
      intro i hi
      constructor
      · intro hs
        rcases hcase : (augment (nc + 1) t res.path st.row4col st.col4row
            res.sink).2.getD i none with _ | j
        · rw [hcase] at hs
          cases hs
        · rcases wC4 i j hcase with horig | ⟨hjlt, hsc, hpath2⟩
          · have := (hmr i hi).mp (by rw [horig]; rfl)
            omega
          · obtain ⟨p0, hp0lt, _, hp0path, hrest⟩ := hWRTf j hjlt hsc
            rw [hpath2] at hp0path
            injection hp0path with h3
            subst h3
            rcases hrest with ⟨hpt, _⟩ | ⟨jp, hjplt, hjpSC, hjprc, _⟩
            · omega
            · have := (hmr i hi).mp (by rw [(hr2c jp i hjprc).2]; rfl)
              omega
      · intro hlt2
        by_cases hit : i = t
        · exact hit ▸ wC5
        · exact wC6 i ((hmr i hi).mpr (by omega))
    · -- feasibility of the updated duals on processed rows
      intro i j hit1 hj
      have hi : i < nr := by omega
      obtain ⟨a, ha⟩ := huf i hi
      obtain ⟨b, hb⟩ := hvf j hj
      have hul2 : i < st.u.length := by rw [hul]; exact hi
      have hvl2 : j < st.v.length := by rw [hvl]; exact hj
      show Dbl.ble (Dbl.add
        ((updateU st.u res.SR st.col4row res.spc res.minVal t).getD i Dbl.nan)
        ((updateV st.v res.SC res.spc res.minVal).getD j Dbl.nan)) (g i j) = true
      rw [updateU_getD st.u res.SR st.col4row res.spc res.minVal t i hul2,
        updateV_getD st.v res.SC res.spc res.minVal j hvl2]
      by_cases hit : i = t
      · subst hit
        rw [if_pos rfl, ha, hmv, Dbl.add_fin]
        have hsd := (hSDf i ht hSRt j hj).1 rfl
        by_cases hscj : res.SC.getD j false = true
        · obtain ⟨dj, hdj⟩ := (hS6f j hj hscj).2
          rw [if_pos hscj, hb, hdj, Dbl.sub_fin, Dbl.sub_fin, Dbl.add_fin]
          rcases hgc : g i j with _ | _ | _ | gq
          · exact absurd hgc (hgood i j hi hj).1
          · exact absurd hgc (hgood i j hi hj).2
          · exact Dbl.ble_fin_pinf _
          · have hrc2 : redcost g st.u st.v i j = Dbl.fin (gq - a - b) := by
              rw [redcost, hgc, ha, hb, Dbl.sub_fin, Dbl.sub_fin]
            rw [hdj, hrc2, Dbl.add_fin, Dbl.ble_fin_iff] at hsd
            rw [Dbl.ble_fin_iff]
            exact le_of_sub_eq hsd (by abel)
        · rw [if_neg hscj, hb, Dbl.add_fin]
          have hscj2 : res.SC.getD j false = false := by
            cases h2 : res.SC.getD j false with
            | true => exact absurd h2 hscj
            | false => rfl
          have hkey := Dbl.ble_trans (hA4 j hj hscj2) hsd
          rcases hgc : g i j with _ | _ | _ | gq
          · exact absurd hgc (hgood i j hi hj).1
          · exact absurd hgc (hgood i j hi hj).2
          · exact Dbl.ble_fin_pinf _
          · have hrc2 : redcost g st.u st.v i j = Dbl.fin (gq - a - b) := by
              rw [redcost, hgc, ha, hb, Dbl.sub_fin, Dbl.sub_fin]
            rw [hmv, hrc2, Dbl.add_fin, Dbl.ble_fin_iff] at hkey
            rw [Dbl.ble_fin_iff]
            exact le_of_sub_eq hkey (by abel)
      · rw [if_neg hit]
        cases hSRv : res.SR.getD i false with
        | true =>
          rw [if_pos rfl]
          obtain ⟨jm, hjmlt, hjmSC, hjmrc, hjmc4r⟩ := hSRstatus i hi hSRv hit
          obtain ⟨djm, hdjm⟩ := (hS6f jm hjmlt hjmSC).2
          rw [hjmc4r]
          simp only [Option.getD_some]
          rw [ha, hmv, hdjm, Dbl.sub_fin, Dbl.add_fin]
          have hsd := (hSDf i hi hSRv j hj).2 jm hjmlt hjmSC hjmrc
          by_cases hscj : res.SC.getD j false = true
          · obtain ⟨dj, hdj⟩ := (hS6f j hj hscj).2
            rw [if_pos hscj, hb, hdj, Dbl.sub_fin, Dbl.sub_fin, Dbl.add_fin]
            rcases hgc : g i j with _ | _ | _ | gq
            · exact absurd hgc (hgood i j hi hj).1
            · exact absurd hgc (hgood i j hi hj).2
            · exact Dbl.ble_fin_pinf _
            · have hrc2 : redcost g st.u st.v i j = Dbl.fin (gq - a - b) := by
                rw [redcost, hgc, ha, hb, Dbl.sub_fin, Dbl.sub_fin]
              rw [hdj, hdjm, hrc2, Dbl.add_fin, Dbl.ble_fin_iff] at hsd
              rw [Dbl.ble_fin_iff]
              exact le_of_sub_eq hsd (by abel)
          · rw [if_neg hscj, hb, Dbl.add_fin]
            have hscj2 : res.SC.getD j false = false := by
              cases h2 : res.SC.getD j false with
              | true => exact absurd h2 hscj
              | false => rfl
            have hkey := Dbl.ble_trans (hA4 j hj hscj2) hsd
            rcases hgc : g i j with _ | _ | _ | gq
            · exact absurd hgc (hgood i j hi hj).1
            · exact absurd hgc (hgood i j hi hj).2
            · exact Dbl.ble_fin_pinf _
            · have hrc2 : redcost g st.u st.v i j = Dbl.fin (gq - a - b) := by
                rw [redcost, hgc, ha, hb, Dbl.sub_fin, Dbl.sub_fin]
              rw [hmv, hdjm, hrc2, Dbl.add_fin, Dbl.ble_fin_iff] at hkey
              rw [Dbl.ble_fin_iff]
              exact le_of_sub_eq hkey (by abel)
        | false =>
          rw [if_neg (by simp)]
          have hitlt : i < t := by omega
          have hfeold := hfe i j hitlt hj
          by_cases hscj : res.SC.getD j false = true
          · obtain ⟨dj, hdj⟩ := (hS6f j hj hscj).2
            have hdjle := (hS6f j hj hscj).1
            rw [hdj, hmv, Dbl.ble_fin_iff] at hdjle
            rw [if_pos hscj, ha, hb, hmv, hdj, Dbl.sub_fin, Dbl.sub_fin, Dbl.add_fin]
            rcases hgc : g i j with _ | _ | _ | gq
            · exact absurd hgc (hgood i j hi hj).1
            · exact absurd hgc (hgood i j hi hj).2
            · exact Dbl.ble_fin_pinf _
            · rw [ha, hb, Dbl.add_fin, hgc, Dbl.ble_fin_iff] at hfeold
              rw [Dbl.ble_fin_iff]
              have h3 : a + (b - (mv - dj)) ≤ a + b :=
                le_of_sub_eq hdjle (by abel)
              exact le_trans h3 hfeold
          · rw [if_neg hscj]
            exact hfeold
    · -- tightness of the updated duals on matched pairs
      intro i j hc
      show Dbl.add
        ((updateU st.u res.SR st.col4row res.spc res.minVal t).getD i Dbl.nan)
        ((updateV st.v res.SC res.spc res.minVal).getD j Dbl.nan) = g i j
      rcases wC4 i j hc with horig | ⟨hjlt, hjSC2, hjpath⟩
      · have hr4cj := (hc2r i j horig).2
        have hjlt := (hc2r i j horig).1
        have hi : i < nr := (hr2c j i hr4cj).1
        have hit : i ≠ t := by
          intro he
          rw [he, htu2] at horig
          cases horig
        obtain ⟨a, ha⟩ := huf i hi
        obtain ⟨b, hb⟩ := hvf j hjlt
        have hul2 : i < st.u.length := by rw [hul]; exact hi
        have hvl2 : j < st.v.length := by rw [hvl]; exact hjlt
        rw [updateU_getD st.u res.SR st.col4row res.spc res.minVal t i hul2,
          updateV_getD st.v res.SC res.spc res.minVal j hvl2]
        rw [if_neg hit]
        cases hSRv : res.SR.getD i false with
        | true =>
          rw [if_pos rfl]
          obtain ⟨jm, hjmlt, hjmSC, hjmrc, hjmc4r⟩ := hSRstatus i hi hSRv hit
          have hje : jm = j := by
            rw [horig] at hjmc4r
            injection hjmc4r with h3
            exact h3.symm
          subst hje
          rw [hjmc4r]
          simp only [Option.getD_some]
          rw [if_pos hjmSC]
          obtain ⟨dj, hdj⟩ := (hS6f jm hjmlt hjmSC).2
          rw [ha, hb, hmv, hdj, Dbl.sub_fin, Dbl.sub_fin,
            Dbl.add_fin, Dbl.add_fin]
          have htij := hti i jm horig
          rw [ha, hb, Dbl.add_fin] at htij
          rw [← htij]
          congr 1
          abel
        | false =>
          have hjSCf : res.SC.getD j false = false := by
            cases hsc : res.SC.getD j false with
            | true =>
              have := (hSRcharf i hi).mpr (Or.inr ⟨j, hjlt, hsc, hr4cj⟩)
              rw [hSRv] at this
              cases this
            | false => rfl
          rw [if_neg (by simp), if_neg (by rw [hjSCf]; simp)]
          exact hti i j horig
      · obtain ⟨p0, hp0lt, hp0SR, hp0path, hrest⟩ := hWRTf j hjlt hjSC2
        have hpe : p0 = i := by
          rw [hjpath] at hp0path
          injection hp0path with h3
          exact h3.symm
        subst hpe
        obtain ⟨a, ha⟩ := huf p0 hp0lt
        obtain ⟨b, hb⟩ := hvf j hjlt
        obtain ⟨dj, hdj⟩ := (hS6f j hjlt hjSC2).2
        have hul2 : p0 < st.u.length := by rw [hul]; exact hp0lt
        have hvl2 : j < st.v.length := by rw [hvl]; exact hjlt
        rw [updateU_getD st.u res.SR st.col4row res.spc res.minVal t p0 hul2,
          updateV_getD st.v res.SC res.spc res.minVal j hvl2]
        rw [if_pos hjSC2]
        rcases hrest with ⟨hpt, heq⟩ | ⟨jp, hjplt, hjpSC, hjprc, heq⟩
        · rw [if_pos hpt]
          rcases hgc : g p0 j with _ | _ | _ | gq
          · exact absurd hgc (hgood p0 j hp0lt hjlt).1
          · exact absurd hgc (hgood p0 j hp0lt hjlt).2
          · exfalso
            rw [redcost, hgc, ha, hb] at heq
            simp only [Dbl.sub, Dbl.neg, Dbl.add] at heq
            rw [hdj] at heq
            cases heq
          · have hrc2 : redcost g st.u st.v p0 j = Dbl.fin (gq - a - b) := by
              rw [redcost, hgc, ha, hb, Dbl.sub_fin, Dbl.sub_fin]
            rw [hrc2, Dbl.add_fin, hdj] at heq
            injection heq with hdje
            rw [ha, hb, hmv, hdj, Dbl.sub_fin, Dbl.sub_fin, Dbl.add_fin,
              Dbl.add_fin]
            congr 1
            rw [hdje]
            abel
        · have hit : p0 ≠ t := hntF jp p0 hjprc
          rw [if_neg hit]
          rw [hp0SR, if_pos rfl]
          have hc4ri : st.col4row.getD p0 none = some jp := (hr2c jp p0 hjprc).2
          rw [hc4ri]
          simp only [Option.getD_some]
          obtain ⟨djp, hdjp⟩ := (hS6f jp hjplt hjpSC).2
          rcases hgc : g p0 j with _ | _ | _ | gq
          · exact absurd hgc (hgood p0 j hp0lt hjlt).1
          · exact absurd hgc (hgood p0 j hp0lt hjlt).2
          · exfalso
            rw [redcost, hgc, ha, hb] at heq
            simp only [Dbl.sub, Dbl.neg, Dbl.add] at heq
            rw [hdj, hdjp] at heq
            cases heq
          · have hrc2 : redcost g st.u st.v p0 j = Dbl.fin (gq - a - b) := by
              rw [redcost, hgc, ha, hb, Dbl.sub_fin, Dbl.sub_fin]
            rw [hrc2, hdjp, Dbl.add_fin, hdj] at heq
            injection heq with hdje
            rw [ha, hb, hmv, hdj, hdjp, Dbl.sub_fin, Dbl.sub_fin,
              Dbl.sub_fin, Dbl.add_fin, Dbl.add_fin]
            congr 1
            rw [hdje]
            abel
    · -- column potentials stay nonpositive
      intro j hj
      have hvl2 : j < st.v.length := by rw [hvl]; exact hj
      obtain ⟨b, hb⟩ := hvf j hj
      show Dbl.ble ((updateV st.v res.SC res.spc res.minVal).getD j Dbl.nan)
        (Dbl.fin 0) = true
      rw [updateV_getD st.v res.SC res.spc res.minVal j hvl2]
      by_cases hscj : res.SC.getD j false = true
      · obtain ⟨dj, hdj⟩ := (hS6f j hj hscj).2
        have hdjle := (hS6f j hj hscj).1
        rw [hdj, hmv, Dbl.ble_fin_iff] at hdjle
        have hvnj := hvn j hj
        rw [hb, Dbl.ble_fin_iff] at hvnj
        rw [if_pos hscj, hb, hmv, hdj, Dbl.sub_fin, Dbl.sub_fin, Dbl.ble_fin_iff]
        have h3 : b - (mv - dj) ≤ b := le_of_sub_eq hdjle (by abel)
        exact le_trans h3 hvnj
      · rw [if_neg hscj]
        exact hvn j hj
    · -- unmatched columns keep potential zero
      intro j hj hnone2
      have hvl2 : j < st.v.length := by rw [hvl]; exact hj
      have hjr4c : st.row4col.getD j none = none := by
        cases hcase : st.row4col.getD j none with
        | none => rfl
        | some i0 =>
          have := wC7 j (by rw [hcase]; rfl)
          rw [hnone2] at this
          cases this
      have hSCj : res.SC.getD j false = false := by
        cases hsc : res.SC.getD j false with
        | false => rfl
        | true =>
          exfalso
          by_cases hsink : j = res.sink
          · obtain ⟨p0, _, _, hp0path, _⟩ := hWRTf j hj hsc
            rw [hsink] at hnone2 hp0path
            rw [wC8, hp0path] at hnone2
            cases hnone2
          · obtain ⟨i0, hi0, hrcj⟩ := hSCM j hj hsc hsink
            rw [hrcj] at hjr4c
            cases hjr4c
      show (updateV st.v res.SC res.spc res.minVal).getD j Dbl.nan = Dbl.fin 0
      rw [updateV_getD st.v res.SC res.spc res.minVal j hvl2]
      rw [if_neg (by rw [hSCj]; simp)]
      exact hv0 j hj hjr4c

/-- The initial driver state satisfies the invariant with no rows done. -/
theorem initState_MInv (g : Nat → Nat → Dbl α) (nr nc : Nat) :
    MInv g nr nc 0 (initState nr nc : DriverState α) := by
  have hrepl : ∀ (m k : Nat), (List.replicate m (none : Option Nat)).getD k none = none :=
    fun m k => getD_replicate_none m k
  refine ⟨by simp [initState], by simp [initState], by simp [initState],
    by simp [initState], by simp [initState], ?_, ?_, ?_, ?_, ?_, ?_, ?_, ?_, ?_, ?_⟩
  · intro i hi
    exact ⟨0, getD_replicate (Dbl.fin 0) Dbl.nan hi⟩
  · intro j hj
    exact ⟨0, getD_replicate (Dbl.fin 0) Dbl.nan hj⟩
  · intro i j h
    rw [show (initState nr nc : DriverState α).col4row = List.replicate nr none from rfl,
      hrepl] at h
    cases h
  · intro j i h
    rw [show (initState nr nc : DriverState α).row4col = List.replicate nc none from rfl,
      hrepl] at h
    cases h
  · intro i hi
    rw [show (initState nr nc : DriverState α).col4row = List.replicate nr none from rfl,
      hrepl]
    simp
  · intro i j h
    omega
  · intro i j h
    rw [show (initState nr nc : DriverState α).col4row = List.replicate nr none from rfl,
      hrepl] at h
    cases h
  · intro j hj
    rw [show (initState nr nc : DriverState α).v = List.replicate nc (Dbl.fin 0) from rfl,
      getD_replicate (Dbl.fin 0) Dbl.nan hj]
    exact Dbl.ble_refl (by simp)
  · intro j hj _
    exact getD_replicate (Dbl.fin 0) Dbl.nan hj
  · intro j p h
    rw [show (initState nr nc : DriverState α).path = List.replicate nc none from rfl,
      hrepl] at h
    cases h

/-- The main loop preserves the driver invariant across any number of
iterations. -/
theorem mainLoop_MInv (g : Nat → Nat → Dbl α) (nr nc : Nat)
    (hgood : ∀ i2 j2, i2 < nr → j2 < nc → g i2 j2 ≠ Dbl.nan ∧ g i2 j2 ≠ Dbl.ninf) :
    ∀ (rowsLeft t : Nat) (st st2 : DriverState α), t + rowsLeft ≤ nr →
      MInv g nr nc t st → mainLoop g nc t rowsLeft st = some st2 →
      MInv g nr nc (t + rowsLeft) st2 := by
  intro rowsLeft
  induction rowsLeft with
  | zero =>
    intro t st st2 _ hM h
    simp only [mainLoop] at h
    injection h with h2
    subst h2
    simpa using hM
  | succ n ih =>
    intro t st st2 hle hM h
    simp only [mainLoop] at h
    rcases hstep : solveStep g nc t st with _ | stm
    · rw [hstep] at h
      cases h
    · rw [hstep] at h
      have hM2 := solveStep_MInv g nr nc t hgood st stm hM (by omega) hstep
      have hres := ih (t + 1) stm st2 (by omega) hM2 h
      have e : t + (n + 1) = (t + 1) + n := by omega
      rw [e]
      exact hres

/-- Splitting a main-loop run into a prefix and a remainder. -/
theorem mainLoop_split (g : Nat → Nat → Dbl α) (nc : Nat) :
    ∀ (t1 rows t : Nat) (st : DriverState α),
      mainLoop g nc t (t1 + rows) st =
        (match mainLoop g nc t t1 st with
         | none => none
         | some st3 => mainLoop g nc (t + t1) rows st3) := by
  intro t1
  induction t1 with
  | zero =>
    intro rows t st
    simp [mainLoop]
  | succ n ih =>
    intro rows t st
    have e : (n + 1) + rows = (n + rows) + 1 := by omega
    rw [e]
    simp only [mainLoop]
    rcases hstep : solveStep g nc t st with _ | st2
    · simp only [hstep]
    · simp only [hstep]
      rw [ih rows (t + 1) st2, show t + 1 + n = t + (n + 1) from by omega]

/-- C6: in exact arithmetic, after every dual-variable update of the main
loop (that is, after any number t of completed iterations of a successful
run on a cost view free of NaN and targeted infinities) the duals remain
feasible: every matched pair (i, col4row[i]) is tight,
u[i] + v[col4row[i]] = C_view(i, col4row[i]), and for every row processed
so far and every column, u[i] + v[j] <= C_view(i, j). -/
theorem C6_dual_feasibility (g : Nat → Nat → Dbl α) (nr nc : Nat)
    (hgood : ∀ i j, i < nr → j < nc → g i j ≠ Dbl.nan ∧ g i j ≠ Dbl.ninf)
    (t : Nat) (ht : t ≤ nr) (st : DriverState α)
    (h : mainLoop g nc 0 t (initState nr nc) = some st) :
    (∀ i j, st.col4row.getD i none = some j →
      Dbl.add (st.u.getD i Dbl.nan) (st.v.getD j Dbl.nan) = g i j) ∧
    (∀ i j, i < t → j < nc →
      Dbl.ble (Dbl.add (st.u.getD i Dbl.nan) (st.v.getD j Dbl.nan)) (g i j) = true) := by
  have hM := mainLoop_MInv g nr nc hgood t 0 (initState nr nc) st (by omega)
    (initState_MInv g nr nc) h
  rw [Nat.zero_add] at hM
  obtain ⟨_, _, _, _, _, _, _, _, _, _, hfe, hti, _, _, _⟩ := hM
  exact ⟨hti, hfe⟩

/-- Witness for C6 on the 2 x 2 all-ones matrix after one completed
iteration of the main loop. -/
theorem C6_dual_feasibility_witness :
    ((∀ i j : Nat, i < 2 → j < 2 →
        (fun _ _ => Dbl.fin (1 : Int)) i j ≠ Dbl.nan ∧
        (fun _ _ => Dbl.fin (1 : Int)) i j ≠ Dbl.ninf) ∧
      1 ≤ 2 ∧
      mainLoop (fun _ _ => Dbl.fin (1 : Int)) 2 0 1 (initState 2 2) =
        some ⟨[Dbl.fin 1, Dbl.fin 0], [Dbl.fin 0, Dbl.fin 0], [some 0, some 0],
          [some 0, none], [some 0, none]⟩) ∧
    ((∀ i j, (⟨[Dbl.fin 1, Dbl.fin 0], [Dbl.fin 0, Dbl.fin 0], [some 0, some 0],
          [some 0, none], [some 0, none]⟩ : DriverState Int).col4row.getD i none
            = some j →
        Dbl.add ((⟨[Dbl.fin 1, Dbl.fin 0], [Dbl.fin 0, Dbl.fin 0], [some 0, some 0],
          [some 0, none], [some 0, none]⟩ : DriverState Int).u.getD i Dbl.nan)
          ((⟨[Dbl.fin 1, Dbl.fin 0], [Dbl.fin 0, Dbl.fin 0], [some 0, some 0],
          [some 0, none], [some 0, none]⟩ : DriverState Int).v.getD j Dbl.nan) =
          (fun _ _ => Dbl.fin (1 : Int)) i j) ∧
      (∀ i j, i < 1 → j < 2 →
        Dbl.ble (Dbl.add ((⟨[Dbl.fin 1, Dbl.fin 0], [Dbl.fin 0, Dbl.fin 0],
            [some 0, some 0], [some 0, none], [some 0, none]⟩ :
              DriverState Int).u.getD i Dbl.nan)
          ((⟨[Dbl.fin 1, Dbl.fin 0], [Dbl.fin 0, Dbl.fin 0], [some 0, some 0],
            [some 0, none], [some 0, none]⟩ : DriverState Int).v.getD j Dbl.nan))
          ((fun _ _ => Dbl.fin (1 : Int)) i j) = true)) :=
  ⟨⟨fun _ _ _ _ => ⟨by simp, by simp⟩, by omega, by decide⟩,
    C6_dual_feasibility (fun _ _ => Dbl.fin (1 : Int)) 2 2
      (fun _ _ _ _ => ⟨by simp, by simp⟩) 1 (by omega)
      ⟨[Dbl.fin 1, Dbl.fin 0], [Dbl.fin 0, Dbl.fin 0], [some 0, some 0],
        [some 0, none], [some 0, none]⟩ (by decide)⟩

/-!
Distinctness of the emitted assignment (claim C5).
-/

theorem badEntry_anatomy (maximize : Bool) (c : Dbl α)
    (h : badEntry maximize c = false) :
    c ≠ Dbl.nan ∧ (maximize = true → c ≠ Dbl.pinf) ∧
      (maximize = false → c ≠ Dbl.ninf) := by
  rw [badEntry] at h
  cases c <;> cases maximize <;> simp_all [Dbl.bne, Dbl.beq]

theorem neg_good {r : Dbl α} (h1 : r ≠ Dbl.nan) (h2 : r ≠ Dbl.pinf) :
    Dbl.neg r ≠ Dbl.nan ∧ Dbl.neg r ≠ Dbl.ninf := by
  cases r <;> simp_all [Dbl.neg]

/-- In-range reads of a validated cost view are free of NaN and of minus
infinity (the targeted infinity after the optional negation). -/
theorem matget_good (cost : List (Dbl α)) (nr nc : Nat) (tf maximize : Bool)
    (ro co : Option (List Int))
    (hvalid : ∀ idx, idx < nr * nc → badEntry maximize (cost.getD idx Dbl.nan) = false)
    (i j : Nat)
    (hrow : (match ro with
      | some P => (P.getD (if tf then j else i) 0).toNat < nr
      | none => (if tf then j else i) < nr))
    (hcol : (match co with
      | some Q => (Q.getD (if tf then i else j) 0).toNat < nc
      | none => (if tf then i else j) < nc)) :
    Matrix2d.get (⟨cost, nr, nc, tf, maximize, ro, co⟩ : Matrix2d α) i j ≠ Dbl.nan ∧
    Matrix2d.get (⟨cost, nr, nc, tf, maximize, ro, co⟩ : Matrix2d α) i j ≠ Dbl.ninf := by
  rw [Matrix2d.get]
  simp only []
  rcases ro with _ | P <;> rcases co with _ | Q
  all_goals (
    simp only [] at hrow hcol
    first
    | (have hflat := hvalid _ (flat_lt hrow hcol))
    | skip)
  all_goals (
    obtain ⟨h1, h2, h3⟩ := badEntry_anatomy maximize _ (hvalid _ (flat_lt hrow hcol))
    cases hmx : maximize with
    | true =>
      exact neg_good h1 (h2 hmx)
    | false =>
      exact ⟨h1, h3 hmx⟩)

theorem nodup_getD_inj2 {β : Type} {l : List β} (d : β) (hnd : l.Nodup) {p q : Nat}
    (hp : p < l.length) (hq : q < l.length) (he : l.getD p d = l.getD q d) : p = q := by
  rw [getD_eq_getElem d hp, getD_eq_getElem d hq] at he
  exact (List.Nodup.getElem_inj_iff hnd).mp he

/-- Remapping a Nodup list of in-range indices through a Nodup selector
keeps the entries pairwise distinct. -/
theorem nodup_remap (L : List Int) (hL : L.Nodup) (wlist : List Int) (hw : wlist.Nodup)
    (hb : ∀ x ∈ wlist, 0 ≤ x ∧ x < (L.length : Int)) :
    (wlist.map (fun x => L.getD x.toNat 0)).Nodup := by
  apply List.Nodup.map_on ?_ hw
  intro x hx y hy he
  obtain ⟨hx0, hx1⟩ := hb x hx
  obtain ⟨hy0, hy1⟩ := hb y hy
  have hxl : x.toNat < L.length := by omega
  have hyl : y.toNat < L.length := by omega
  have := nodup_getD_inj2 0 hL hxl hyl he
  omega

/-- On success the driver emits pairwise distinct working row indices and
pairwise distinct working column indices, all in range. -/
theorem solveDriver_distinct (g : Nat → Nat → Dbl α) (nrW ncW : Nat) (tf : Bool)
    (hgood : ∀ i j, i < nrW → j < ncW → g i j ≠ Dbl.nan ∧ g i j ≠ Dbl.ninf)
    (aw bw : List Int) (h : solveDriver g nrW ncW tf = some (aw, bw)) :
    aw.Nodup ∧ bw.Nodup ∧
    (∀ x ∈ aw, 0 ≤ x ∧ x < ((if tf then ncW else nrW : Nat) : Int)) ∧
    (∀ x ∈ bw, 0 ≤ x ∧ x < ((if tf then nrW else ncW : Nat) : Int)) := by
  rw [solveDriver] at h
  rcases hml : mainLoop g ncW 0 nrW (initState nrW ncW) with _ | st
  · rw [hml] at h
    cases h
  · rw [hml] at h
    simp only [] at h
    have hM := mainLoop_MInv g nrW ncW hgood nrW 0 (initState nrW ncW) st (by omega)
      (initState_MInv g nrW ncW) hml
    rw [Nat.zero_add] at hM
    obtain ⟨hul, hvl, hpl, hcl, hrl, _, _, hc2r, hr2c, hmr, _, _, _, _, _⟩ := hM
    have hc4r_some : ∀ i, i < nrW → ∃ j, st.col4row.getD i none = some j ∧ j < ncW := by
      intro i hi
      have hs := (hmr i hi).mpr hi
      rcases hcase : st.col4row.getD i none with _ | j
      · rw [hcase] at hs
        cases hs
      · exact ⟨j, rfl, (hc2r i j hcase).1⟩
    have hc4r_inj : ∀ i1 i2 j, st.col4row.getD i1 none = some j →
        st.col4row.getD i2 none = some j → i1 = i2 := by
      intro i1 i2 j h1 h2
      have e1 := (hc2r i1 j h1).2
      have e2 := (hc2r i2 j h2).2
      rw [e1] at e2
      exact Option.some.inj e2
    have hcllen : (st.col4row.map optToInt).length = nrW := by
      rw [List.length_map, hcl]
    have hclval : ∀ i, i < nrW → ∃ j, j < ncW ∧
        (st.col4row.map optToInt).getD i 0 = (j : Int) ∧
        st.col4row.getD i none = some j := by
      intro i hi
      obtain ⟨j, hj, hjlt⟩ := hc4r_some i hi
      refine ⟨j, hjlt, ?_, hj⟩
      rw [getD_map optToInt st.col4row i 0 none (by rw [hcl]; exact hi), hj]
      rfl
    have hclinj : ∀ i1 i2, i1 < nrW → i2 < nrW →
        (st.col4row.map optToInt).getD i1 0 = (st.col4row.map optToInt).getD i2 0 →
        i1 = i2 := by
      intro i1 i2 h1 h2 he
      obtain ⟨j1, hj1lt, he1, hs1⟩ := hclval i1 h1
      obtain ⟨j2, hj2lt, he2, hs2⟩ := hclval i2 h2
      rw [he1, he2] at he
      have hje : j1 = j2 := by omega
      subst hje
      exact hc4r_inj i1 i2 j1 hs1 hs2
    cases tf with
    | false =>
      rw [if_neg (by simp)] at h
      injection h with h2
      injection h2 with ha hb
      subst ha
      subst hb
      refine ⟨List.Nodup.map (fun x y h3 => Int.ofNat.inj h3) (List.nodup_range nrW), ?_, ?_, ?_⟩
      · apply List.Nodup.map_on ?_ (List.nodup_range nrW)
        intro x hx y hy he
        exact hclinj x y (List.mem_range.mp hx) (List.mem_range.mp hy) he
      · intro x hx
        rw [List.mem_map] at hx
        obtain ⟨i, hi, he⟩ := hx
        rw [List.mem_range] at hi
        subst he
        rw [if_neg (by simp)]
        simp only [Int.ofNat_eq_natCast]
        omega
      · intro x hx
        rw [List.mem_map] at hx
        obtain ⟨i, hi, he⟩ := hx
        rw [List.mem_range] at hi
        obtain ⟨j, hjlt, hje, _⟩ := hclval i hi
        rw [← he, hje, if_neg (by simp)]
        omega
    | true =>
      rw [if_pos rfl] at h
      injection h with h2
      injection h2 with ha hb
      subst ha
      subst hb
      have hperm : List.Perm (argsort_iter (st.col4row.map optToInt))
          (List.range (st.col4row.map optToInt).length) := by
        rw [argsort_iter]
        exact List.perm_insertionSort _ _
      have hordnd : (argsort_iter (st.col4row.map optToInt)).Nodup :=
        hperm.nodup_iff.mpr (List.nodup_range _)
      have hordmem : ∀ x, x ∈ argsort_iter (st.col4row.map optToInt) → x < nrW := by
        intro x hx
        have := hperm.mem_iff.mp hx
        rw [List.mem_range, hcllen] at this
        exact this
      refine ⟨?_, ?_, ?_, ?_⟩
      · apply List.Nodup.map_on ?_ hordnd
        intro x hx y hy he
        exact hclinj x y (hordmem x hx) (hordmem y hy) he
      · exact List.Nodup.map (fun x y h3 => Int.ofNat.inj h3) hordnd
      · intro x hx
        rw [List.mem_map] at hx
        obtain ⟨i, hi, he⟩ := hx
        obtain ⟨j, hjlt, hje, _⟩ := hclval i (hordmem i hi)
        rw [← he, hje, if_pos rfl]
        omega
      · intro x hx
        rw [List.mem_map] at hx
        obtain ⟨i, hi, he⟩ := hx
        have := hordmem i hi
        rw [← he, if_pos rfl]
        simp only [Int.ofNat_eq_natCast]
        omega

/-- The driver on zero working rows returns the empty assignment. -/
theorem solveDriver_zero (g : Nat → Nat → Dbl α) (ncW : Nat) (tf : Bool) :
    solveDriver g 0 ncW tf = some ([], []) := by
  cases tf <;> simp [solveDriver, mainLoop, initState, argsort_iter]

/-- Bounds of the checked prefix entries of a selector of true length. -/
theorem subInBounds_mem (bound : Int) (L : List Int)
    (h : subInBounds bound (L.length : Int) L = true) :
    ∀ x ∈ L, 0 ≤ x ∧ x < bound := by
  intro x hx
  obtain ⟨k, hk, hke⟩ := List.mem_iff_getElem.mp hx
  rw [subInBounds, List.all_eq_true] at h
  have h2 := h k (by rw [Int.toNat_natCast]; exact List.mem_range.mpr hk)
  rw [getD_eq_getElem 0 hk, hke] at h2
  simp only [Bool.and_eq_true, decide_eq_true_eq] at h2
  exact h2

/-- solve with only a column selector installed: the row-count bug makes
the working row count zero and the output empty. -/
theorem solve_rowempty (nr nc : Nat) (cost : List (Dbl α)) (maximize : Bool)
    (Q : List Int) (h0 : ¬(nr = 0 ∨ nc = 0))
    (hval : ((List.range (nr * nc)).any
      (fun idx => badEntry maximize (cost.getD idx Dbl.nan))) = false)
    (hQnn : Q ≠ []) (hQB : subInBounds (nc : Int) (Q.length : Int) Q = true) :
    solve nr nc cost maximize [] 0 Q (Q.length : Int) = ⟨Status.ok, [], []⟩ := by
  have hQpos : 0 < Q.length := List.length_pos.mpr hQnn
  rw [solve, if_neg h0, if_neg (by rw [hval]; simp), if_neg (by omega),
    if_neg (by rintro ⟨hh, _⟩; omega), if_neg (by omega),
    if_neg (by rw [hQB]; rintro ⟨_, hh⟩; cases hh)]
  simp only [if_pos rfl, if_neg (show ¬((Q.length : Int) = 0) by omega),
    Option.isSome_none, Option.isSome_some, Bool.false_or, if_true, Int.toNat_zero,
    Int.toNat_natCast]
  rw [if_neg (by simp), show (decide (Q.length < 0) : Bool) = false by simp]
  simp [solveDriver_zero, finishSolve]

/-- solve with only a row selector installed: the working matrix is
transposed onto zero working rows and the output is empty. -/
theorem solve_colempty (nr nc : Nat) (cost : List (Dbl α)) (maximize : Bool)
    (P : List Int) (h0 : ¬(nr = 0 ∨ nc = 0))
    (hval : ((List.range (nr * nc)).any
      (fun idx => badEntry maximize (cost.getD idx Dbl.nan))) = false)
    (hPnn : P ≠ []) (hPB : subInBounds (nr : Int) (P.length : Int) P = true) :
    solve nr nc cost maximize P (P.length : Int) [] 0 = ⟨Status.ok, [], []⟩ := by
  have hPpos : 0 < P.length := List.length_pos.mpr hPnn
  rw [solve, if_neg h0, if_neg (by rw [hval]; simp), if_neg (by omega),
    if_neg (by rw [hPB]; rintro ⟨_, hh⟩; cases hh), if_neg (by omega),
    if_neg (by rintro ⟨hh, _⟩; omega)]
  simp only [if_pos rfl, if_neg (show ¬((P.length : Int) = 0) by omega),
    Option.isSome_none, Option.isSome_some, Bool.or_false, if_true, Int.toNat_zero,
    Int.toNat_natCast]
  rw [show (decide ((0 : Nat) < P.length) : Bool) = true by simp [hPpos]]
  simp [solveDriver_zero, finishSolve]

/-- C5 (amended): whenever the selectors are free of repetitions (an
absent selector is the empty list), every successful solve emits pairwise
distinct a values and pairwise distinct b values.  (With repeated
selector entries the claim fails, see the counterexample.) -/
theorem C5_distinct_amended (nr nc : Nat) (cost : List (Dbl α)) (maximize : Bool)
    (P Q : List Int) (hPnd : P.Nodup) (hQnd : Q.Nodup) (a b : List Int)
    (h : solve nr nc cost maximize P (P.length : Int) Q (Q.length : Int)
      = ⟨Status.ok, a, b⟩) :
    a.Nodup ∧ b.Nodup := by
  by_cases h0 : nr = 0 ∨ nc = 0
  · rw [solve, if_pos h0, SolveResult.mk.injEq] at h
    obtain ⟨_, ha, hb⟩ := h
    rw [← ha, ← hb]
    exact ⟨List.nodup_nil, List.nodup_nil⟩
  · by_cases hvalB : ((List.range (nr * nc)).any
        (fun idx => badEntry maximize (cost.getD idx Dbl.nan))) = true
    · rw [solve, if_neg h0, if_pos hvalB, SolveResult.mk.injEq] at h
      exact absurd h.1 (by simp)
    · have hval : ((List.range (nr * nc)).any
          (fun idx => badEntry maximize (cost.getD idx Dbl.nan))) = false := by
        cases hc : ((List.range (nr * nc)).any
            (fun idx => badEntry maximize (cost.getD idx Dbl.nan))) with
        | true => exact absurd hc hvalB
        | false => rfl
      have hvalid : ∀ idx, idx < nr * nc →
          badEntry maximize (cost.getD idx Dbl.nan) = false := by
        rw [List.any_eq_false] at hval
        intro idx hidx
        rw [← Bool.not_eq_true]
        exact hval idx (List.mem_range.mpr hidx)
      by_cases hPe : P = []
      · by_cases hQe : Q = []
        · subst hPe
          subst hQe
          simp only [List.length_nil, Nat.cast_zero] at h
          rw [solve_nosub_reduce nr nc cost maximize (by omega) (by omega) hval] at h
          rcases hdrv : solveDriver (Matrix2d.get
              (⟨cost, nr, nc, decide (nc < nr), maximize, none, none⟩ : Matrix2d α))
              (if nc < nr then nc else nr) (if nc < nr then nr else nc)
              (decide (nc < nr)) with _ | pr
          · rw [hdrv] at h
            rw [finishSolve, SolveResult.mk.injEq] at h
            exact absurd h.1 (by simp)
          · rcases pr with ⟨aw, bw⟩
            rw [hdrv] at h
            simp only [finishSolve, SolveResult.mk.injEq] at h
            obtain ⟨_, ha, hb⟩ := h
            have hgood : ∀ i j, i < (if nc < nr then nc else nr) →
                j < (if nc < nr then nr else nc) →
                Matrix2d.get (⟨cost, nr, nc, decide (nc < nr), maximize,
                  none, none⟩ : Matrix2d α) i j ≠ Dbl.nan ∧
                Matrix2d.get (⟨cost, nr, nc, decide (nc < nr), maximize,
                  none, none⟩ : Matrix2d α) i j ≠ Dbl.ninf := by
              intro i j hi hj
              apply matget_good cost nr nc (decide (nc < nr)) maximize none none hvalid
              · simp only []
                by_cases hcc : nc < nr
                · rw [if_pos (by simpa using hcc)]
                  rw [if_pos hcc] at hj
                  exact hj
                · rw [if_neg (by simpa using hcc)]
                  rw [if_neg hcc] at hi
                  exact hi
              · simp only []
                by_cases hcc : nc < nr
                · rw [if_pos (by simpa using hcc)]
                  rw [if_pos hcc] at hi
                  exact hi
                · rw [if_neg (by simpa using hcc)]
                  rw [if_neg hcc] at hj
                  exact hj
            have hDD := solveDriver_distinct _ _ _ _ hgood aw bw hdrv
            rw [← ha, ← hb]
            exact ⟨hDD.1, hDD.2.1⟩
        · -- no row selector, column selector present: the C3 path
          have hQpos := List.length_pos.mpr hQe
          subst hPe
          simp only [List.length_nil, Nat.cast_zero] at h
          by_cases hQB : subInBounds (nc : Int) (Q.length : Int) Q = true
          · rw [solve_rowempty nr nc cost maximize Q h0 hval hQe hQB,
              SolveResult.mk.injEq] at h
            obtain ⟨_, ha, hb⟩ := h
            rw [← ha, ← hb]
            exact ⟨List.nodup_nil, List.nodup_nil⟩
          · have hQBf : subInBounds (nc : Int) (Q.length : Int) Q = false := by
              cases hc : subInBounds (nc : Int) (Q.length : Int) Q with
              | true => exact absurd hc hQB
              | false => rfl
            rw [solve, if_neg h0, if_neg (by rw [hval]; simp), if_neg (by omega),
              if_neg (by rintro ⟨hh, _⟩; omega), if_neg (by omega),
              if_pos ⟨by omega, hQBf⟩, SolveResult.mk.injEq] at h
            exact absurd h.1 (by simp)
      · -- row selector present, case on the column selector
        have hPpos := List.length_pos.mpr hPe
        by_cases hPB : subInBounds (nr : Int) (P.length : Int) P = true
        · by_cases hQe : Q = []
          · subst hQe
            simp only [List.length_nil, Nat.cast_zero] at h
            rw [solve_colempty nr nc cost maximize P h0 hval hPe hPB,
              SolveResult.mk.injEq] at h
            obtain ⟨_, ha, hb⟩ := h
            rw [← ha, ← hb]
            exact ⟨List.nodup_nil, List.nodup_nil⟩
          · -- both selectors present
            have hQpos := List.length_pos.mpr hQe
            by_cases hQB : subInBounds (nc : Int) (Q.length : Int) Q = true
            · have hPb := subInBounds_mem (nr : Int) P hPB
              have hQb := subInBounds_mem (nc : Int) Q hQB
              rw [solve_subscript_reduce nr nc cost maximize P Q (by omega) (by omega)
                hPe hQe hPb hQb hval] at h
              rcases hdrv : solveDriver (Matrix2d.get
                  (⟨cost, nr, nc, decide (Q.length < P.length), maximize,
                    some P, some Q⟩ : Matrix2d α))
                  (if Q.length < P.length then Q.length else P.length)
                  (if Q.length < P.length then P.length else Q.length)
                  (decide (Q.length < P.length)) with _ | pr
              · rw [hdrv] at h
                simp only [finishSolve, SolveResult.mk.injEq] at h
                exact absurd h.1 (by simp)
              · rcases pr with ⟨aw, bw⟩
                rw [hdrv] at h
                simp only [finishSolve, SolveResult.mk.injEq] at h
                obtain ⟨_, ha, hb⟩ := h
                have hgood : ∀ i j,
                    i < (if Q.length < P.length then Q.length else P.length) →
                    j < (if Q.length < P.length then P.length else Q.length) →
                    Matrix2d.get (⟨cost, nr, nc, decide (Q.length < P.length),
                      maximize, some P, some Q⟩ : Matrix2d α) i j ≠ Dbl.nan ∧
                    Matrix2d.get (⟨cost, nr, nc, decide (Q.length < P.length),
                      maximize, some P, some Q⟩ : Matrix2d α) i j ≠ Dbl.ninf := by
                  intro i j hi hj
                  apply matget_good cost nr nc (decide (Q.length < P.length))
                    maximize (some P) (some Q) hvalid
                  · simp only []
                    by_cases hcc : Q.length < P.length
                    · rw [if_pos (by simpa using hcc)]
                      rw [if_pos hcc] at hj
                      have hmem : P.getD j 0 ∈ P := getD_mem 0 hj
                      have := hPb _ hmem
                      omega
                    · rw [if_neg (by simpa using hcc)]
                      rw [if_neg hcc] at hi
                      have hmem : P.getD i 0 ∈ P := getD_mem 0 hi
                      have := hPb _ hmem
                      omega
                  · simp only []
                    by_cases hcc : Q.length < P.length
                    · rw [if_pos (by simpa using hcc)]
                      rw [if_pos hcc] at hi
                      have hmem : Q.getD i 0 ∈ Q := getD_mem 0 hi
                      have := hQb _ hmem
                      omega
                    · rw [if_neg (by simpa using hcc)]
                      rw [if_neg hcc] at hj
                      have hmem : Q.getD j 0 ∈ Q := getD_mem 0 hj
                      have := hQb _ hmem
                      omega
                have hDD := solveDriver_distinct _ _ _ _ hgood aw bw hdrv
                have hawB : ∀ x ∈ aw, 0 ≤ x ∧ x < (P.length : Int) := by
                  intro x hx
                  have h3 := hDD.2.2.1 x hx
                  by_cases hcc : Q.length < P.length
                  · rw [if_pos (by simpa using hcc), if_pos hcc] at h3
                    exact h3
                  · rw [if_neg (by simpa using hcc), if_neg hcc] at h3
                    exact h3
                have hbwB : ∀ x ∈ bw, 0 ≤ x ∧ x < (Q.length : Int) := by
                  intro x hx
                  have h3 := hDD.2.2.2 x hx
                  by_cases hcc : Q.length < P.length
                  · rw [if_pos (by simpa using hcc), if_pos hcc] at h3
                    exact h3
                  · rw [if_neg (by simpa using hcc), if_neg hcc] at h3
                    exact h3
                rw [← ha, ← hb]
                exact ⟨nodup_remap P hPnd aw hDD.1 hawB,
                  nodup_remap Q hQnd bw hDD.2.1 hbwB⟩
            · -- column selector out of bounds
              have hQBf : subInBounds (nc : Int) (Q.length : Int) Q = false := by
                cases hc : subInBounds (nc : Int) (Q.length : Int) Q with
                | true => exact absurd hc hQB
                | false => rfl
              rw [solve, if_neg h0, if_neg (by rw [hval]; simp), if_neg (by omega),
                if_neg (by rw [hPB]; rintro ⟨_, hh⟩; cases hh), if_neg (by omega),
                if_pos ⟨by omega, hQBf⟩, SolveResult.mk.injEq] at h
              exact absurd h.1 (by simp)
        · -- row selector out of bounds
          have hPBf : subInBounds (nr : Int) (P.length : Int) P = false := by
            cases hc : subInBounds (nr : Int) (P.length : Int) P with
            | true => exact absurd hc hPB
            | false => rfl
          rw [solve, if_neg h0, if_neg (by rw [hval]; simp), if_neg (by omega),
            if_pos ⟨by omega, hPBf⟩, SolveResult.mk.injEq] at h
          exact absurd h.1 (by simp)

/-- C5 (counterexample to the claim as stated): a repeated row selector is
legal input, the solve succeeds, and the emitted a values repeat the
duplicated row index, so they are not pairwise distinct. -/
theorem C5_counterexample :
    (solve 1 2 ([Dbl.fin 0, Dbl.fin 5] : List (Dbl Int)) false
      [0, 0] ((([0, 0] : List Int).length : Nat) : Int)
      [0, 1] ((([0, 1] : List Int).length : Nat) : Int)).status = Status.ok ∧
    ¬ (solve 1 2 ([Dbl.fin 0, Dbl.fin 5] : List (Dbl Int)) false
      [0, 0] ((([0, 0] : List Int).length : Nat) : Int)
      [0, 1] ((([0, 1] : List Int).length : Nat) : Int)).a.Nodup := by
  decide

/-- Witness for the amended C5 at a concrete input with duplicate-free
selectors. -/
theorem C5_distinct_amended_witness :
    solve 2 2 ([Dbl.fin 1, Dbl.fin 2, Dbl.fin 3, Dbl.fin 4] : List (Dbl Int)) false
        [1, 0] ((([1, 0] : List Int).length : Nat) : Int)
        [0, 1] ((([0, 1] : List Int).length : Nat) : Int)
      = ⟨Status.ok, [1, 0], [0, 1]⟩ ∧
    ([1, 0] : List Int).Nodup ∧ ([0, 1] : List Int).Nodup := by
  refine ⟨by decide, ?_⟩
  exact C5_distinct_amended 2 2
    ([Dbl.fin 1, Dbl.fin 2, Dbl.fin 3, Dbl.fin 4] : List (Dbl Int)) false
    [1, 0] [0, 1] (by decide) (by decide) [1, 0] [0, 1] (by decide)

/-!
Infeasibility: the lowest = +infinity exit of the search (C9).
-/

/-- When every scanned column's shortest-path cost is infinite and the
candidate value of no scanned column IEEE-compares below infinity, the
running minimum of the scan stays infinite. -/
theorem scanLoop_pinf (g : Nat → Nat → Dbl α) (u v : List (Dbl α))
    (row4col : List (Option Nat)) (i : Nat) (minVal : Dbl α) :
    ∀ (rem : List Nat) (it : Nat) (path : List (Option Nat)) (spc : List (Dbl α))
      (index : Option Nat),
      (∀ j ∈ rem, spc.getD j Dbl.nan = Dbl.pinf) →
      (∀ j ∈ rem, Dbl.blt (Dbl.sub (Dbl.sub (Dbl.add minVal (g i j))
        (u.getD i Dbl.nan)) (v.getD j Dbl.nan)) Dbl.pinf = false) →
      (scanLoop g u v row4col i minVal rem it path spc Dbl.pinf index).lowest =
        Dbl.pinf := by
  intro rem
  induction rem with
  | nil => intro it path spc index _ _; rfl
  | cons j rest ih =>
    intro it path spc index h1 h2
    have hmem := List.mem_cons_self j rest
    have hsp : spc.getD j Dbl.nan = Dbl.pinf := h1 j hmem
    have e1 : Dbl.blt (Dbl.pinf : Dbl α) Dbl.pinf = false := rfl
    have e2 : Dbl.beq (Dbl.pinf : Dbl α) Dbl.pinf = true := rfl
    simp only [scanLoop, hsp, h2 j hmem, e1, e2, Bool.false_or, Bool.true_and,
      Bool.false_eq_true, if_false, ite_self]
    exact ih (it + 1) path spc _
      (fun j2 hj2 => h1 j2 (List.mem_cons_of_mem j hj2))
      (fun j2 hj2 => h2 j2 (List.mem_cons_of_mem j hj2))

/-- The infeasible exit of the search loop (lines 152-155): when the scan
of the remaining columns reports an infinite minimum, the pass returns the
-1 sentinel (modelled none). -/
theorem augLoop_scan_pinf (g : Nat → Nat → Dbl α) (u v : List (Dbl α))
    (row4col : List (Option Nat)) (fuel i : Nat) (minVal : Dbl α)
    (path : List (Option Nat)) (spc : List (Dbl α)) (SR SC : List Bool)
    (rem : List Nat)
    (h : (scanLoop g u v row4col i minVal rem 0 path spc Dbl.pinf none).lowest =
      Dbl.pinf) :
    augLoop g u v row4col (fuel + 1) i minVal path spc SR SC rem = none := by
  simp [augLoop, h, Dbl.beq]

/-- A search started from a row whose every working cost is +infinity
fails at once: with finite duals the first scan relaxes nothing, so every
shortest-path cost stays infinite and the minimum is infinite. -/
theorem augpath_pinf_row (g : Nat → Nat → Dbl α) (nr nc : Nat) (u v : List (Dbl α))
    (path : List (Option Nat)) (row4col : List (Option Nat)) (i : Nat)
    (hu : ∃ q, u.getD i Dbl.nan = Dbl.fin q)
    (hv : ∀ j, j < nc → ∃ q, v.getD j Dbl.nan = Dbl.fin q)
    (hrow : ∀ j, j < nc → g i j = Dbl.pinf) :
    augmenting_path g nr nc u v path row4col i = none := by
  rw [augmenting_path]
  apply augLoop_scan_pinf
  apply scanLoop_pinf
  · intro j hj
    have hjlt : j < nc := List.mem_range.mp (List.mem_reverse.mp hj)
    exact getD_replicate Dbl.pinf Dbl.nan hjlt
  · intro j hj
    have hjlt : j < nc := List.mem_range.mp (List.mem_reverse.mp hj)
    obtain ⟨a, ha⟩ := hu
    obtain ⟨b, hb⟩ := hv j hjlt
    rw [hrow j hjlt, ha, hb]
    rfl

/-- A failing augmenting-path search at any reachable step of the main
loop makes the whole loop fail. -/
theorem mainLoop_fail (g : Nat → Nat → Dbl α) (nrW ncW t : Nat)
    (st : DriverState α) (ht : t < nrW)
    (hpre : mainLoop g ncW 0 t (initState nrW ncW) = some st)
    (hstep : solveStep g ncW t st = none) :
    mainLoop g ncW 0 nrW (initState nrW ncW) = none := by
  have hsplit := mainLoop_split g ncW t (nrW - t) 0 (initState nrW ncW)
  rw [show t + (nrW - t) = nrW by omega] at hsplit
  rw [hsplit, hpre]
  simp only []
  rw [show nrW - t = (nrW - t - 1) + 1 by omega]
  simp only [mainLoop, Nat.zero_add, hstep]

/-- C9 (amended): the search pass whose scan reports lowest = +infinity
returns the -1 sentinel; any search failure at a reachable main-loop
state makes solve return INFEASIBLE; and a minimizing problem with
nr ≤ nc (so the view is not transposed), valid entries, and a row of
all +infinity entries returns INFEASIBLE.  (For nr > nc the all-infinite
row is transposed into a column the solver can avoid, and solve
succeeds: see the counterexample.) -/
theorem C9_infeasible_amended :
    (∀ (g : Nat → Nat → Dbl α) (u v : List (Dbl α)) (row4col : List (Option Nat))
      (fuel i : Nat) (minVal : Dbl α) (path : List (Option Nat))
      (spc : List (Dbl α)) (SR SC : List Bool) (rem : List Nat),
      (scanLoop g u v row4col i minVal rem 0 path spc Dbl.pinf none).lowest =
        Dbl.pinf →
      augLoop g u v row4col (fuel + 1) i minVal path spc SR SC rem = none) ∧
    (∀ (g : Nat → Nat → Dbl α) (nrW ncW : Nat) (tf : Bool)
      (sro sco : Option (List Int)) (t : Nat) (st : DriverState α), t < nrW →
      mainLoop g ncW 0 t (initState nrW ncW) = some st →
      solveStep g ncW t st = none →
      finishSolve sro sco (solveDriver g nrW ncW tf) =
        ⟨Status.infeasible, [], []⟩) ∧
    (∀ (nr nc : Nat) (cost : List (Dbl α)), 0 < nr → nr ≤ nc →
      (∀ idx, idx < nr * nc → badEntry false (cost.getD idx Dbl.nan) = false) →
      ∀ r0, r0 < nr →
      (∀ j, j < nc → cost.getD (r0 * nc + j) Dbl.nan = Dbl.pinf) →
      solve nr nc cost false [] 0 [] 0 = ⟨Status.infeasible, [], []⟩) := by
  refine ⟨fun g u v row4col fuel i minVal path spc SR SC rem h =>
    augLoop_scan_pinf g u v row4col fuel i minVal path spc SR SC rem h, ?_, ?_⟩
  · intro g nrW ncW tf sro sco t st ht hpre hstep
    rw [solveDriver, mainLoop_fail g nrW ncW t st ht hpre hstep]
    rfl
  · intro nr nc cost hnr hnc hvalid r0 hr0 hrow
    have hval : ((List.range (nr * nc)).any
        (fun idx => badEntry false (cost.getD idx Dbl.nan))) = false := by
      rw [List.any_eq_false]
      intro idx hidx
      rw [Bool.not_eq_true]
      exact hvalid idx (List.mem_range.mp hidx)
    rw [solve_nosub_reduce nr nc cost false hnr (by omega) hval]
    have hnlt : ¬ (nc < nr) := by omega
    have hdec : (decide (nc < nr) : Bool) = false := by simp [hnlt]
    rw [hdec, if_neg hnlt, if_neg hnlt]
    have hgeq : ∀ i2 j2,
        Matrix2d.get (⟨cost, nr, nc, false, false, none, none⟩ : Matrix2d α) i2 j2
          = cost.getD (i2 * nc + j2) Dbl.nan := fun i2 j2 => rfl
    have hgood : ∀ i2 j2, i2 < nr → j2 < nc →
        Matrix2d.get (⟨cost, nr, nc, false, false, none, none⟩ : Matrix2d α) i2 j2
          ≠ Dbl.nan ∧
        Matrix2d.get (⟨cost, nr, nc, false, false, none, none⟩ : Matrix2d α) i2 j2
          ≠ Dbl.ninf := by
      intro i2 j2 hi2 hj2
      exact matget_good cost nr nc false false none none hvalid i2 j2
        (by simpa using hi2) (by simpa using hj2)
    rcases hml : mainLoop
        (Matrix2d.get (⟨cost, nr, nc, false, false, none, none⟩ : Matrix2d α))
        nc 0 r0 (initState nr nc) with _ | st
    · have hfull : mainLoop
          (Matrix2d.get (⟨cost, nr, nc, false, false, none, none⟩ : Matrix2d α))
          nc 0 nr (initState nr nc) = none := by
        have hsplit := mainLoop_split
          (Matrix2d.get (⟨cost, nr, nc, false, false, none, none⟩ : Matrix2d α))
          nc r0 (nr - r0) 0 (initState nr nc)
        rw [show r0 + (nr - r0) = nr by omega] at hsplit
        rw [hsplit, hml]
      rw [solveDriver, hfull]
      rfl
    · have hM0 := initState_MInv
        (Matrix2d.get (⟨cost, nr, nc, false, false, none, none⟩ : Matrix2d α)) nr nc
      have hM := mainLoop_MInv
        (Matrix2d.get (⟨cost, nr, nc, false, false, none, none⟩ : Matrix2d α))
        nr nc hgood r0 0 (initState nr nc) st (by omega) hM0 hml
      obtain ⟨hul, hvl, hpl, hcl, hrl, huf, hvf, _⟩ := hM
      have haug : augmenting_path
          (Matrix2d.get (⟨cost, nr, nc, false, false, none, none⟩ : Matrix2d α))
          st.u.length nc st.u st.v st.path st.row4col r0 = none := by
        apply augpath_pinf_row
        · exact huf r0 hr0
        · exact hvf
        · intro j hj
          rw [hgeq r0 j, hrow j hj]
      have hstep : solveStep
          (Matrix2d.get (⟨cost, nr, nc, false, false, none, none⟩ : Matrix2d α))
          nc r0 st = none := by
        simp only [solveStep, haug]
      have hfull := mainLoop_fail
        (Matrix2d.get (⟨cost, nr, nc, false, false, none, none⟩ : Matrix2d α))
        nr nc r0 st hr0 hml hstep
      rw [solveDriver, hfull]
      rfl

/-- C9 (counterexample to the claim as stated): a tall minimizing problem
(nr greater than nc) whose first row is entirely +infinity still passes
validation, but the transposed view lets the solver avoid that column and
solve returns success, not INFEASIBLE. -/
theorem C9_counterexample :
    (∀ j, j < 2 →
      ([Dbl.pinf, Dbl.pinf, Dbl.fin 1, Dbl.fin 2, Dbl.fin 3, Dbl.fin 4] :
        List (Dbl Int)).getD (0 * 2 + j) Dbl.nan = Dbl.pinf) ∧
    (∀ idx, idx < 3 * 2 → badEntry false
      (([Dbl.pinf, Dbl.pinf, Dbl.fin 1, Dbl.fin 2, Dbl.fin 3, Dbl.fin 4] :
        List (Dbl Int)).getD idx Dbl.nan) = false) ∧
    (solve 3 2 ([Dbl.pinf, Dbl.pinf, Dbl.fin 1, Dbl.fin 2, Dbl.fin 3, Dbl.fin 4] :
      List (Dbl Int)) false [] 0 [] 0).status = Status.ok := by
  refine ⟨by decide, by decide, by decide⟩

/-!
Optimality of the returned assignment (C1): IEEE summation toolkit.
-/

theorem Dbl.add_left_comm (a b c : Dbl α) :
    Dbl.add a (Dbl.add b c) = Dbl.add b (Dbl.add a c) := by
  cases a <;> cases b <;> cases c <;> simp [Dbl.add] <;> abel

theorem Dbl.neg_neg (a : Dbl α) : Dbl.neg (Dbl.neg a) = a := by
  cases a <;> simp [Dbl.neg]

theorem Dbl.neg_add (a b : Dbl α) :
    Dbl.add (Dbl.neg a) (Dbl.neg b) = Dbl.neg (Dbl.add a b) := by
  cases a <;> cases b <;> simp [Dbl.add, Dbl.neg] <;> abel

theorem Dbl.ble_neg (a b : Dbl α) :
    Dbl.ble (Dbl.neg a) (Dbl.neg b) = Dbl.ble b a := by
  cases a <;> cases b <;> simp [Dbl.ble, Dbl.neg, neg_le_neg_iff]

theorem Dbl.ble_fin_cases {x : α} {w : Dbl α} (h : Dbl.ble (Dbl.fin x) w = true) :
    w = Dbl.pinf ∨ ∃ q, w = Dbl.fin q ∧ x ≤ q := by
  cases w with
  | nan => simp [Dbl.ble] at h
  | ninf => simp [Dbl.ble] at h
  | pinf => exact Or.inl rfl
  | fin q => exact Or.inr ⟨q, rfl, Dbl.ble_fin_iff.mp h⟩

theorem dblSum_cons (a : Dbl α) (L : List (Dbl α)) :
    dblSum (a :: L) = Dbl.add a (dblSum L) := rfl

theorem dblSum_perm {L L2 : List (Dbl α)} (h : List.Perm L L2) :
    dblSum L = dblSum L2 := by
  induction h with
  | nil => rfl
  | cons x h ih => rw [dblSum_cons, dblSum_cons, ih]
  | swap x y l =>
    rw [dblSum_cons, dblSum_cons, dblSum_cons, dblSum_cons]
    exact Dbl.add_left_comm y x (dblSum l)
  | trans h1 h2 ih1 ih2 => rw [ih1, ih2]

theorem dblSum_fin {L : List (Dbl α)} (h : ∀ x ∈ L, ∃ q, x = Dbl.fin q) :
    dblSum L = Dbl.fin ((L.map Dbl.finPart).sum) := by
  induction L with
  | nil => rfl
  | cons a rest ih =>
    obtain ⟨q, hq⟩ := h a (List.mem_cons_self a rest)
    rw [dblSum_cons, ih (fun x hx => h x (List.mem_cons_of_mem a hx)), hq]
    simp [Dbl.add, Dbl.finPart]

theorem dblSum_cls {L : List (Dbl α)} (h : ∀ x ∈ L, x ≠ Dbl.nan ∧ x ≠ Dbl.ninf) :
    dblSum L ≠ Dbl.nan ∧ dblSum L ≠ Dbl.ninf := by
  induction L with
  | nil => refine ⟨fun hc => ?_, fun hc => ?_⟩ <;> cases hc
  | cons a rest ih =>
    obtain ⟨ha1, ha2⟩ := h a (List.mem_cons_self a rest)
    obtain ⟨hr1, hr2⟩ := ih (fun x hx => h x (List.mem_cons_of_mem a hx))
    rw [dblSum_cons]
    cases ha : a <;> cases hd : dblSum rest <;> simp_all [Dbl.add]

theorem dblSum_pinf {L : List (Dbl α)} (h : ∀ x ∈ L, x ≠ Dbl.nan ∧ x ≠ Dbl.ninf)
    (hp : Dbl.pinf ∈ L) : dblSum L = Dbl.pinf := by
  induction L with
  | nil => cases hp
  | cons a rest ih =>
    rw [dblSum_cons]
    rcases List.mem_cons.mp hp with hpa | hpr
    · obtain ⟨hr1, hr2⟩ := dblSum_cls (fun x hx => h x (List.mem_cons_of_mem a hx))
      rw [← hpa]
      cases hd : dblSum rest
      · exact absurd hd hr1
      · exact absurd hd hr2
      · rfl
      · rfl
    · rw [ih (fun x hx => h x (List.mem_cons_of_mem a hx)) hpr]
      obtain ⟨ha1, ha2⟩ := h a (List.mem_cons_self a rest)
      cases a
      · exact absurd rfl ha1
      · exact absurd rfl ha2
      · rfl
      · rfl

theorem dblSum_neg (L : List (Dbl α)) :
    dblSum (L.map Dbl.neg) = Dbl.neg (dblSum L) := by
  induction L with
  | nil => simp [dblSum, Dbl.neg]
  | cons a rest ih => rw [List.map_cons, dblSum_cons, dblSum_cons, ih, Dbl.neg_add]

theorem list_range_sum (n : Nat) (f : Nat → α) :
    ((List.range n).map f).sum = ∑ i ∈ Finset.range n, f i := by
  induction n with
  | zero => rfl
  | succ m ih =>
    rw [List.range_succ, List.map_append, List.sum_append, Finset.sum_range_succ, ih]
    simp

theorem sum_map_add {β : Type} (l : List β) (f h : β → α) :
    (l.map (fun x => f x + h x)).sum = (l.map f).sum + (l.map h).sum := by
  induction l with
  | nil => simp
  | cons a rest ih =>
    simp only [List.map_cons, List.sum_cons, ih]
    abel

theorem perm_range_of_nodup {L : List Nat} {n : Nat} (hnd : L.Nodup)
    (hlen : L.length = n) (hb : ∀ x ∈ L, x < n) : List.Perm L (List.range n) := by
  have hsub : L.Subperm (List.range n) :=
    hnd.subperm (fun x hx => List.mem_range.mpr (hb x hx))
  exact hsub.perm_of_length_le (by rw [List.length_range, hlen])

/-- Core optimality of the completed main loop: the IEEE total of the
matched edges is at most the IEEE total of any rival working assignment
with distinct rows, distinct columns and full size.  The proof is the
standard duality argument: matched edges are tight, the duals are
feasible, v is nonpositive and vanishes on unmatched columns. -/
theorem driver_optimal (g : Nat → Nat → Dbl α) (nrW ncW : Nat) (st : DriverState α)
    (hM : MInv g nrW ncW nrW st) (R : List (Nat × Nat)) (hRl : R.length = nrW)
    (hRf : (R.map Prod.fst).Nodup) (hRs : (R.map Prod.snd).Nodup)
    (hRfb : ∀ p ∈ R, p.1 < nrW) (hRsb : ∀ p ∈ R, p.2 < ncW) :
    Dbl.ble
      (dblSum ((List.range nrW).map
        (fun i => g i ((st.col4row.getD i none).getD 0))))
      (dblSum (R.map (fun p => g p.1 p.2))) = true := by
  obtain ⟨hul, hvl, hpl, hcl, hrl, huf, hvf, hc2r, hr2c, hmr, hfeas, htight,
    hvle, hvun, _⟩ := hM
  have hufin : ∀ i, i < nrW → st.u.getD i Dbl.nan
      = Dbl.fin (Dbl.finPart (st.u.getD i Dbl.nan)) := by
    intro i hi
    obtain ⟨q, hq⟩ := huf i hi
    rw [hq]
    rfl
  have hvfin : ∀ j, j < ncW → st.v.getD j Dbl.nan
      = Dbl.fin (Dbl.finPart (st.v.getD j Dbl.nan)) := by
    intro j hj
    obtain ⟨q, hq⟩ := hvf j hj
    rw [hq]
    rfl
  have hcsome : ∀ i, i < nrW →
      st.col4row.getD i none = some ((st.col4row.getD i none).getD 0) := by
    intro i hi
    have hs := (hmr i hi).mpr hi
    rcases hcase : st.col4row.getD i none with _ | j
    · rw [hcase] at hs
      cases hs
    · rfl
  have hclt : ∀ i, i < nrW → (st.col4row.getD i none).getD 0 < ncW := by
    intro i hi
    exact (hc2r i _ (hcsome i hi)).1
  have htight2 : ∀ i, i < nrW → g i ((st.col4row.getD i none).getD 0)
      = Dbl.fin (Dbl.finPart (st.u.getD i Dbl.nan)
          + Dbl.finPart (st.v.getD ((st.col4row.getD i none).getD 0) Dbl.nan)) := by
    intro i hi
    have ht := htight i _ (hcsome i hi)
    rw [hufin i hi, hvfin _ (hclt i hi)] at ht
    exact ht.symm
  have hfeas2 : ∀ i j, i < nrW → j < ncW →
      Dbl.ble (Dbl.fin (Dbl.finPart (st.u.getD i Dbl.nan)
        + Dbl.finPart (st.v.getD j Dbl.nan))) (g i j) = true := by
    intro i j hi hj
    have hf := hfeas i j hi hj
    rw [hufin i hi, hvfin j hj] at hf
    exact hf
  have hVle : ∀ j, j < ncW → Dbl.finPart (st.v.getD j Dbl.nan) ≤ 0 := by
    intro j hj
    have hv := hvle j hj
    rw [hvfin j hj] at hv
    exact Dbl.ble_fin_iff.mp hv
  have hcinj : ∀ i1 i2, i1 < nrW → i2 < nrW →
      (st.col4row.getD i1 none).getD 0 = (st.col4row.getD i2 none).getD 0 →
      i1 = i2 := by
    intro i1 i2 h1 h2 he
    have e1 := (hc2r i1 _ (hcsome i1 h1)).2
    have e2 := (hc2r i2 _ (hcsome i2 h2)).2
    rw [he] at e1
    rw [e1] at e2
    exact Option.some.inj e2
  have hmlist : ((List.range nrW).map
      (fun i => g i ((st.col4row.getD i none).getD 0))) =
      (List.range nrW).map (fun i => Dbl.fin (Dbl.finPart (st.u.getD i Dbl.nan)
        + Dbl.finPart (st.v.getD ((st.col4row.getD i none).getD 0) Dbl.nan))) := by
    apply List.map_congr_left
    intro i hi
    exact htight2 i (List.mem_range.mp hi)
  have hmsum : dblSum ((List.range nrW).map
      (fun i => g i ((st.col4row.getD i none).getD 0))) =
      Dbl.fin (((List.range nrW).map
        (fun i => Dbl.finPart (st.u.getD i Dbl.nan)
          + Dbl.finPart (st.v.getD ((st.col4row.getD i none).getD 0) Dbl.nan))).sum) := by
    rw [hmlist, dblSum_fin (fun x hx => by
      rw [List.mem_map] at hx
      obtain ⟨i, _, he⟩ := hx
      exact ⟨_, he.symm⟩), List.map_map]
    rfl
  have hRcls : ∀ x ∈ R.map (fun p => g p.1 p.2), x ≠ Dbl.nan ∧ x ≠ Dbl.ninf := by
    intro x hx
    rw [List.mem_map] at hx
    obtain ⟨p, hp, he⟩ := hx
    have hf := hfeas2 p.1 p.2 (hRfb p hp) (hRsb p hp)
    rcases Dbl.ble_fin_cases hf with hpinf | ⟨q, hq, _⟩
    · rw [← he, hpinf]
      refine ⟨fun hc => ?_, fun hc => ?_⟩ <;> cases hc
    · rw [← he, hq]
      refine ⟨fun hc => ?_, fun hc => ?_⟩ <;> cases hc
  by_cases hpin : Dbl.pinf ∈ R.map (fun p => g p.1 p.2)
  · rw [hmsum, dblSum_pinf hRcls hpin]
    exact Dbl.ble_fin_pinf _
  · have hRfin : ∀ p ∈ R, ∃ q, g p.1 p.2 = Dbl.fin q := by
      intro p hp
      have hf := hfeas2 p.1 p.2 (hRfb p hp) (hRsb p hp)
      rcases Dbl.ble_fin_cases hf with hpinf | ⟨q, hq, _⟩
      · exact absurd (List.mem_map.mpr ⟨p, hp, hpinf⟩) hpin
      · exact ⟨q, hq⟩
    have hall : ∀ x ∈ R.map (fun p => g p.1 p.2), ∃ q, x = Dbl.fin q := by
      intro x hx
      rw [List.mem_map] at hx
      obtain ⟨p, hp, he⟩ := hx
      obtain ⟨q, hq⟩ := hRfin p hp
      exact ⟨q, by rw [← he, hq]⟩
    have hrsum := dblSum_fin hall
    rw [List.map_map] at hrsum
    rw [hmsum, hrsum, Dbl.ble_fin_iff,
      sum_map_add (List.range nrW) (fun i => Dbl.finPart (st.u.getD i Dbl.nan))
        (fun i => Dbl.finPart (st.v.getD ((st.col4row.getD i none).getD 0) Dbl.nan))]
    have hpoint : ∀ p ∈ R, Dbl.finPart (st.u.getD p.1 Dbl.nan)
        + Dbl.finPart (st.v.getD p.2 Dbl.nan) ≤ Dbl.finPart (g p.1 p.2) := by
      intro p hp
      have hf := hfeas2 p.1 p.2 (hRfb p hp) (hRsb p hp)
      obtain ⟨q, hq⟩ := hRfin p hp
      rw [hq] at hf
      rw [hq]
      exact Dbl.ble_fin_iff.mp hf
    have hrle : ((R.map (fun p => Dbl.finPart (st.u.getD p.1 Dbl.nan)
        + Dbl.finPart (st.v.getD p.2 Dbl.nan))).sum)
        ≤ (R.map (Dbl.finPart ∘ fun p => g p.1 p.2)).sum :=
      List.sum_le_sum hpoint
    rw [sum_map_add R (fun p => Dbl.finPart (st.u.getD p.1 Dbl.nan))
      (fun p => Dbl.finPart (st.v.getD p.2 Dbl.nan))] at hrle
    have hfstperm : List.Perm (R.map Prod.fst) (List.range nrW) :=
      perm_range_of_nodup hRf (by rw [List.length_map, hRl])
        (fun x hx => by
          rw [List.mem_map] at hx
          obtain ⟨p, hp, he⟩ := hx
          rw [← he]
          exact hRfb p hp)
    have hueq : (R.map (fun p => Dbl.finPart (st.u.getD p.1 Dbl.nan))).sum
        = ((List.range nrW).map (fun i => Dbl.finPart (st.u.getD i Dbl.nan))).sum := by
      have h2 := List.Perm.sum_eq
        (hfstperm.map (fun i => Dbl.finPart (st.u.getD i Dbl.nan)))
      rw [List.map_map] at h2
      exact h2
    have hVml : ((List.range nrW).map (fun i =>
        Dbl.finPart (st.v.getD ((st.col4row.getD i none).getD 0) Dbl.nan))).sum
        = ∑ j ∈ Finset.range ncW, Dbl.finPart (st.v.getD j Dbl.nan) := by
      have hMnd : (((List.range nrW).map
          (fun i => (st.col4row.getD i none).getD 0))).Nodup :=
        List.Nodup.map_on (fun x hx y hy he =>
          hcinj x y (List.mem_range.mp hx) (List.mem_range.mp hy) he)
          (List.nodup_range nrW)
      have hMs := List.sum_toFinset
        (fun j => Dbl.finPart (st.v.getD j Dbl.nan)) hMnd
      rw [List.map_map] at hMs
      have hsub : ((List.range nrW).map
          (fun i => (st.col4row.getD i none).getD 0)).toFinset
          ⊆ Finset.range ncW := by
        intro j hj
        rw [List.mem_toFinset, List.mem_map] at hj
        obtain ⟨i, hi, he⟩ := hj
        rw [Finset.mem_range, ← he]
        exact hclt i (List.mem_range.mp hi)
      have hzero : ∀ j ∈ Finset.range ncW,
          j ∉ ((List.range nrW).map
            (fun i => (st.col4row.getD i none).getD 0)).toFinset →
          Dbl.finPart (st.v.getD j Dbl.nan) = 0 := by
        intro j hj hnj
        rw [Finset.mem_range] at hj
        rcases hrc : st.row4col.getD j none with _ | i
        · rw [hvun j hj hrc]
          rfl
        · exfalso
          apply hnj
          rw [List.mem_toFinset, List.mem_map]
          have h9 := hr2c j i hrc
          refine ⟨i, List.mem_range.mpr h9.1, ?_⟩
          rw [h9.2]
          rfl
      have hss := Finset.sum_subset hsub hzero
      exact hMs.symm.trans hss
    have hVrl : ∑ j ∈ Finset.range ncW, Dbl.finPart (st.v.getD j Dbl.nan)
        ≤ (R.map (fun p => Dbl.finPart (st.v.getD p.2 Dbl.nan))).sum := by
      have hSnd := List.sum_toFinset
        (fun j => Dbl.finPart (st.v.getD j Dbl.nan)) hRs
      rw [List.map_map] at hSnd
      have hsub2 : (R.map Prod.snd).toFinset ⊆ Finset.range ncW := by
        intro j hj
        rw [List.mem_toFinset, List.mem_map] at hj
        obtain ⟨p, hp, he⟩ := hj
        rw [Finset.mem_range, ← he]
        exact hRsb p hp
      have hsd : (∑ j ∈ Finset.range ncW \ (R.map Prod.snd).toFinset,
            Dbl.finPart (st.v.getD j Dbl.nan))
          + ∑ j ∈ (R.map Prod.snd).toFinset, Dbl.finPart (st.v.getD j Dbl.nan)
          = ∑ j ∈ Finset.range ncW, Dbl.finPart (st.v.getD j Dbl.nan) :=
        Finset.sum_sdiff hsub2
      have hnp : (∑ j ∈ Finset.range ncW \ (R.map Prod.snd).toFinset,
          Dbl.finPart (st.v.getD j Dbl.nan)) ≤ 0 :=
        Finset.sum_nonpos (fun j hj => hVle j
          (Finset.mem_range.mp (Finset.mem_sdiff.mp hj).1))
      have hge : ∑ j ∈ Finset.range ncW, Dbl.finPart (st.v.getD j Dbl.nan)
          ≤ ∑ j ∈ (R.map Prod.snd).toFinset, Dbl.finPart (st.v.getD j Dbl.nan) := by
        rw [← hsd]
        exact add_le_of_nonpos_left hnp
      exact le_trans hge (le_of_eq hSnd)
    rw [hVml, ← hueq]
    calc (R.map (fun p => Dbl.finPart (st.u.getD p.1 Dbl.nan))).sum
          + ∑ j ∈ Finset.range ncW, Dbl.finPart (st.v.getD j Dbl.nan)
        ≤ (R.map (fun p => Dbl.finPart (st.u.getD p.1 Dbl.nan))).sum
          + (R.map (fun p => Dbl.finPart (st.v.getD p.2 Dbl.nan))).sum :=
          add_le_add_left hVrl _
      _ ≤ _ := hrle

theorem zip_map_self {β γ : Type} (g2 : β → γ) :
    ∀ (l : List β), l.zip (l.map g2) = l.map (fun x => (x, g2 x))
  | [] => rfl
  | a :: l => by rw [List.map_cons, List.zip_cons_cons, List.map_cons, zip_map_self g2 l]

theorem zip_map_self2 {β γ : Type} (g2 : β → γ) :
    ∀ (l : List β), (l.map g2).zip l = l.map (fun x => (g2 x, x))
  | [] => rfl
  | a :: l => by rw [List.map_cons, List.zip_cons_cons, List.map_cons, zip_map_self2 g2 l]

theorem zip_comm_map {β : Type} (H : Nat → Nat → β) :
    ∀ (l1 l2 : List Nat), (l1.zip l2).map (fun p => H p.1 p.2)
      = (l2.zip l1).map (fun p => H p.2 p.1)
  | [], [] => rfl
  | [], _ :: _ => rfl
  | _ :: _, [] => rfl
  | a :: l1, b :: l2 => by
    rw [List.zip_cons_cons, List.zip_cons_cons, List.map_cons, List.map_cons,
      zip_comm_map H l1 l2]

/-- Anatomy of a successful driver run: the final state, its invariant,
and the exact shape of the two working-coordinate output arrays. -/
theorem solveDriver_out (g : Nat → Nat → Dbl α) (nrW ncW : Nat) (tf : Bool)
    (hgood : ∀ i j, i < nrW → j < ncW → g i j ≠ Dbl.nan ∧ g i j ≠ Dbl.ninf)
    (aw bw : List Int) (h : solveDriver g nrW ncW tf = some (aw, bw)) :
    ∃ st, mainLoop g ncW 0 nrW (initState nrW ncW) = some st ∧
      MInv g nrW ncW nrW st ∧
      ((tf = true ∧
        aw = (argsort_iter (st.col4row.map optToInt)).map
          (fun x => (st.col4row.map optToInt).getD x 0) ∧
        bw = (argsort_iter (st.col4row.map optToInt)).map (fun x => Int.ofNat x)) ∨
       (tf = false ∧
        aw = (List.range nrW).map (fun i => Int.ofNat i) ∧
        bw = (List.range nrW).map (fun i => (st.col4row.map optToInt).getD i 0))) := by
  rw [solveDriver] at h
  rcases hml : mainLoop g ncW 0 nrW (initState nrW ncW) with _ | st
  · rw [hml] at h
    cases h
  · rw [hml] at h
    simp only [] at h
    have hM := mainLoop_MInv g nrW ncW hgood nrW 0 (initState nrW ncW) st (by omega)
      (initState_MInv g nrW ncW) hml
    rw [Nat.zero_add] at hM
    refine ⟨st, rfl, hM, ?_⟩
    cases tf with
    | false =>
      rw [if_neg (by simp)] at h
      injection h with h2
      injection h2 with ha hb
      exact Or.inr ⟨rfl, ha.symm, hb.symm⟩
    | true =>
      rw [if_pos rfl] at h
      injection h with h2
      injection h2 with ha hb
      exact Or.inl ⟨rfl, ha.symm, hb.symm⟩

/-- C1 (amended): for the unsubscripted solve, on success the emitted
pairs form an injective assignment of min(nr, nc) distinct in-range rows
to distinct in-range columns, and its IEEE total cost over the original
matrix is at most (minimizing), respectively at least (maximizing), the
total of every rival assignment of the same size given by distinct
in-range rows ra paired with distinct in-range columns rb.  (With
subscript selectors the optimality over all assignments of the original
matrix fails: see the counterexample.) -/
theorem C1_optimal_amended (nr nc : Nat) (cost : List (Dbl α)) (maximize : Bool)
    (a b : List Int)
    (h : solve nr nc cost maximize [] 0 [] 0 = ⟨Status.ok, a, b⟩)
    (ra rb : List Nat) (hral : ra.length = min nr nc) (hrbl : rb.length = min nr nc)
    (hrand : ra.Nodup) (hrbnd : rb.Nodup)
    (hrab : ∀ x ∈ ra, x < nr) (hrbb : ∀ x ∈ rb, x < nc) :
    a.length = min nr nc ∧ b.length = min nr nc ∧ a.Nodup ∧ b.Nodup ∧
    (∀ x ∈ a, 0 ≤ x ∧ x < (nr : Int)) ∧ (∀ x ∈ b, 0 ≤ x ∧ x < (nc : Int)) ∧
    (if maximize then
      Dbl.ble (dblSum ((ra.zip rb).map
          (fun p => cost.getD (p.1 * nc + p.2) Dbl.nan)))
        (dblSum (((a.map Int.toNat).zip (b.map Int.toNat)).map
          (fun p => cost.getD (p.1 * nc + p.2) Dbl.nan)))
     else
      Dbl.ble (dblSum (((a.map Int.toNat).zip (b.map Int.toNat)).map
          (fun p => cost.getD (p.1 * nc + p.2) Dbl.nan)))
        (dblSum ((ra.zip rb).map
          (fun p => cost.getD (p.1 * nc + p.2) Dbl.nan)))) = true := by
  by_cases h0 : nr = 0 ∨ nc = 0
  · rw [solve, if_pos h0, SolveResult.mk.injEq] at h
    obtain ⟨_, ha, hb⟩ := h
    have hmin : min nr nc = 0 := by omega
    have hra : ra = [] := List.length_eq_zero.mp (by omega)
    have hrb : rb = [] := List.length_eq_zero.mp (by omega)
    subst hra
    subst hrb
    rw [← ha, ← hb, hmin]
    refine ⟨rfl, rfl, List.nodup_nil, List.nodup_nil, by simp, by simp, ?_⟩
    cases maximize
    · rw [if_neg (by simp)]
      exact Dbl.ble_fin_iff.mpr le_rfl
    · rw [if_pos rfl]
      exact Dbl.ble_fin_iff.mpr le_rfl
  · by_cases hvalB : ((List.range (nr * nc)).any
        (fun idx => badEntry maximize (cost.getD idx Dbl.nan))) = true
    · rw [solve, if_neg h0, if_pos hvalB, SolveResult.mk.injEq] at h
      exact absurd h.1 (by simp)
    · have hval : ((List.range (nr * nc)).any
          (fun idx => badEntry maximize (cost.getD idx Dbl.nan))) = false := by
        cases hc : ((List.range (nr * nc)).any
            (fun idx => badEntry maximize (cost.getD idx Dbl.nan))) with
        | true => exact absurd hc hvalB
        | false => rfl
      have hvalid : ∀ idx, idx < nr * nc →
          badEntry maximize (cost.getD idx Dbl.nan) = false := by
        rw [List.any_eq_false] at hval
        intro idx hidx
        rw [← Bool.not_eq_true]
        exact hval idx (List.mem_range.mpr hidx)
      rw [solve_nosub_reduce nr nc cost maximize (by omega) (by omega) hval] at h
      by_cases htf : nc < nr
      · -- transposed working view: nrW = nc, ncW = nr
        rw [if_pos htf, if_pos htf,
          show (decide (nc < nr) : Bool) = true by simp [htf]] at h
        have hgood : ∀ i j, i < nc → j < nr →
            Matrix2d.get (⟨cost, nr, nc, true, maximize, none, none⟩ : Matrix2d α) i j
              ≠ Dbl.nan ∧
            Matrix2d.get (⟨cost, nr, nc, true, maximize, none, none⟩ : Matrix2d α) i j
              ≠ Dbl.ninf := by
          intro i j hi hj
          exact matget_good cost nr nc true maximize none none hvalid i j
            (by simpa using hj) (by simpa using hi)
        rcases hdrv : solveDriver (Matrix2d.get
            (⟨cost, nr, nc, true, maximize, none, none⟩ : Matrix2d α)) nc nr true
            with _ | pr
        · rw [hdrv] at h
          rw [finishSolve, SolveResult.mk.injEq] at h
          exact absurd h.1 (by simp)
        · rcases pr with ⟨aw, bw⟩
          rw [hdrv] at h
          simp only [finishSolve, SolveResult.mk.injEq] at h
          obtain ⟨_, ha, hb⟩ := h
          obtain ⟨st, hml, hM, hsh⟩ := solveDriver_out _ nc nr true hgood aw bw hdrv
          rcases hsh with ⟨_, hae, hbe⟩ | ⟨hcontra, _, _⟩
          swap
          · cases hcontra
          have hDD := solveDriver_distinct _ nc nr true hgood aw bw hdrv
          have hMc := hM
          obtain ⟨hul, hvl, hpl, hcl4, hrl5, _, _, hc2r, _, hmr, _, _, _, _, _⟩ := hMc
          have hclleneq : (st.col4row.map optToInt).length = nc := by
            rw [List.length_map, hcl4]
          have hordperm : List.Perm (argsort_iter (st.col4row.map optToInt))
              (List.range nc) := by
            simp only [argsort_iter, hclleneq]
            exact List.perm_insertionSort _ _
          have hordmem : ∀ x ∈ argsort_iter (st.col4row.map optToInt), x < nc :=
            fun x hx => List.mem_range.mp (hordperm.mem_iff.mp hx)
          have hordlen : (argsort_iter (st.col4row.map optToInt)).length = nc := by
            rw [hordperm.length_eq, List.length_range]
          have hcsome : ∀ i, i < nc → st.col4row.getD i none
              = some ((st.col4row.getD i none).getD 0) := by
            intro i hi
            have hs := (hmr i hi).mpr hi
            rcases hcase : st.col4row.getD i none with _ | j
            · rw [hcase] at hs
              cases hs
            · rfl
          have hclget : ∀ i, i < nc → (st.col4row.map optToInt).getD i 0
              = Int.ofNat ((st.col4row.getD i none).getD 0) := by
            intro i hi
            rw [getD_map optToInt st.col4row i 0 none (by rw [hcl4]; exact hi),
              hcsome i hi]
            rfl
          have hminc : min nr nc = nc := by omega
          have hlen_a : a.length = min nr nc := by
            rw [← ha, hae, List.length_map, hordlen, hminc]
          have hlen_b : b.length = min nr nc := by
            rw [← hb, hbe, List.length_map, hordlen, hminc]
          have hamap : a.map Int.toNat = (argsort_iter (st.col4row.map optToInt)).map
              (fun x => (st.col4row.getD x none).getD 0) := by
            rw [← ha, hae, List.map_map]
            apply List.map_congr_left
            intro x hx
            show Int.toNat ((st.col4row.map optToInt).getD x 0) = _
            rw [hclget x (hordmem x hx)]
            rfl
          have hbmap : b.map Int.toNat = argsort_iter (st.col4row.map optToInt) := by
            rw [← hb, hbe, List.map_map]
            have h2 : (argsort_iter (st.col4row.map optToInt)).map
                (Int.toNat ∘ fun x => Int.ofNat x)
                = (argsort_iter (st.col4row.map optToInt)).map id := by
              apply List.map_congr_left
              intro x hx
              rfl
            rw [h2, List.map_id]
          have houtpairs : (a.map Int.toNat).zip (b.map Int.toNat)
              = (argsort_iter (st.col4row.map optToInt)).map
                (fun x => ((st.col4row.getD x none).getD 0, x)) := by
            rw [hamap, hbmap, zip_map_self2]
          have houtsum : dblSum (((a.map Int.toNat).zip (b.map Int.toNat)).map
              (fun p => cost.getD (p.1 * nc + p.2) Dbl.nan))
              = dblSum ((List.range nc).map
                (fun x => cost.getD ((st.col4row.getD x none).getD 0 * nc + x)
                  Dbl.nan)) := by
            rw [houtpairs, List.map_map]
            exact dblSum_perm (hordperm.map _)
          have hzl : (rb.zip ra).length = nc := by
            rw [List.length_zip, hral, hrbl]
            omega
          have hzf : (rb.zip ra).map Prod.fst = rb :=
            List.map_fst_zip rb ra (by omega)
          have hzs : (rb.zip ra).map Prod.snd = ra :=
            List.map_snd_zip rb ra (by omega)
          have hRfb2 : ∀ p ∈ rb.zip ra, p.1 < nc := by
            rintro ⟨x, y⟩ hp
            exact hrbb x (List.of_mem_zip hp).1
          have hRsb2 : ∀ p ∈ rb.zip ra, p.2 < nr := by
            rintro ⟨x, y⟩ hp
            exact hrab y (List.of_mem_zip hp).2
          have hrivswap : ((ra.zip rb).map
              (fun p => cost.getD (p.1 * nc + p.2) Dbl.nan))
              = (rb.zip ra).map (fun p => cost.getD (p.2 * nc + p.1) Dbl.nan) :=
            zip_comm_map (fun x y => cost.getD (x * nc + y) Dbl.nan) ra rb
          refine ⟨hlen_a, hlen_b, by rw [← ha]; exact hDD.1,
            by rw [← hb]; exact hDD.2.1,
            by rw [← ha]; exact hDD.2.2.1, by rw [← hb]; exact hDD.2.2.2, ?_⟩
          cases maximize with
          | false =>
            rw [if_neg (by simp), houtsum, hrivswap]
            have hgeqT : ∀ i j, Matrix2d.get
                (⟨cost, nr, nc, true, false, none, none⟩ : Matrix2d α) i j
                = cost.getD (j * nc + i) Dbl.nan := fun i j => rfl
            have hml2 : ((List.range nc).map
                (fun x => cost.getD ((st.col4row.getD x none).getD 0 * nc + x)
                  Dbl.nan))
                = (List.range nc).map (fun x => Matrix2d.get
                  (⟨cost, nr, nc, true, false, none, none⟩ : Matrix2d α) x
                  ((st.col4row.getD x none).getD 0)) := by
              apply List.map_congr_left
              intro x hx
              exact (hgeqT x ((st.col4row.getD x none).getD 0)).symm
            have hrl2 : ((rb.zip ra).map
                (fun p => cost.getD (p.2 * nc + p.1) Dbl.nan))
                = (rb.zip ra).map (fun p => Matrix2d.get
                  (⟨cost, nr, nc, true, false, none, none⟩ : Matrix2d α) p.1 p.2) := by
              apply List.map_congr_left
              intro p hp
              exact (hgeqT p.1 p.2).symm
            rw [hml2, hrl2]
            exact driver_optimal _ nc nr st hM (rb.zip ra) hzl
              (by rw [hzf]; exact hrbnd) (by rw [hzs]; exact hrand) hRfb2 hRsb2
          | true =>
            rw [if_pos rfl, houtsum, hrivswap]
            have hgeqT : ∀ i j, Matrix2d.get
                (⟨cost, nr, nc, true, true, none, none⟩ : Matrix2d α) i j
                = Dbl.neg (cost.getD (j * nc + i) Dbl.nan) := fun i j => rfl
            have hml2 : ((List.range nc).map
                (fun x => cost.getD ((st.col4row.getD x none).getD 0 * nc + x)
                  Dbl.nan))
                = ((List.range nc).map (fun x => Matrix2d.get
                  (⟨cost, nr, nc, true, true, none, none⟩ : Matrix2d α) x
                  ((st.col4row.getD x none).getD 0))).map Dbl.neg := by
              rw [List.map_map]
              apply List.map_congr_left
              intro x hx
              exact ((Dbl.neg_neg (cost.getD
                ((st.col4row.getD x none).getD 0 * nc + x) Dbl.nan)).symm).trans
                (congrArg Dbl.neg (hgeqT x ((st.col4row.getD x none).getD 0)).symm)
            have hrl2 : ((rb.zip ra).map
                (fun p => cost.getD (p.2 * nc + p.1) Dbl.nan))
                = ((rb.zip ra).map (fun p => Matrix2d.get
                  (⟨cost, nr, nc, true, true, none, none⟩ : Matrix2d α) p.1 p.2)).map
                  Dbl.neg := by
              rw [List.map_map]
              apply List.map_congr_left
              intro p hp
              exact ((Dbl.neg_neg (cost.getD (p.2 * nc + p.1) Dbl.nan)).symm).trans
                (congrArg Dbl.neg (hgeqT p.1 p.2).symm)
            rw [hml2, hrl2, dblSum_neg, dblSum_neg, Dbl.ble_neg]
            exact driver_optimal _ nc nr st hM (rb.zip ra) hzl
              (by rw [hzf]; exact hrbnd) (by rw [hzs]; exact hrand) hRfb2 hRsb2
      · -- untransposed working view: nrW = nr, ncW = nc
        rw [if_neg htf, if_neg htf,
          show (decide (nc < nr) : Bool) = false by simp [htf]] at h
        have hgood : ∀ i j, i < nr → j < nc →
            Matrix2d.get (⟨cost, nr, nc, false, maximize, none, none⟩ : Matrix2d α) i j
              ≠ Dbl.nan ∧
            Matrix2d.get (⟨cost, nr, nc, false, maximize, none, none⟩ : Matrix2d α) i j
              ≠ Dbl.ninf := by
          intro i j hi hj
          exact matget_good cost nr nc false maximize none none hvalid i j
            (by simpa using hi) (by simpa using hj)
        rcases hdrv : solveDriver (Matrix2d.get
            (⟨cost, nr, nc, false, maximize, none, none⟩ : Matrix2d α)) nr nc false
            with _ | pr
        · rw [hdrv] at h
          rw [finishSolve, SolveResult.mk.injEq] at h
          exact absurd h.1 (by simp)
        · rcases pr with ⟨aw, bw⟩
          rw [hdrv] at h
          simp only [finishSolve, SolveResult.mk.injEq] at h
          obtain ⟨_, ha, hb⟩ := h
          obtain ⟨st, hml, hM, hsh⟩ := solveDriver_out _ nr nc false hgood aw bw hdrv
          rcases hsh with ⟨hcontra, _, _⟩ | ⟨_, hae, hbe⟩
          · cases hcontra
          have hDD := solveDriver_distinct _ nr nc false hgood aw bw hdrv
          have hMc := hM
          obtain ⟨hul, hvl, hpl, hcl4, hrl5, _, _, hc2r, _, hmr, _, _, _, _, _⟩ := hMc
          have hcsome : ∀ i, i < nr → st.col4row.getD i none
              = some ((st.col4row.getD i none).getD 0) := by
            intro i hi
            have hs := (hmr i hi).mpr hi
            rcases hcase : st.col4row.getD i none with _ | j
            · rw [hcase] at hs
              cases hs
            · rfl
          have hclget : ∀ i, i < nr → (st.col4row.map optToInt).getD i 0
              = Int.ofNat ((st.col4row.getD i none).getD 0) := by
            intro i hi
            rw [getD_map optToInt st.col4row i 0 none (by rw [hcl4]; exact hi),
              hcsome i hi]
            rfl
          have hminr : min nr nc = nr := by omega
          have hlen_a : a.length = min nr nc := by
            rw [← ha, hae, List.length_map, List.length_range, hminr]
          have hlen_b : b.length = min nr nc := by
            rw [← hb, hbe, List.length_map, List.length_range, hminr]
          have hamap : a.map Int.toNat = List.range nr := by
            rw [← ha, hae, List.map_map]
            have h2 : (List.range nr).map (Int.toNat ∘ fun i => Int.ofNat i)
                = (List.range nr).map id := by
              apply List.map_congr_left
              intro i hi
              rfl
            rw [h2, List.map_id]
          have hbmap : b.map Int.toNat = (List.range nr).map
              (fun i => (st.col4row.getD i none).getD 0) := by
            rw [← hb, hbe, List.map_map]
            apply List.map_congr_left
            intro i hi
            show Int.toNat ((st.col4row.map optToInt).getD i 0) = _
            rw [hclget i (List.mem_range.mp hi)]
            rfl
          have houtpairs : (a.map Int.toNat).zip (b.map Int.toNat)
              = (List.range nr).map
                (fun i => (i, (st.col4row.getD i none).getD 0)) := by
            rw [hamap, hbmap, zip_map_self]
          have houtsum : dblSum (((a.map Int.toNat).zip (b.map Int.toNat)).map
              (fun p => cost.getD (p.1 * nc + p.2) Dbl.nan))
              = dblSum ((List.range nr).map
                (fun i => cost.getD (i * nc + (st.col4row.getD i none).getD 0)
                  Dbl.nan)) := by
            rw [houtpairs, List.map_map]
            rfl
          have hzl : (ra.zip rb).length = nr := by
            rw [List.length_zip, hral, hrbl]
            omega
          have hzf : (ra.zip rb).map Prod.fst = ra :=
            List.map_fst_zip ra rb (by omega)
          have hzs : (ra.zip rb).map Prod.snd = rb :=
            List.map_snd_zip ra rb (by omega)
          have hRfb2 : ∀ p ∈ ra.zip rb, p.1 < nr := by
            rintro ⟨x, y⟩ hp
            exact hrab x (List.of_mem_zip hp).1
          have hRsb2 : ∀ p ∈ ra.zip rb, p.2 < nc := by
            rintro ⟨x, y⟩ hp
            exact hrbb y (List.of_mem_zip hp).2
          refine ⟨hlen_a, hlen_b, by rw [← ha]; exact hDD.1,
            by rw [← hb]; exact hDD.2.1,
            by rw [← ha]; exact hDD.2.2.1, by rw [← hb]; exact hDD.2.2.2, ?_⟩
          cases maximize with
          | false =>
            rw [if_neg (by simp), houtsum]
            have hgeq : ∀ i j, Matrix2d.get
                (⟨cost, nr, nc, false, false, none, none⟩ : Matrix2d α) i j
                = cost.getD (i * nc + j) Dbl.nan := fun i j => rfl
            have hml2 : ((List.range nr).map
                (fun i => cost.getD (i * nc + (st.col4row.getD i none).getD 0)
                  Dbl.nan))
                = (List.range nr).map (fun i => Matrix2d.get
                  (⟨cost, nr, nc, false, false, none, none⟩ : Matrix2d α) i
                  ((st.col4row.getD i none).getD 0)) := by
              apply List.map_congr_left
              intro i hi
              exact (hgeq i ((st.col4row.getD i none).getD 0)).symm
            have hrl2 : ((ra.zip rb).map
                (fun p => cost.getD (p.1 * nc + p.2) Dbl.nan))
                = (ra.zip rb).map (fun p => Matrix2d.get
                  (⟨cost, nr, nc, false, false, none, none⟩ : Matrix2d α) p.1 p.2) := by
              apply List.map_congr_left
              intro p hp
              exact (hgeq p.1 p.2).symm
            rw [hml2, hrl2]
            exact driver_optimal _ nr nc st hM (ra.zip rb) hzl
              (by rw [hzf]; exact hrand) (by rw [hzs]; exact hrbnd) hRfb2 hRsb2
          | true =>
            rw [if_pos rfl, houtsum]
            have hgeq : ∀ i j, Matrix2d.get
                (⟨cost, nr, nc, false, true, none, none⟩ : Matrix2d α) i j
                = Dbl.neg (cost.getD (i * nc + j) Dbl.nan) := fun i j => rfl
            have hml2 : ((List.range nr).map
                (fun i => cost.getD (i * nc + (st.col4row.getD i none).getD 0)
                  Dbl.nan))
                = ((List.range nr).map (fun i => Matrix2d.get
                  (⟨cost, nr, nc, false, true, none, none⟩ : Matrix2d α) i
                  ((st.col4row.getD i none).getD 0))).map Dbl.neg := by
              rw [List.map_map]
              apply List.map_congr_left
              intro i hi
              exact ((Dbl.neg_neg (cost.getD
                (i * nc + (st.col4row.getD i none).getD 0) Dbl.nan)).symm).trans
                (congrArg Dbl.neg (hgeq i ((st.col4row.getD i none).getD 0)).symm)
            have hrl2 : ((ra.zip rb).map
                (fun p => cost.getD (p.1 * nc + p.2) Dbl.nan))
                = ((ra.zip rb).map (fun p => Matrix2d.get
                  (⟨cost, nr, nc, false, true, none, none⟩ : Matrix2d α) p.1 p.2)).map
                  Dbl.neg := by
              rw [List.map_map]
              apply List.map_congr_left
              intro p hp
              exact ((Dbl.neg_neg (cost.getD (p.1 * nc + p.2) Dbl.nan)).symm).trans
                (congrArg Dbl.neg (hgeq p.1 p.2).symm)
            rw [hml2, hrl2, dblSum_neg, dblSum_neg, Dbl.ble_neg]
            exact driver_optimal _ nr nc st hM (ra.zip rb) hzl
              (by rw [hzf]; exact hrand) (by rw [hzs]; exact hrbnd) hRfb2 hRsb2

/-- C1 (counterexample to the claim as stated): with subscript selectors
the solver optimises only within the selected window, so its total over
the original matrix can exceed that of another assignment of the same
size: here solve picks (0,0) at cost 5 while the rival pair (0,1) costs
0. -/
theorem C1_counterexample :
    solve 1 2 ([Dbl.fin 5, Dbl.fin 0] : List (Dbl Int)) false [0] 1 [0] 1
      = ⟨Status.ok, [0], [0]⟩ ∧
    Dbl.ble
      (dblSum ((([(0 : Nat)].zip [(0 : Nat)]).map
        (fun p => ([Dbl.fin 5, Dbl.fin 0] : List (Dbl Int)).getD
          (p.1 * 2 + p.2) Dbl.nan))))
      (dblSum ((([(0 : Nat)].zip [(1 : Nat)]).map
        (fun p => ([Dbl.fin 5, Dbl.fin 0] : List (Dbl Int)).getD
          (p.1 * 2 + p.2) Dbl.nan)))) = false := by
  refine ⟨by decide, by decide⟩

/-- Witness for the amended C1 at a concrete 2-by-2 minimizing instance:
the returned assignment (0,0),(1,1) with total 2 IEEE-compares at most
the rival (0,1),(1,0) with total 20. -/
theorem C1_optimal_amended_witness :
    solve 2 2 ([Dbl.fin 1, Dbl.fin 10, Dbl.fin 10, Dbl.fin 1] : List (Dbl Int))
        false [] 0 [] 0 = ⟨Status.ok, [0, 1], [0, 1]⟩ ∧
    ([0, 1] : List Int).length = min 2 2 ∧
    Dbl.ble
      (dblSum (((([0, 1] : List Int).map Int.toNat).zip
          (([0, 1] : List Int).map Int.toNat)).map
        (fun p => ([Dbl.fin 1, Dbl.fin 10, Dbl.fin 10, Dbl.fin 1] :
          List (Dbl Int)).getD (p.1 * 2 + p.2) Dbl.nan)))
      (dblSum ((([(0 : Nat), 1].zip [(1 : Nat), 0]).map
        (fun p => ([Dbl.fin 1, Dbl.fin 10, Dbl.fin 10, Dbl.fin 1] :
          List (Dbl Int)).getD (p.1 * 2 + p.2) Dbl.nan)))) = true := by
  refine ⟨by decide, by decide, ?_⟩
  have h := C1_optimal_amended 2 2
    ([Dbl.fin 1, Dbl.fin 10, Dbl.fin 10, Dbl.fin 1] : List (Dbl Int)) false
    [0, 1] [0, 1] (by decide) [0, 1] [1, 0] (by decide) (by decide)
    (by decide) (by decide) (by decide) (by decide)
  have h2 := h.2.2.2.2.2.2
  rw [if_neg (by simp)] at h2
  exact h2

/-- Witness for the amended C9: a square minimizing instance whose first
row is all +infinity returns INFEASIBLE. -/
theorem C9_infeasible_amended_witness :
    solve 2 2 ([Dbl.pinf, Dbl.pinf, Dbl.fin 1, Dbl.fin 2] : List (Dbl Int))
      false [] 0 [] 0 = ⟨Status.infeasible, [], []⟩ :=
  C9_infeasible_amended.2.2 2 2 [Dbl.pinf, Dbl.pinf, Dbl.fin 1, Dbl.fin 2]
    (by decide) (by decide) (by decide) 0 (by decide) (by decide)

end Nanolsap
